import Mathlib

/-!
# Verification of the Bayes-net variable-elimination engine (`bnetbase.py`)

Shallow embedding of the Variable / Factor / BN data model and the VE
pipeline (restriction, min-fill ordering, sum-product elimination,
normalization).

Modelling conventions:

* Python floats are modelled as rationals (`ℚ`), so arithmetic facts are
  exact.
* A Python `Variable` object has two mutable integer slots.  Its
  `assignment_index` slot is process-wide shared state read by every factor
  whose scope mentions the variable; we model that state as a map
  `AState = Nat → Nat` from the variable's object identity (field `id`) to
  its current assignment index, threaded through every operation exactly
  where the Python code reads or writes it.  The remaining fields
  (`name`, `dom`, `evidence_index`) are not mutated during inference and are
  carried in the record `BVar`.  Python object identity is modelled by the
  `id` field: distinct objects carry distinct ids.
* Operations that raise in Python (`list.index` on a missing value, indexing
  a list out of range, division by zero) are modelled either with an
  explicit `Except` result (for `VE`'s normalization) or, for table reads
  and writes, with `List.getD _ _ 0` / `List.set` (whose out-of-range
  behaviour is only exercised here under hypotheses that keep every access
  in bounds, mirroring runs where Python does not raise).
* `Variable.__init__`-style incremental domain growth and the raw index
  setters are modelled separately (`PyVariable`, `VarOp`) for the claims
  about the `Variable` class itself.
-/

set_option linter.unusedSectionVars false
set_option linter.unusedVariables false

namespace BnetBase

/-- The shared mutable assignment state: object id ↦ current
`assignment_index`. -/
abbrev AState := Nat → Nat

/-- Pointwise state update (one `assignment_index` write). -/
def updState (σ : AState) (i x : Nat) : AState := fun j => if j = i then x else σ j

/-- The immutable-during-inference part of a Python `Variable` object:
its identity, `name`, ordered `dom`, and current `evidence_index`. -/
structure BVar (Val : Type) where
  id : Nat
  name : String
  dom : List Val
deriving DecidableEq

/-- A Python `Variable` together with its `evidence_index` slot (set by
`set_evidence` before `VE` runs and only read during inference). -/
structure EVar (Val : Type) where
  var : BVar Val
  evidence_index : Nat
deriving DecidableEq

instance {Val : Type} : Inhabited (BVar Val) := ⟨⟨0, "", []⟩⟩

variable {Val : Type} [DecidableEq Val] [Inhabited Val]

/-- `Variable.value_index`: position of a value in the domain list
(Python `list.index`; raises if absent — here `List.indexOf`, with every
verified use guarded by membership). -/
def value_index (v : BVar Val) (x : Val) : Nat := v.dom.indexOf x

/-- `Variable.domain_size`. -/
def domain_size (v : BVar Val) : Nat := v.dom.length

/-- `Variable.set_assignment`: `assignment_index = dom.index(val)`. -/
def set_assignment (v : BVar Val) (x : Val) (σ : AState) : AState :=
  updState σ v.id (value_index v x)

/-- `Variable.get_evidence`: `dom[evidence_index]`. -/
def get_evidence (e : EVar Val) : Val := e.var.dom.getD e.evidence_index default

/-- A Python `Factor` object: `name`, ordered `scope`, flat `values` table. -/
structure BFactor (Val : Type) where
  name : String
  scope : List (BVar Val)
  values : List ℚ
deriving DecidableEq

/-- Table size of `Factor.__init__`: `size = 1; for v in scope: size *= v.domain_size()`. -/
def prodSize (scope : List (BVar Val)) : Nat :=
  scope.foldl (fun s v => s * domain_size v) 1

/-- `Factor.__init__`: fresh factor with an all-zero table of length `prodSize scope`. -/
def mkFactor (name : String) (scope : List (BVar Val)) : BFactor Val :=
  ⟨name, scope, List.replicate (prodSize scope) 0⟩

/-- `Factor.get_scope` (returns a copy; lists are values here). -/
def get_scope (f : BFactor Val) : List (BVar Val) := f.scope

/-- The mixed-radix index computed from the scope variables' current
assignment indices: `index = index * v.domain_size() + v.get_assignment_index()`. -/
def idx_at_assignment (scope : List (BVar Val)) (σ : AState) : Nat :=
  scope.foldl (fun idx v => idx * domain_size v + σ v.id) 0

/-- `Factor.get_value_at_current_assignments`. -/
def get_value_at_current_assignments (f : BFactor Val) (σ : AState) : ℚ :=
  f.values.getD (idx_at_assignment f.scope σ) 0

/-- `Factor.add_value_at_current_assignment`. -/
def add_value_at_current_assignment (f : BFactor Val) (number : ℚ) (σ : AState) :
    BFactor Val :=
  { f with values := f.values.set (idx_at_assignment f.scope σ) number }

/-- The mixed-radix index computed from an explicit list of domain values,
as in `Factor.add_values` and `Factor.get_value`:
`index = index * v.domain_size() + v.value_index(t[0]); t = t[1:]`.
(Python raises `IndexError` when the value list is shorter than the scope;
verified uses supply one value per scope variable.) -/
def idx_of_values (scope : List (BVar Val)) (vals : List Val) (acc : Nat) : Nat :=
  match scope, vals with
  | [], _ => acc
  | _ :: _, [] => acc
  | v :: s, x :: xs => idx_of_values s xs (acc * domain_size v + value_index v x)

/-- `Factor.add_values`: each row is the ordered list of scope-variable
values together with the trailing numeric entry. -/
def add_values (f : BFactor Val) (rows : List (List Val × ℚ)) : BFactor Val :=
  rows.foldl
    (fun f t => { f with values := f.values.set (idx_of_values f.scope t.1 0) t.2 }) f

/-- `Factor.get_value`. -/
def get_value (f : BFactor Val) (vals : List Val) : ℚ :=
  f.values.getD (idx_of_values f.scope vals 0) 0

/-- A Python `BN` object (its constructor only prints a diagnostic on a
scope/variable mismatch and continues, so it has no state effect to model). -/
structure BNet (Val : Type) where
  name : String
  Variables : List (BVar Val)
  Factors : List (BFactor Val)

/-- `BN.factors` (returns a copy of the factor list). -/
def factors (net : BNet Val) : List (BFactor Val) := net.Factors

/-- `get_var_in_scope`: first variable of the factor's scope whose NAME
equals the given variable's name (`var.name == var2.name`), else `None`. -/
def get_var_in_scope (f : BFactor Val) (var2 : BVar Val) : Option (BVar Val) :=
  f.scope.find? (fun var => var.name == var2.name)

/-- `assign(var, val, F)`: for each factor in `F` whose scope mentions a
variable named like `var`, set that scope variable's assignment to `val`;
return the list of factors that were assigned (and the updated state). -/
def assign (var : BVar Val) (val : Val) (F : List (BFactor Val)) (σ : AState) :
    List (BFactor Val) × AState :=
  match F with
  | [] => ([], σ)
  | f :: rest =>
    match get_var_in_scope f var with
    | some fvar =>
      let σ1 := set_assignment fvar val σ
      let r := assign var val rest σ1
      (f :: r.1, r.2)
    | none => assign var val rest σ

/-- Product of the factors' values at the current assignments
(`product = 1; for f in F: product = product * f.get_value_at_current_assignments()`). -/
def prodFactors (F : List (BFactor Val)) (σ : AState) : ℚ :=
  F.foldl (fun p f => p * get_value_at_current_assignments f σ) 1

/-- `compute(g, scope, F)`: enumerate all assignments of the remaining
`scope` variables; at each complete assignment add the product of the `F`
factors' current values into `g`'s table entry for the current assignment.
The `for val in var.domain()` loop is the fold over `var.dom`; see
`computeVals` and `compute_cons` for the unfolded loop view. -/
def compute (g : BFactor Val) (scope : List (BVar Val)) (F : List (BFactor Val))
    (σ : AState) : BFactor Val × AState :=
  match scope with
  | [] =>
    let product := prodFactors F σ
    let old_val := get_value_at_current_assignments g σ
    (add_value_at_current_assignment g (old_val + product) σ, σ)
  | var :: rest =>
    var.dom.foldl
      (fun acc val =>
        let σ1 := (assign var val [acc.1] acc.2).2
        let σ2 := (assign var val F σ1).2
        compute acc.1 rest F σ2)
      (g, σ)

/-- The `for val in var.domain()` loop inside `compute`, as an explicit
recursion (equal to the fold in `compute`, see `compute_cons`). -/
def computeVals (g : BFactor Val) (var : BVar Val) (rest : List (BVar Val))
    (F : List (BFactor Val)) (σ : AState) (vals : List Val) : BFactor Val × AState :=
  match vals with
  | [] => (g, σ)
  | val :: more =>
    let σ1 := (assign var val [g] σ).2
    let σ2 := (assign var val F σ1).2
    let r := compute g rest F σ2
    computeVals r.1 var rest F r.2 more

theorem computeVals_foldl (var : BVar Val) (rest : List (BVar Val))
    (F : List (BFactor Val)) (vals : List Val) :
    ∀ (g : BFactor Val) (σ : AState),
    vals.foldl
      (fun acc val =>
        let σ1 := (assign var val [acc.1] acc.2).2
        let σ2 := (assign var val F σ1).2
        compute acc.1 rest F σ2)
      (g, σ) = computeVals g var rest F σ vals := by
  induction vals with
  | nil => intro g σ; rfl
  | cons val more ih =>
    intro g σ
    simp only [List.foldl, computeVals]
    exact ih _ _

theorem compute_cons (g : BFactor Val) (var : BVar Val) (rest : List (BVar Val))
    (F : List (BFactor Val)) (σ : AState) :
    compute g (var :: rest) F σ = computeVals g var rest F σ var.dom :=
  computeVals_foldl var rest F var.dom g σ

/-- The body of `restrict`'s inner loop for one factor: if the factor
mentions the evidence variable, assign the evidence value to it, build the
factor `g` over the scope with that variable removed, fill `g` by
`compute(g, g_scope, [factor])`, and replace the factor with `g`. -/
def restrictFactor (e : EVar Val) (factor : BFactor Val) (σ : AState) :
    BFactor Val × AState :=
  match get_var_in_scope factor e.var with
  | some var =>
    let σ1 := set_assignment var (get_evidence e) σ
    let g_scope := (get_scope factor).erase var
    let g := mkFactor "" g_scope
    compute g g_scope [factor] σ1
  | none => (factor, σ)

/-- `restrict`'s inner loop over `range(0, len(factors))` for one evidence
variable. -/
def restrictPass (e : EVar Val) (factorList : List (BFactor Val)) (σ : AState) :
    List (BFactor Val) × AState :=
  match factorList with
  | [] => ([], σ)
  | f :: rest =>
    let r1 := restrictFactor e f σ
    let r2 := restrictPass e rest r1.2
    (r1.1 :: r2.1, r2.2)

/-- `restrict(factors, EvidenceVars)`: replace each factor that mentions an
evidence variable with its restriction. -/
def restrict (factorList : List (BFactor Val)) (EvidenceVars : List (EVar Val))
    (σ : AState) : List (BFactor Val) × AState :=
  match EvidenceVars with
  | [] => (factorList, σ)
  | e :: rest =>
    let r := restrictPass e factorList σ
    restrict r.1 rest r.2

/-- `compute_fill(scopes, var)`: first-seen-order union of the scopes that
contain `var`, with `var` removed, together with its size. -/
def compute_fill (scopes : List (List (BVar Val))) (var : BVar Val) :
    Nat × List (BVar Val) :=
  let union :=
    scopes.foldl
      (fun u s =>
        if var ∈ s then s.foldl (fun u v => if v ∈ u then u else u ++ [v]) u else u)
      []
  let union := union.erase var
  (union.length, union)

/-- The `for v in Vars[1:]` loop of `min_fill_var` (strict improvement only,
so ties keep the earliest variable). -/
def min_fill_loop (scopes : List (List (BVar Val))) (rest : List (BVar Val))
    (minv : BVar Val) (minfill : Nat) (min_new_scope : List (BVar Val)) :
    BVar Val × Nat × List (BVar Val) :=
  match rest with
  | [] => (minv, minfill, min_new_scope)
  | v :: more =>
    let r := compute_fill scopes v
    if r.1 < minfill then min_fill_loop scopes more v r.1 r.2
    else min_fill_loop scopes more minv minfill min_new_scope

/-- `min_fill_var(scopes, Vars)` (Python indexes `Vars[0]`, raising on an
empty list; the caller's loop guard keeps `Vars` nonempty). -/
def min_fill_var (scopes : List (List (BVar Val))) (Vars : List (BVar Val)) :
    BVar Val × Nat × List (BVar Val) :=
  match Vars with
  | [] => (default, 0, [])
  | v0 :: rest =>
    let r := compute_fill scopes v0
    min_fill_loop scopes rest v0 r.1 r.2

/-- `remove_var(var, new_scope, scopes)`. -/
def remove_var (var : BVar Val) (new_scope : List (BVar Val))
    (scopes : List (List (BVar Val))) : List (List (BVar Val)) :=
  (scopes.filter fun s => decide (var ∉ s)) ++ [new_scope]

/-- The `Vars` collection loop of `min_fill_ordering`: all scope variables
except `QueryVar`, first-seen order, no duplicates. -/
def collectVars (scopes : List (List (BVar Val))) (QueryVar : BVar Val) :
    List (BVar Val) :=
  scopes.foldl
    (fun Vars s =>
      s.foldl (fun Vars v => if v ∉ Vars ∧ v ≠ QueryVar then Vars ++ [v] else Vars) Vars)
    []

theorem min_fill_loop_mem {Val : Type} [DecidableEq Val]
    (scopes : List (List (BVar Val))) (rest : List (BVar Val)) (minv : BVar Val)
    (mf : Nat) (mns : List (BVar Val)) :
    (min_fill_loop scopes rest minv mf mns).1 = minv ∨
      (min_fill_loop scopes rest minv mf mns).1 ∈ rest := by
  induction rest generalizing minv mf mns with
  | nil => simp [min_fill_loop]
  | cons v more ih =>
    simp only [min_fill_loop]
    by_cases h : (compute_fill scopes v).1 < mf
    · simp only [h, if_true]
      rcases ih v (compute_fill scopes v).1 (compute_fill scopes v).2 with h1 | h1
      · right; simp [h1]
      · right; simp [h1]
    · simp only [h, if_false]
      rcases ih minv mf mns with h1 | h1
      · left; exact h1
      · right; simp [h1]

theorem min_fill_var_mem {Val : Type} [DecidableEq Val]
    (scopes : List (List (BVar Val))) (Vars : List (BVar Val)) (h : Vars ≠ []) :
    (min_fill_var scopes Vars).1 ∈ Vars := by
  cases Vars with
  | nil => exact absurd rfl h
  | cons v0 rest =>
    simp only [min_fill_var]
    rcases min_fill_loop_mem scopes rest v0 (compute_fill scopes v0).1
        (compute_fill scopes v0).2 with h1 | h1
    · simp [h1]
    · simp [h1]

/-- The `while Vars` loop of `min_fill_ordering`, with an explicit fuel
argument.  `min_fill_var` always returns a member of `Vars`
(`min_fill_var_mem`), so each iteration shrinks `Vars` by exactly one and
fuel `Vars.length` runs the loop to completion; `min_fill_aux_fuel_stable`
shows that any fuel of at least `Vars.length` gives the same list. -/
def min_fill_aux_fuel :
    Nat → List (List (BVar Val)) → List (BVar Val) → List (BVar Val)
  | 0, _, _ => []
  | _ + 1, _, [] => []
  | n + 1, scopes, v :: vs =>
    let r := min_fill_var scopes (v :: vs)
    r.1 :: min_fill_aux_fuel n (remove_var r.1 r.2.2 scopes) ((v :: vs).erase r.1)

/-- The `while Vars` loop of `min_fill_ordering`. -/
def min_fill_aux (scopes : List (List (BVar Val))) (Vars : List (BVar Val)) :
    List (BVar Val) :=
  min_fill_aux_fuel Vars.length scopes Vars

theorem min_fill_aux_fuel_nilVars (n : Nat) (scopes : List (List (BVar Val))) :
    min_fill_aux_fuel n scopes [] = [] := by
  cases n <;> rfl

theorem min_fill_aux_fuel_stable (n : Nat) :
    ∀ (m : Nat) (scopes : List (List (BVar Val))) (Vars : List (BVar Val)),
    Vars.length ≤ n → Vars.length ≤ m →
    min_fill_aux_fuel n scopes Vars = min_fill_aux_fuel m scopes Vars := by
  induction n with
  | zero =>
    intro m scopes Vars hn _
    have : Vars = [] := List.eq_nil_of_length_eq_zero (Nat.le_zero.mp hn)
    subst this
    rw [min_fill_aux_fuel_nilVars, min_fill_aux_fuel_nilVars]
  | succ n ih =>
    intro m scopes Vars hn hm
    cases Vars with
    | nil => rw [min_fill_aux_fuel_nilVars, min_fill_aux_fuel_nilVars]
    | cons v vs =>
      cases m with
      | zero => simp at hm
      | succ m =>
        simp only [min_fill_aux_fuel]
        have hmem : (min_fill_var scopes (v :: vs)).1 ∈ v :: vs :=
          min_fill_var_mem scopes (v :: vs) (by simp)
        have hlen := List.length_erase_of_mem hmem
        have hl : (v :: vs).length = vs.length + 1 := by simp
        congr 1
        apply ih
        · omega
        · omega

/-- `min_fill_ordering(Factors, QueryVar)`. -/
def min_fill_ordering (Factors : List (BFactor Val)) (QueryVar : BVar Val) :
    List (BVar Val) :=
  let scopes := Factors.map get_scope
  min_fill_aux scopes (collectVars scopes QueryVar)

/-- The `for z_val in z.domain()` loop of `eliminateZ`: `F` is rebound to the
factors that mention `z` and one sum-product `compute` pass accumulates into
`g`. -/
def eliminateLoop (factorList : List (BFactor Val)) (z : BVar Val)
    (g_scope : List (BVar Val)) (g : BFactor Val) (F : List (BFactor Val))
    (σ : AState) (vals : List Val) :
    BFactor Val × List (BFactor Val) × AState :=
  match vals with
  | [] => (g, F, σ)
  | val :: more =>
    let rA := assign z val factorList σ
    let rC := compute g g_scope rA.1 rA.2
    eliminateLoop factorList z g_scope rC.1 rA.1 rC.2 more

/-- One iteration of the `while orderedList` loop of `eliminateZ`: the
replacement factor `g` is built over `list(orderedList) + [QueryVar]` (the
not-yet-eliminated ordering followed by the query variable), the factors
that mention `z` are removed, and `g` is appended. -/
def eliminateStep (factorList : List (BFactor Val)) (z : BVar Val)
    (rest : List (BVar Val)) (QueryVar : BVar Val) (σ : AState) :
    List (BFactor Val) × AState :=
  let g_scope := rest ++ [QueryVar]
  let g := mkFactor "" g_scope
  let r := eliminateLoop factorList z g_scope g [] σ z.dom
  ((r.2.1.foldl (fun l f => l.erase f) factorList) ++ [r.1], r.2.2)

/-- `eliminateZ(factors, orderedList, QueryVar)`. -/
def eliminateZ (factorList : List (BFactor Val)) (orderedList : List (BVar Val))
    (QueryVar : BVar Val) (σ : AState) : List (BFactor Val) × AState :=
  match orderedList with
  | [] => (factorList, σ)
  | z :: rest =>
    let r := eliminateStep factorList z rest QueryVar σ
    eliminateZ r.1 rest QueryVar r.2

/-- The per-query-value loop of `VE` step 3A, accumulating the unnormalized
distribution and the running sum. -/
def distLoop (fs : List (BFactor Val)) (QueryVar : BVar Val) (σ : AState)
    (vals : List Val) (dist : List ℚ) (s : ℚ) : List ℚ × ℚ × AState :=
  match vals with
  | [] => (dist, s, σ)
  | val :: more =>
    let σ1 := (assign QueryVar val fs σ).2
    let product := prodFactors fs σ1
    distLoop fs QueryVar σ1 more (dist ++ [product]) (s + product)

/-- The type of `orderingFn` arguments of `VE`. -/
abbrev OrderingFn (Val : Type) := List (BFactor Val) → BVar Val → List (BVar Val)

/-- `VE` up to (but not including) normalization: the unnormalized
distribution, the running sum, and the final shared state. -/
def VErun (Net : BNet Val) (QueryVar : BVar Val) (EvidenceVars : List (EVar Val))
    (orderingFn : OrderingFn Val) (σ : AState) : List ℚ × ℚ × AState :=
  let newFactors := factors Net
  let r1 := restrict newFactors EvidenceVars σ
  let Z := orderingFn r1.1 QueryVar
  let r2 := eliminateZ r1.1 Z QueryVar r1.2
  distLoop r2.1 QueryVar r2.2 QueryVar.dom [] 0

/-- `VE(Net, QueryVar, EvidenceVars, orderingFn)`.  The normalization loop
`dist[i] = dist[i] / sum` raises `ZeroDivisionError` exactly when the sum is
zero and there is at least one entry to divide. -/
def VE (Net : BNet Val) (QueryVar : BVar Val) (EvidenceVars : List (EVar Val))
    (orderingFn : OrderingFn Val) (σ : AState) : Except String (List ℚ) :=
  let r := VErun Net QueryVar EvidenceVars orderingFn σ
  if r.2.1 = 0 ∧ r.1 ≠ [] then .error "ZeroDivisionError"
  else .ok (r.1.map fun x => x / r.2.1)

mutual

/-- The state effect of `Factor.recursive_print_values` (the printing itself
is pure output; the enumeration drives each scope variable through its
domain via `set_assignment`). -/
def recursive_print_values (f : BFactor Val) (vars : List (BVar Val)) (σ : AState) :
    AState :=
  match vars with
  | [] => σ
  | v :: rest => recPrintLoop f v rest σ v.dom
termination_by (vars.length, 1, 0)

/-- The `for val in vars[0].domain()` loop inside `recursive_print_values`. -/
def recPrintLoop (f : BFactor Val) (v : BVar Val) (rest : List (BVar Val))
    (σ : AState) (vals : List Val) : AState :=
  match vals with
  | [] => σ
  | val :: more =>
    let σ1 := recursive_print_values f rest (set_assignment v val σ)
    recPrintLoop f v rest σ1 more
termination_by (rest.length + 1, 0, vals.length)

end

/-- The restore loop at the end of `Factor.print_table`
(`v.set_assignment_index(saved_values[0]); saved_values = saved_values[1:]`). -/
def restoreLoop (vars : List (BVar Val)) (saved : List Nat) (σ : AState) : AState :=
  match vars with
  | [] => σ
  | v :: vs => restoreLoop vs saved.tail (updState σ v.id (saved.headD 0))

/-- The state effect of `Factor.print_table`: save every scope variable's
`assignment_index`, run the printing enumeration, restore the saved indices. -/
def print_table (f : BFactor Val) (σ : AState) : AState :=
  let saved := f.scope.map fun v => σ v.id
  let σ1 := recursive_print_values f f.scope σ
  restoreLoop f.scope saved σ1

/-! ## Basic lemmas about states and tables -/

theorem updState_self (σ : AState) (i x : Nat) : updState σ i x i = x := by
  simp [updState]

theorem updState_ne (σ : AState) {i j : Nat} (x : Nat) (h : j ≠ i) :
    updState σ i x j = σ j := by
  simp [updState, h]

theorem getD_set_self {l : List ℚ} {i : Nat} (a : ℚ) (h : i < l.length) :
    (l.set i a).getD i 0 = a := by
  simp [List.getD, List.getElem?_set_self', h]

theorem getD_set_ne (l : List ℚ) {i j : Nat} (a : ℚ) (h : i ≠ j) :
    (l.set i a).getD j 0 = l.getD j 0 := by
  simp [List.getD, List.getElem?_set_ne h]

theorem getD_mem_or {l : List ℚ} (i : Nat) : l.getD i 0 ∈ l ∨ l.getD i 0 = 0 := by
  show (l.get? i).getD 0 ∈ l ∨ (l.get? i).getD 0 = 0
  cases hx : l.get? i with
  | none => simp [hx]
  | some a =>
    simp only [Option.getD_some]
    exact Or.inl (List.get?_mem hx)

theorem getD_nonneg {l : List ℚ} (h : ∀ x ∈ l, 0 ≤ x) (i : Nat) : 0 ≤ l.getD i 0 := by
  rcases @getD_mem_or l i with hm | hm
  · exact h _ hm
  · rw [hm]

/-! ## Mixed-radix index machinery -/

theorem value_index_lt {v : BVar Val} {x : Val} (h : x ∈ v.dom) :
    value_index v x < domain_size v :=
  List.indexOf_lt_length.mpr h

theorem value_index_indexOf_getD {v : BVar Val} (hnd : v.dom.Nodup) {i : Nat}
    (h : i < v.dom.length) : value_index v (v.dom.getD i default) = i := by
  have hg : v.dom.getD i default = v.dom.get ⟨i, h⟩ := by
    simp [List.getD, List.getElem?_eq_getElem h]
  rw [hg]
  exact List.get_indexOf hnd _

theorem prodSize_foldl_acc (scope : List (BVar Val)) (a : Nat) :
    scope.foldl (fun s v => s * domain_size v) a = a * prodSize scope := by
  induction scope generalizing a with
  | nil => simp [prodSize]
  | cons v s ih =>
    simp only [List.foldl, prodSize]
    rw [ih (a * domain_size v), ih (1 * domain_size v)]
    ring

theorem prodSize_cons (v : BVar Val) (s : List (BVar Val)) :
    prodSize (v :: s) = domain_size v * prodSize s := by
  show List.foldl (fun s v => s * domain_size v) (1 * domain_size v) s = _
  rw [prodSize_foldl_acc]
  ring

theorem prodSize_nil : prodSize ([] : List (BVar Val)) = 1 := rfl

/-- `idx_at_assignment` with an explicit starting accumulator. -/
def idxFrom (scope : List (BVar Val)) (σ : AState) (acc : Nat) : Nat :=
  scope.foldl (fun idx v => idx * domain_size v + σ v.id) acc

theorem idx_at_assignment_eq (scope : List (BVar Val)) (σ : AState) :
    idx_at_assignment scope σ = idxFrom scope σ 0 := rfl

theorem idxFrom_nil (σ : AState) (acc : Nat) :
    idxFrom ([] : List (BVar Val)) σ acc = acc := rfl

theorem idxFrom_cons (v : BVar Val) (s : List (BVar Val)) (σ : AState) (acc : Nat) :
    idxFrom (v :: s) σ acc = idxFrom s σ (acc * domain_size v + σ v.id) := rfl

theorem idxFrom_congr {scope : List (BVar Val)} {σ σ' : AState}
    (h : ∀ v ∈ scope, σ v.id = σ' v.id) (acc : Nat) :
    idxFrom scope σ acc = idxFrom scope σ' acc := by
  induction scope generalizing acc with
  | nil => rfl
  | cons v s ih =>
    rw [idxFrom_cons, idxFrom_cons, h v (by simp)]
    exact ih (fun w hw => h w (by simp [hw])) _

/-- The state assigns a legal position to every variable of the scope. -/
def validOn (scope : List (BVar Val)) (σ : AState) : Prop :=
  ∀ v ∈ scope, σ v.id < domain_size v

theorem prodSize_pos {scope : List (BVar Val)} {σ : AState} (h : validOn scope σ) :
    0 < prodSize scope := by
  induction scope with
  | nil => simp [prodSize_nil]
  | cons v s ih =>
    rw [prodSize_cons]
    have hv : 0 < domain_size v :=
      Nat.lt_of_le_of_lt (Nat.zero_le (σ v.id)) (h v (by simp))
    exact Nat.mul_pos hv (ih fun w hw => h w (by simp [hw]))

theorem idxFrom_lt {scope : List (BVar Val)} {σ : AState} (h : validOn scope σ)
    (acc : Nat) : idxFrom scope σ acc < (acc + 1) * prodSize scope := by
  induction scope generalizing acc with
  | nil => simp [idxFrom_nil, prodSize_nil]
  | cons v s ih =>
    rw [idxFrom_cons, prodSize_cons]
    have h1 : idxFrom s σ (acc * domain_size v + σ v.id) <
        (acc * domain_size v + σ v.id + 1) * prodSize s :=
      ih (fun w hw => h w (by simp [hw])) _
    have h2 : σ v.id + 1 ≤ domain_size v := h v (by simp)
    calc idxFrom s σ (acc * domain_size v + σ v.id)
        < (acc * domain_size v + σ v.id + 1) * prodSize s := h1
      _ ≤ (acc * domain_size v + domain_size v) * prodSize s := by
          apply Nat.mul_le_mul_right
          omega
      _ = (acc + 1) * (domain_size v * prodSize s) := by ring

theorem idxFrom_inj {scope : List (BVar Val)} {σ σ' : AState} (h : validOn scope σ)
    (h' : validOn scope σ') {acc acc' : Nat}
    (heq : idxFrom scope σ acc = idxFrom scope σ' acc') :
    acc = acc' ∧ ∀ v ∈ scope, σ v.id = σ' v.id := by
  induction scope generalizing acc acc' with
  | nil => exact ⟨heq, by simp⟩
  | cons v s ih =>
    rw [idxFrom_cons, idxFrom_cons] at heq
    obtain ⟨h1, h2⟩ := ih (fun w hw => h w (by simp [hw]))
      (fun w hw => h' w (by simp [hw])) heq
    have hv : σ v.id < domain_size v := h v (by simp)
    have hv' : σ' v.id < domain_size v := h' v (by simp)
    have hn : 0 < domain_size v := Nat.lt_of_le_of_lt (Nat.zero_le _) hv
    have hdiv : ∀ x y : ℕ, y < domain_size v →
        (x * domain_size v + y) / domain_size v = x := by
      intro x y hy
      rw [Nat.mul_comm x (domain_size v), Nat.mul_add_div hn, Nat.div_eq_of_lt hy,
        Nat.add_zero]
    have hacc : acc = acc' := by
      have hd := hdiv acc (σ v.id) hv
      rw [h1, hdiv acc' (σ' v.id) hv'] at hd
      omega
    refine ⟨hacc, ?_⟩
    intro w hw
    rcases List.mem_cons.mp hw with hwv | hws
    · subst hwv
      subst hacc
      omega
    · exact h2 w hws

/-- Alignment of a scope with an explicit value tuple: one value per
variable, each in that variable's domain. -/
def TupleFor (scope : List (BVar Val)) (vals : List Val) : Prop :=
  List.Forall₂ (fun v x => x ∈ v.dom) scope vals

theorem idx_of_values_lt {scope : List (BVar Val)} {vals : List Val}
    (h : TupleFor scope vals) (acc : Nat) :
    idx_of_values scope vals acc < (acc + 1) * prodSize scope := by
  induction h generalizing acc with
  | nil => simp [idx_of_values, prodSize_nil]
  | @cons v x s xs hvx _ ih =>
    simp only [idx_of_values]
    rw [prodSize_cons]
    have h2 : value_index v x + 1 ≤ domain_size v := value_index_lt hvx
    calc idx_of_values s xs (acc * domain_size v + value_index v x)
        < (acc * domain_size v + value_index v x + 1) * prodSize s := ih _
      _ ≤ (acc * domain_size v + domain_size v) * prodSize s := by
          apply Nat.mul_le_mul_right
          omega
      _ = (acc + 1) * (domain_size v * prodSize s) := by ring

/-! ## Concrete material for witnesses and counterexamples -/

/-- Concrete binary variable `A`. -/
def cA : BVar Nat := ⟨0, "A", [0, 1]⟩

/-- Concrete ternary variable `B`. -/
def cB : BVar Nat := ⟨1, "B", [0, 1, 2]⟩

/-- The all-zero assignment state. -/
def σZero : AState := fun _ => 0

/-! ## C6: `add_values` / `get_value` round trip -/

/-- **C6.** For every Factor whose scope variables have distinct domain
values, and for every assignment tuple in the full cross-product of the
scope variables' domains, writing a value `x` for that tuple via
`add_values` and then reading the same tuple via `get_value` returns
exactly `x`.  (`f.values.length = prodSize f.scope` is the table-sizing
invariant `Factor.__init__` establishes for every factor the program
creates.) -/
theorem claim_C6_roundtrip (f : BFactor Val) (vals : List Val) (x : ℚ)
    (hlen : f.values.length = prodSize f.scope)
    (hnd : ∀ v ∈ f.scope, v.dom.Nodup)
    (hmem : TupleFor f.scope vals) :
    get_value (add_values f [(vals, x)]) vals = x := by
  have hidx : idx_of_values f.scope vals 0 < f.values.length := by
    rw [hlen]
    simpa using idx_of_values_lt hmem 0
  show (f.values.set (idx_of_values f.scope vals 0) x).getD
      (idx_of_values f.scope vals 0) 0 = x
  exact getD_set_self x hidx

/-- Witness for C6 at the concrete factor over `[A, B]` and tuple `[1, 2]`. -/
theorem claim_C6_roundtrip_witness :
    get_value (add_values (mkFactor "f" [cA, cB]) [([1, 2], 7/2)]) [1, 2] = 7/2 :=
  claim_C6_roundtrip (mkFactor "f" [cA, cB]) [1, 2] (7/2) (by decide) (by decide)
    (by constructor <;> [decide; skip]
        constructor <;> [decide; skip]
        constructor)

/-! ## C8: validity of `evidence_index` / `assignment_index` -/

/-- The full mutable state of one Python `Variable` object. -/
structure PyVariable (Val : Type) where
  name : String
  dom : List Val
  evidence_index : Nat
  assignment_index : Nat
deriving DecidableEq

/-- `Variable.__init__(name, domain)`: both index slots start at `0`. -/
def Variable_init (name : String) (domain : List Val) : PyVariable Val :=
  ⟨name, domain, 0, 0⟩

/-- The public mutating operations of the `Variable` class. -/
inductive VarOp (Val : Type) where
  | addDomainValues (vals : List Val)
  | setEvidence (val : Val)
  | setAssignment (val : Val)
  | setAssignmentIdx (i : Nat)
deriving DecidableEq

/-- One operation.  `set_evidence` / `set_assignment` call
`value_index`, which raises before any slot is written when the value is
absent from the domain, so a failing call leaves the state unchanged.
`set_assignment_index` stores the raw index with no bounds check. -/
def applyOp (s : PyVariable Val) : VarOp Val → PyVariable Val
  | .addDomainValues vs => { s with dom := s.dom ++ vs }
  | .setEvidence v =>
      if v ∈ s.dom then { s with evidence_index := s.dom.indexOf v } else s
  | .setAssignment v =>
      if v ∈ s.dom then { s with assignment_index := s.dom.indexOf v } else s
  | .setAssignmentIdx i => { s with assignment_index := i }

/-- A sequence of public operations. -/
def applyOps (s : PyVariable Val) (ops : List (VarOp Val)) : PyVariable Val :=
  ops.foldl applyOp s

/-- Both index slots are valid positions in the domain. -/
def idxValid (s : PyVariable Val) : Prop :=
  s.evidence_index < s.dom.length ∧ s.assignment_index < s.dom.length

instance (s : PyVariable Val) : Decidable (idxValid s) := by
  unfold idxValid
  infer_instance

/-- A raw `set_assignment_index` call is in bounds for the state it hits;
all other operations are unconditionally safe. -/
def opSafe (s : PyVariable Val) : VarOp Val → Bool
  | .setAssignmentIdx i => decide (i < s.dom.length)
  | _ => true

/-- Every raw `set_assignment_index` call of the sequence is in bounds at
the moment it executes. -/
def SafeOps (s : PyVariable Val) : List (VarOp Val) → Bool
  | [] => true
  | op :: rest => opSafe s op && SafeOps (applyOp s op) rest

/-- **C8, counterexample.**  The claim quantifies over every sequence of
public operations, but `set_assignment_index` performs no bounds check:
after `Variable("A", [0,1]).set_assignment_index(5)` the assignment index
is `5` in a domain of size `2`.  (Construction with the default empty
domain likewise starts with both indices at `0` in a domain of size `0`.) -/
theorem claim_C8_counterexample :
    ¬ idxValid (applyOps (Variable_init "A" ([0, 1] : List Nat))
        [VarOp.setAssignmentIdx 5]) ∧
      ¬ idxValid (Variable_init "A" ([] : List Nat)) := by
  constructor <;> decide

/-- **C8, amended.**  For every Variable constructed with a nonempty
domain, after every sequence of public operations in which each raw
`set_assignment_index` call supplies a position below the current domain
size, both `evidence_index` and `assignment_index` are valid positions in
the variable's domain (`set_evidence` / `set_assignment` with a value
outside the domain raise before writing, and `add_domain_values` only
grows the domain, so neither can break validity). -/
theorem claim_C8_amended (name : String) (d : List Val) (ops : List (VarOp Val))
    (hd : d ≠ []) (hsafe : SafeOps (Variable_init name d) ops = true) :
    idxValid (applyOps (Variable_init name d) ops) := by
  have hinit : idxValid (Variable_init name d) := by
    have := List.length_pos.mpr hd
    exact ⟨this, this⟩
  clear hd
  generalize Variable_init name d = s at hinit hsafe ⊢
  induction ops generalizing s with
  | nil => exact hinit
  | cons op rest ih =>
    simp only [SafeOps, Bool.and_eq_true] at hsafe
    apply ih (applyOp s op) _ hsafe.2
    obtain ⟨he, ha⟩ := hinit
    cases op with
    | addDomainValues vs =>
      unfold idxValid applyOp
      simp only [List.length_append]
      omega
    | setEvidence v =>
      simp only [applyOp]
      by_cases hv : v ∈ s.dom
      · simp only [hv, if_true]
        exact ⟨List.indexOf_lt_length.mpr hv, ha⟩
      · simp only [hv, if_false]
        exact ⟨he, ha⟩
    | setAssignment v =>
      simp only [applyOp]
      by_cases hv : v ∈ s.dom
      · simp only [hv, if_true]
        exact ⟨he, List.indexOf_lt_length.mpr hv⟩
      · simp only [hv, if_false]
        exact ⟨he, ha⟩
    | setAssignmentIdx i =>
      simp only [opSafe, decide_eq_true_eq] at hsafe
      exact ⟨he, hsafe.1⟩

/-- Witness for amended C8: a mixed concrete operation sequence. -/
theorem claim_C8_amended_witness :
    idxValid (applyOps (Variable_init "A" ([0, 1] : List Nat))
      [VarOp.setEvidence 1, VarOp.setAssignmentIdx 0,
       VarOp.addDomainValues [5], VarOp.setAssignment 5]) :=
  claim_C8_amended "A" [0, 1]
    [VarOp.setEvidence 1, VarOp.setAssignmentIdx 0,
     VarOp.addDomainValues [5], VarOp.setAssignment 5]
    (by decide) (by decide)

/-! ## C10: `print_table` restores the assignment state -/

theorem restoreLoop_frame (vars : List (BVar Val)) (saved : List Nat) (σ : AState)
    {j : Nat} (h : j ∉ vars.map (fun v => v.id)) : restoreLoop vars saved σ j = σ j := by
  induction vars generalizing saved σ with
  | nil => rfl
  | cons v vs ih =>
    simp only [List.map, List.mem_cons, not_or] at h
    simp only [restoreLoop]
    rw [ih _ _ h.2, updState_ne _ _ h.1]

theorem restoreLoop_saved (scope : List (BVar Val)) (σ0 σ : AState) {j : Nat}
    (h : j ∈ scope.map fun v => v.id) :
    restoreLoop scope (scope.map fun w => σ0 w.id) σ j = σ0 j := by
  induction scope generalizing σ with
  | nil => simp at h
  | cons v vs ih =>
    simp only [restoreLoop, List.map_cons, List.tail_cons, List.headD_cons]
    by_cases hj : j ∈ vs.map fun v => v.id
    · exact ih _ hj
    · simp only [List.map_cons, List.mem_cons] at h
      have hjv : j = v.id := by tauto
      rw [restoreLoop_frame _ _ _ hj, hjv, updState_self]

/-- **C10.**  For every Factor and every starting assignment state, after
`Factor.print_table` returns, each scope variable's `assignment_index`
equals its value before the call (the enumeration performed during
printing mutates the shared state, and the trailing restore loop puts
every saved index back). -/
theorem claim_C10_print_table_restores (f : BFactor Val) (σ : AState)
    (v : BVar Val) (hv : v ∈ f.scope) : print_table f σ v.id = σ v.id := by
  unfold print_table
  exact restoreLoop_saved f.scope σ _ (List.mem_map_of_mem _ hv)

/-- Witness for C10 on a concrete factor and state. -/
theorem claim_C10_print_table_restores_witness :
    print_table (mkFactor "f" [cA, cB]) σZero cB.id = σZero cB.id :=
  claim_C10_print_table_restores (mkFactor "f" [cA, cB]) σZero cB (by decide)

/-! ## Structural lemmas about `compute` -/

instance : Inhabited (BFactor Val) := ⟨⟨"", [], []⟩⟩

theorem compute_fields (scope : List (BVar Val)) :
    ∀ (g : BFactor Val) (F : List (BFactor Val)) (σ : AState),
    (compute g scope F σ).1.scope = g.scope ∧ (compute g scope F σ).1.name = g.name ∧
      (compute g scope F σ).1.values.length = g.values.length := by
  induction scope with
  | nil =>
    intro g F σ
    refine ⟨?_, ?_, ?_⟩ <;> simp [compute, add_value_at_current_assignment]
  | cons var rest ih =>
    intro g F σ
    rw [compute_cons]
    induction var.dom generalizing g σ with
    | nil => exact ⟨rfl, rfl, rfl⟩
    | cons val more ih2 =>
      simp only [computeVals]
      have h1 := ih g F ((assign var val F ((assign var val [g] σ).2)).2)
      have h2 := ih2
        (compute g rest F ((assign var val F ((assign var val [g] σ).2)).2)).1
        (compute g rest F ((assign var val F ((assign var val [g] σ).2)).2)).2
      exact ⟨h2.1.trans h1.1, h2.2.1.trans h1.2.1, h2.2.2.trans h1.2.2⟩

theorem eliminateLoop_fields (factorList : List (BFactor Val)) (z : BVar Val)
    (g_scope : List (BVar Val)) (g : BFactor Val) (F : List (BFactor Val))
    (σ : AState) (vals : List Val) :
    (eliminateLoop factorList z g_scope g F σ vals).1.scope = g.scope ∧
      (eliminateLoop factorList z g_scope g F σ vals).1.values.length =
        g.values.length := by
  induction vals generalizing g F σ with
  | nil => exact ⟨rfl, rfl⟩
  | cons val more ih =>
    simp only [eliminateLoop]
    have h1 := compute_fields g_scope g (assign z val factorList σ).1
      (assign z val factorList σ).2
    have h2 := ih
      (compute g g_scope (assign z val factorList σ).1 (assign z val factorList σ).2).1
      (assign z val factorList σ).1
      (compute g g_scope (assign z val factorList σ).1 (assign z val factorList σ).2).2
    exact ⟨h2.1.trans h1.1, h2.2.trans h1.2.2⟩

/-! ## C2: the scope of the replacement factor `g` -/

/-- Concrete variables and factors exhibiting the C2 counterexample:
`f1` has scope `[Z]`, `f2` has scope `[X, Q]`. -/
def xX : BVar Nat := ⟨3, "X", [0, 1]⟩

def xZ : BVar Nat := ⟨4, "Z", [0, 1]⟩

def xQ : BVar Nat := ⟨5, "Q", [0, 1]⟩

def xf1 : BFactor Nat := add_values (mkFactor "f1" [xZ]) [([0], 1/4), ([1], 3/4)]

def xf2 : BFactor Nat :=
  add_values (mkFactor "f2" [xX, xQ]) [([0, 0], 1), ([1, 1], 1)]

/-- **C2, counterexample.**  At the elimination step that eliminates `Z`
from the working factor list `[f1, f2]` (remaining ordering `[X]`, query
`Q`), the replacement factor `g` appended by the code has scope `[X, Q]`,
whereas the union of the scopes of the working factors that mention `Z`,
with `Z` removed (computed by `compute_fill` on the current factor list),
is empty — so `g`'s scope is not that union. -/
theorem claim_C2_counterexample :
    ((eliminateStep [xf1, xf2] xZ [xX] xQ σZero).1.getLastD default).scope
        = [xX, xQ] ∧
      (compute_fill ([xf1, xf2].map get_scope) xZ).2 = [] := by
  constructor
  · with_unfolding_all rfl
  · rfl

/-- **C2, amended.**  At every step of the elimination pass that eliminates
a variable `z`, the scope of the replacement factor `g` equals the
not-yet-eliminated variables of the ordering (in order) followed by the
query variable — independent of the working factor list — rather than the
union of the scopes of the factors mentioning `z` with `z` removed. -/
theorem claim_C2_amended (factorList : List (BFactor Val)) (z : BVar Val)
    (rest : List (BVar Val)) (QueryVar : BVar Val) (σ : AState) :
    ((eliminateStep factorList z rest QueryVar σ).1.getLastD default).scope
      = rest ++ [QueryVar] := by
  unfold eliminateStep
  simp only [List.getLastD_concat]
  exact (eliminateLoop_fields factorList z (rest ++ [QueryVar])
    (mkFactor "" (rest ++ [QueryVar])) [] σ z.dom).1

/-! ## C4: zero normalization sum -/

theorem distLoop_length (fs : List (BFactor Val)) (Q : BVar Val) (σ : AState)
    (vals : List Val) (dist : List ℚ) (s : ℚ) :
    (distLoop fs Q σ vals dist s).1.length = dist.length + vals.length := by
  induction vals generalizing σ dist s with
  | nil => simp [distLoop]
  | cons val more ih =>
    simp only [distLoop]
    rw [ih]
    simp
    omega

/-- Concrete net whose query variable has an empty domain. -/
def vE0 : BVar Nat := ⟨7, "E", []⟩

def enet : BNet Nat := ⟨"empty", [vE0], []⟩

/-- **C4, counterexample.**  With a query variable whose domain is empty,
the unnormalized sum computed by `VE` before normalization is `0`, yet the
normalization loop body never runs and `VE` returns `[]` instead of
failing. -/
theorem claim_C4_counterexample :
    (VErun enet vE0 [] min_fill_ordering σZero).2.1 = 0 ∧
      VE enet vE0 [] min_fill_ordering σZero = .ok [] := by
  constructor
  · rfl
  · rfl

/-- **C4, amended.**  For every input with a nonempty query domain on which
the unnormalized sum computed by `VE` before normalization equals zero,
`VE` fails with an explicit `ZeroDivisionError` rather than returning any
result (in particular it never returns NaN or infinite entries). -/
theorem claim_C4_amended (Net : BNet Val) (QueryVar : BVar Val)
    (EvidenceVars : List (EVar Val)) (orderingFn : OrderingFn Val) (σ : AState)
    (hq : QueryVar.dom ≠ [])
    (hs : (VErun Net QueryVar EvidenceVars orderingFn σ).2.1 = 0) :
    VE Net QueryVar EvidenceVars orderingFn σ = .error "ZeroDivisionError" := by
  unfold VE
  have hne : (VErun Net QueryVar EvidenceVars orderingFn σ).1 ≠ [] := by
    have hlen := distLoop_length
      (eliminateZ (restrict (factors Net) EvidenceVars σ).1
        (orderingFn (restrict (factors Net) EvidenceVars σ).1 QueryVar) QueryVar
        (restrict (factors Net) EvidenceVars σ).2).1 QueryVar
      (eliminateZ (restrict (factors Net) EvidenceVars σ).1
        (orderingFn (restrict (factors Net) EvidenceVars σ).1 QueryVar) QueryVar
        (restrict (factors Net) EvidenceVars σ).2).2 QueryVar.dom [] 0
    intro hnil
    have : (VErun Net QueryVar EvidenceVars orderingFn σ).1.length = 0 := by
      rw [hnil]; rfl
    rw [show (VErun Net QueryVar EvidenceVars orderingFn σ).1 =
      (distLoop (eliminateZ (restrict (factors Net) EvidenceVars σ).1
        (orderingFn (restrict (factors Net) EvidenceVars σ).1 QueryVar) QueryVar
        (restrict (factors Net) EvidenceVars σ).2).1 QueryVar
      (eliminateZ (restrict (factors Net) EvidenceVars σ).1
        (orderingFn (restrict (factors Net) EvidenceVars σ).1 QueryVar) QueryVar
        (restrict (factors Net) EvidenceVars σ).2).2 QueryVar.dom [] 0).1 from rfl]
        at this
    rw [hlen] at this
    simp at this
    exact hq this
  rw [if_pos ⟨hs, hne⟩]

/-- Concrete all-zero factor net: evidence-free run with zero sum. -/
def zf : BFactor Nat := mkFactor "zf" [cA]

def znet : BNet Nat := ⟨"zero", [cA], [zf]⟩

/-- Witness for amended C4: an all-zero factor makes the sum zero and `VE`
reports the division by zero. -/
theorem claim_C4_amended_witness :
    VE znet cA [] min_fill_ordering σZero = .error "ZeroDivisionError" :=
  claim_C4_amended znet cA [] min_fill_ordering σZero (by decide)
    (by with_unfolding_all rfl)

/-! ## C5: properties of the restriction pass -/

/-- No variable of the factor's scope carries the name `n`. -/
def noName (n : String) (f : BFactor Val) : Prop := ∀ w ∈ f.scope, w.name ≠ n

theorem get_var_in_scope_eq_none_iff (f : BFactor Val) (v : BVar Val) :
    get_var_in_scope f v = none ↔ noName v.name f := by
  unfold get_var_in_scope noName
  rw [List.find?_eq_none]
  simp

theorem restrictFactor_none {e : EVar Val} {f : BFactor Val} (σ : AState)
    (h : get_var_in_scope f e.var = none) : restrictFactor e f σ = (f, σ) := by
  unfold restrictFactor
  rw [h]

theorem restrictFactor_scope_sub (e : EVar Val) (f : BFactor Val) (σ : AState) :
    ∀ w ∈ (restrictFactor e f σ).1.scope, w ∈ f.scope := by
  intro w hw
  unfold restrictFactor at hw
  cases hfind : get_var_in_scope f e.var with
  | none => rw [hfind] at hw; exact hw
  | some var =>
    rw [hfind] at hw
    simp only at hw
    rw [(compute_fields ((get_scope f).erase var)
      (mkFactor "" ((get_scope f).erase var)) [f]
      (set_assignment var (get_evidence e) σ)).1] at hw
    exact (List.erase_sublist var (get_scope f)).mem hw

theorem restrictFactor_names_nodup {e : EVar Val} {f : BFactor Val} (σ : AState)
    (hnd : (f.scope.map fun v => v.name).Nodup) :
    (((restrictFactor e f σ).1.scope.map fun v => v.name)).Nodup := by
  unfold restrictFactor
  cases hfind : get_var_in_scope f e.var with
  | none => exact hnd
  | some var =>
    simp only
    rw [(compute_fields ((get_scope f).erase var)
      (mkFactor "" ((get_scope f).erase var)) [f]
      (set_assignment var (get_evidence e) σ)).1]
    exact List.Nodup.sublist (List.Sublist.map _ (List.erase_sublist var (get_scope f))) hnd

theorem restrictFactor_no_e {e : EVar Val} {f : BFactor Val} (σ : AState)
    (hnd : (f.scope.map fun v => v.name).Nodup) :
    noName e.var.name (restrictFactor e f σ).1 := by
  cases hfind : get_var_in_scope f e.var with
  | none =>
    rw [restrictFactor_none σ hfind]
    exact (get_var_in_scope_eq_none_iff f e.var).mp hfind
  | some var =>
    have hvmem : var ∈ f.scope := List.mem_of_find?_eq_some hfind
    have hvname : var.name = e.var.name := by
      have := List.find?_some hfind
      simpa using this
    intro w hw
    unfold restrictFactor at hw
    rw [hfind] at hw
    simp only at hw
    rw [(compute_fields ((get_scope f).erase var)
      (mkFactor "" ((get_scope f).erase var)) [f]
      (set_assignment var (get_evidence e) σ)).1] at hw
    have hscopend : f.scope.Nodup := List.Nodup.of_map _ hnd
    have hw2 := (List.Nodup.mem_erase_iff hscopend).mp hw
    intro hwname
    exact hw2.1 (List.inj_on_of_nodup_map hnd hw2.2 hvmem (hwname.trans hvname.symm))

theorem restrictFactor_no_other {e : EVar Val} {f : BFactor Val} (σ : AState)
    {n : String} (h : noName n f) : noName n (restrictFactor e f σ).1 :=
  fun w hw => h w (restrictFactor_scope_sub e f σ w hw)

theorem restrictPass_length (e : EVar Val) (fs : List (BFactor Val)) (σ : AState) :
    (restrictPass e fs σ).1.length = fs.length := by
  induction fs generalizing σ with
  | nil => rfl
  | cons f rest ih => simpa [restrictPass] using ih _

theorem restrictPass_forall {P : BFactor Val → Prop} {Q : BFactor Val → Prop}
    (e : EVar Val)
    (hstep : ∀ (f : BFactor Val) (σ : AState), P f → Q (restrictFactor e f σ).1)
    (fs : List (BFactor Val)) (σ : AState) (h : ∀ f ∈ fs, P f) :
    ∀ f' ∈ (restrictPass e fs σ).1, Q f' := by
  induction fs generalizing σ with
  | nil => simp [restrictPass]
  | cons f rest ih =>
    simp only [restrictPass, List.mem_cons]
    rintro f' (rfl | hf')
    · exact hstep f σ (h f (by simp))
    · exact ih _ (fun g hg => h g (by simp [hg])) f' hf'

theorem restrictPass_untouched (e : EVar Val) (fs : List (BFactor Val)) (σ : AState)
    (i : Nat) (h : get_var_in_scope (fs.getD i default) e.var = none) :
    (restrictPass e fs σ).1.getD i default = fs.getD i default := by
  induction fs generalizing σ i with
  | nil => rfl
  | cons f rest ih =>
    cases i with
    | zero =>
      rw [List.getD_cons_zero] at h ⊢
      simp only [restrictPass]
      have := restrictFactor_none σ h
      simp [this]
    | succ i =>
      rw [List.getD_cons_succ] at h ⊢
      simpa [restrictPass] using ih _ i h

theorem restrictPass_all_none (e : EVar Val) (fs : List (BFactor Val)) (σ : AState)
    (h : ∀ f ∈ fs, get_var_in_scope f e.var = none) :
    restrictPass e fs σ = (fs, σ) := by
  induction fs generalizing σ with
  | nil => rfl
  | cons f rest ih =>
    simp only [restrictPass]
    rw [restrictFactor_none σ (h f (by simp)), ih σ (fun g hg => h g (by simp [hg]))]

theorem restrict_length (fs : List (BFactor Val)) (evs : List (EVar Val)) (σ : AState) :
    (restrict fs evs σ).1.length = fs.length := by
  induction evs generalizing fs σ with
  | nil => rfl
  | cons e rest ih =>
    simp only [restrict]
    rw [ih, restrictPass_length]

theorem restrict_names_nodup (fs : List (BFactor Val)) (evs : List (EVar Val))
    (σ : AState) (hnd : ∀ f ∈ fs, (f.scope.map fun v => v.name).Nodup) :
    ∀ f' ∈ (restrict fs evs σ).1, (f'.scope.map fun v => v.name).Nodup := by
  induction evs generalizing fs σ with
  | nil => exact hnd
  | cons e rest ih =>
    simp only [restrict]
    exact ih _ _ (restrictPass_forall e
      (fun f σ' hf => restrictFactor_names_nodup σ' hf) fs σ hnd)

theorem restrict_preserves_no (fs : List (BFactor Val)) (evs : List (EVar Val))
    (σ : AState) {n : String} (h : ∀ f ∈ fs, noName n f) :
    ∀ f' ∈ (restrict fs evs σ).1, noName n f' := by
  induction evs generalizing fs σ with
  | nil => exact h
  | cons e rest ih =>
    simp only [restrict]
    exact ih _ _ (restrictPass_forall e
      (fun f σ' hf => restrictFactor_no_other σ' hf) fs σ h)

theorem restrict_no_names (fs : List (BFactor Val)) (evs : List (EVar Val))
    (σ : AState) (hnd : ∀ f ∈ fs, (f.scope.map fun v => v.name).Nodup) :
    ∀ f' ∈ (restrict fs evs σ).1, ∀ e ∈ evs, noName e.var.name f' := by
  induction evs generalizing fs σ with
  | nil => simp
  | cons e rest ih =>
    intro f' hf' e' he'
    simp only [restrict] at hf'
    rcases List.mem_cons.mp he' with rfl | he'
    · exact restrict_preserves_no _ rest _
        (restrictPass_forall e' (fun f σ' hf => restrictFactor_no_e σ' hf) fs σ hnd)
        f' hf'
    · exact ih _ _ (restrictPass_forall e
        (fun f σ' hf => restrictFactor_names_nodup σ' hf) fs σ hnd) f' hf' e' he'

theorem restrict_untouched (fs : List (BFactor Val)) (evs : List (EVar Val))
    (σ : AState) (i : Nat)
    (h : ∀ e ∈ evs, get_var_in_scope (fs.getD i default) e.var = none) :
    (restrict fs evs σ).1.getD i default = fs.getD i default := by
  induction evs generalizing fs σ with
  | nil => rfl
  | cons e rest ih =>
    simp only [restrict]
    have hp := restrictPass_untouched e fs σ i (h e (by simp))
    rw [ih _ _ (fun e' he' => by rw [hp]; exact h e' (by simp [he'])), hp]

theorem restrict_all_none (fs : List (BFactor Val)) (evs : List (EVar Val))
    (σ : AState) (h : ∀ f ∈ fs, ∀ e ∈ evs, get_var_in_scope f e.var = none) :
    (restrict fs evs σ).1 = fs := by
  induction evs generalizing fs σ with
  | nil => rfl
  | cons e rest ih =>
    simp only [restrict]
    rw [restrictPass_all_none e fs σ (fun f hf => h f hf e (by simp))]
    exact ih fs σ (fun f hf e' he' => h f hf e' (by simp [he']))

/-- Concrete factor whose scope mentions the same variable object twice. -/
def fdup : BFactor Nat :=
  add_values (mkFactor "dup" [cA, cA]) [([0, 0], 1), ([0, 1], 2), ([1, 0], 3), ([1, 1], 4)]

/-- **C5, counterexample.**  For the factor list `[fdup]` whose single
factor's scope contains the evidence variable `A` twice, one restriction
pass removes only the first occurrence: the resulting factor still has `A`
in its scope, and a second pass with the same evidence changes the list
again (restriction is not idempotent). -/
theorem claim_C5_counterexample :
    cA ∈ ((restrict [fdup] [⟨cA, 0⟩] σZero).1.getD 0 default).scope ∧
      (restrict (restrict [fdup] [⟨cA, 0⟩] σZero).1 [⟨cA, 0⟩]
          (restrict [fdup] [⟨cA, 0⟩] σZero).2).1 ≠
        (restrict [fdup] [⟨cA, 0⟩] σZero).1 := by
  constructor
  · with_unfolding_all decide
  · with_unfolding_all decide

/-- **C5, amended.**  For every factor list in which no factor's scope
contains two variables with the same name, and every list of evidence
variables: after one restriction pass no factor in the resulting list has
any evidence variable in its scope (no scope variable even carries an
evidence variable's name), factors that mentioned no evidence variable are
left untouched at their position, and applying the restriction pass a
second time with the same evidence variables (from any assignment state)
leaves the factor list unchanged. -/
theorem claim_C5_amended (fs : List (BFactor Val)) (evs : List (EVar Val))
    (σ : AState) (hnd : ∀ f ∈ fs, (f.scope.map fun v => v.name).Nodup) :
    (∀ f' ∈ (restrict fs evs σ).1, ∀ e ∈ evs, e.var ∉ f'.scope) ∧
      (∀ f' ∈ (restrict fs evs σ).1, ∀ e ∈ evs, get_var_in_scope f' e.var = none) ∧
      (restrict fs evs σ).1.length = fs.length ∧
      (∀ i, (∀ e ∈ evs, get_var_in_scope (fs.getD i default) e.var = none) →
        (restrict fs evs σ).1.getD i default = fs.getD i default) ∧
      (∀ σ' : AState, (restrict (restrict fs evs σ).1 evs σ').1 =
        (restrict fs evs σ).1) := by
  have hno := restrict_no_names fs evs σ hnd
  refine ⟨?_, ?_, restrict_length fs evs σ, restrict_untouched fs evs σ, ?_⟩
  · intro f' hf' e he hmem
    exact hno f' hf' e he e.var hmem rfl
  · intro f' hf' e he
    exact (get_var_in_scope_eq_none_iff f' e.var).mpr (hno f' hf' e he)
  · intro σ'
    exact restrict_all_none _ evs σ' (fun f hf e he =>
      (get_var_in_scope_eq_none_iff f e.var).mpr (hno f hf e he))

/-! ## C3: the returned distribution is a probability vector -/

/-- Every table entry of the factor is non-negative. -/
def nnF (f : BFactor Val) : Prop := ∀ x ∈ f.values, 0 ≤ x

theorem fval_nonneg {f : BFactor Val} (h : nnF f) (σ : AState) :
    0 ≤ get_value_at_current_assignments f σ :=
  getD_nonneg h _

theorem prodFactors_nonneg {F : List (BFactor Val)} (h : ∀ f ∈ F, nnF f)
    (σ : AState) : 0 ≤ prodFactors F σ := by
  unfold prodFactors
  have hgen : ∀ (G : List (BFactor Val)), (∀ f ∈ G, nnF f) → ∀ (p : ℚ), 0 ≤ p →
      0 ≤ G.foldl (fun p f => p * get_value_at_current_assignments f σ) p := by
    intro G
    induction G with
    | nil => intro _ p hp; exact hp
    | cons f rest ih =>
      intro hG p hp
      exact ih (fun g hg => hG g (by simp [hg])) _
        (mul_nonneg hp (fval_nonneg (hG f (by simp)) σ))
  exact hgen F h 1 (by norm_num)

theorem nnF_set {f : BFactor Val} (h : nnF f) {a : ℚ} (ha : 0 ≤ a) (i : Nat) :
    nnF { f with values := f.values.set i a } := by
  intro x hx
  rcases List.mem_or_eq_of_mem_set hx with hm | rfl
  · exact h x hm
  · exact ha

theorem nnF_mkFactor (name : String) (scope : List (BVar Val)) :
    nnF (mkFactor name scope) := by
  intro x hx
  rw [List.eq_of_mem_replicate hx]

theorem compute_nn (scope : List (BVar Val)) :
    ∀ (g : BFactor Val) (F : List (BFactor Val)) (σ : AState),
    nnF g → (∀ f ∈ F, nnF f) → nnF (compute g scope F σ).1 := by
  induction scope with
  | nil =>
    intro g F σ hg hF
    exact nnF_set hg
      (add_nonneg (fval_nonneg hg σ) (prodFactors_nonneg hF σ)) _
  | cons var rest ih =>
    intro g F σ hg hF
    rw [compute_cons]
    induction var.dom generalizing g σ with
    | nil => exact hg
    | cons val more ih2 =>
      simp only [computeVals]
      exact ih2 _ _ (ih g F _ hg hF)

theorem assign_fst_sub (var : BVar Val) (val : Val) (F : List (BFactor Val))
    (σ : AState) : ∀ f ∈ (assign var val F σ).1, f ∈ F := by
  induction F generalizing σ with
  | nil => simp [assign]
  | cons f rest ih =>
    intro f' hf'
    simp only [assign] at hf'
    cases hfind : get_var_in_scope f var with
    | some fvar =>
      rw [hfind] at hf'
      simp only [List.mem_cons] at hf'
      rcases hf' with rfl | hf'
      · simp
      · simp [ih _ f' hf']
    | none =>
      rw [hfind] at hf'
      simp [ih _ f' hf']

theorem restrictFactor_nn (e : EVar Val) (f : BFactor Val) (σ : AState)
    (h : nnF f) : nnF (restrictFactor e f σ).1 := by
  unfold restrictFactor
  cases hfind : get_var_in_scope f e.var with
  | none => exact h
  | some var =>
    simp only
    exact compute_nn _ _ _ _ (nnF_mkFactor _ _) (by simpa using h)

theorem restrict_nn (fs : List (BFactor Val)) (evs : List (EVar Val)) (σ : AState)
    (h : ∀ f ∈ fs, nnF f) : ∀ f' ∈ (restrict fs evs σ).1, nnF f' := by
  induction evs generalizing fs σ with
  | nil => exact h
  | cons e rest ih =>
    simp only [restrict]
    exact ih _ _ (restrictPass_forall e (fun f σ' hf => restrictFactor_nn e f σ' hf)
      fs σ h)

theorem mem_foldl_erase {items init : List (BFactor Val)} {x : BFactor Val}
    (h : x ∈ items.foldl (fun l f => l.erase f) init) : x ∈ init := by
  induction items generalizing init with
  | nil => exact h
  | cons i is ih =>
    simp only [List.foldl] at h
    exact List.mem_of_mem_erase (ih h)

theorem eliminateLoop_nn (factorList : List (BFactor Val)) (z : BVar Val)
    (g_scope : List (BVar Val)) (vals : List Val) :
    ∀ (g : BFactor Val) (F : List (BFactor Val)) (σ : AState),
    nnF g → (∀ f ∈ factorList, nnF f) →
    nnF (eliminateLoop factorList z g_scope g F σ vals).1 := by
  induction vals with
  | nil => intro g F σ hg _; exact hg
  | cons val more ih =>
    intro g F σ hg hfs
    simp only [eliminateLoop]
    exact ih _ _ _
      (compute_nn _ _ _ _ hg
        (fun f hf => hfs f (assign_fst_sub z val factorList σ f hf))) hfs

theorem eliminateZ_nn (orderedList : List (BVar Val)) :
    ∀ (factorList : List (BFactor Val)) (QueryVar : BVar Val) (σ : AState),
    (∀ f ∈ factorList, nnF f) →
    ∀ f' ∈ (eliminateZ factorList orderedList QueryVar σ).1, nnF f' := by
  induction orderedList with
  | nil => intro factorList QueryVar σ h; exact h
  | cons z rest ih =>
    intro factorList QueryVar σ h
    simp only [eliminateZ]
    apply ih
    intro f' hf'
    unfold eliminateStep at hf'
    rcases List.mem_append.mp hf' with hf' | hf'
    · exact h f' (mem_foldl_erase hf')
    · rw [List.mem_singleton.mp hf']
      exact eliminateLoop_nn _ _ _ _ _ _ _ (nnF_mkFactor _ _) h

/-- The values appended by the per-query-value loop of `VE`, as a pure
list (the loop view of `distLoop`, see `distLoop_spec`). -/
def distPure (fs : List (BFactor Val)) (QueryVar : BVar Val) (σ : AState) :
    List Val → List ℚ
  | [] => []
  | val :: more =>
    prodFactors fs ((assign QueryVar val fs σ).2) ::
      distPure fs QueryVar ((assign QueryVar val fs σ).2) more

theorem distLoop_spec (fs : List (BFactor Val)) (QueryVar : BVar Val)
    (vals : List Val) : ∀ (σ : AState) (dist : List ℚ) (s : ℚ),
    (distLoop fs QueryVar σ vals dist s).1 = dist ++ distPure fs QueryVar σ vals ∧
      (distLoop fs QueryVar σ vals dist s).2.1 =
        s + (distPure fs QueryVar σ vals).sum := by
  induction vals with
  | nil => intro σ dist s; simp [distLoop, distPure]
  | cons val more ih =>
    intro σ dist s
    simp only [distLoop, distPure]
    obtain ⟨h1, h2⟩ := ih ((assign QueryVar val fs σ).2) (dist ++ [prodFactors fs
      ((assign QueryVar val fs σ).2)]) (s + prodFactors fs ((assign QueryVar val fs σ).2))
    constructor
    · rw [h1]; simp
    · rw [h2]; simp [List.sum_cons]; ring

theorem distPure_length (fs : List (BFactor Val)) (QueryVar : BVar Val)
    (vals : List Val) : ∀ σ : AState,
    (distPure fs QueryVar σ vals).length = vals.length := by
  induction vals with
  | nil => intro σ; rfl
  | cons val more ih => intro σ; simp [distPure, ih]

theorem distPure_nonneg {fs : List (BFactor Val)} (QueryVar : BVar Val)
    (vals : List Val) (hfs : ∀ f ∈ fs, nnF f) : ∀ σ : AState,
    ∀ x ∈ distPure fs QueryVar σ vals, 0 ≤ x := by
  induction vals with
  | nil => intro σ x hx; simp [distPure] at hx
  | cons val more ih =>
    intro σ x hx
    simp only [distPure, List.mem_cons] at hx
    rcases hx with rfl | hx
    · exact prodFactors_nonneg hfs _
    · exact ih _ x hx

theorem sum_map_div (l : List ℚ) (s : ℚ) : (l.map fun x => x / s).sum = l.sum / s := by
  induction l with
  | nil => simp
  | cons x rest ih => simp [ih, add_div]

/-- **C3.**  For every BN whose factor tables hold only non-negative
entries, every query variable, every evidence list, every ordering
function and every starting state, if the unnormalized sum computed by
`VE` is nonzero then `VE` returns a sequence with exactly one entry per
value of the query variable's domain, every entry non-negative, and the
entries summing to 1. -/
theorem claim_C3_probability_vector (Net : BNet Val) (QueryVar : BVar Val)
    (EvidenceVars : List (EVar Val)) (orderingFn : OrderingFn Val) (σ : AState)
    (hnn : ∀ f ∈ Net.Factors, nnF f)
    (hs : (VErun Net QueryVar EvidenceVars orderingFn σ).2.1 ≠ 0) :
    ∃ dist, VE Net QueryVar EvidenceVars orderingFn σ = .ok dist ∧
      dist.length = QueryVar.dom.length ∧ (∀ x ∈ dist, 0 ≤ x) ∧ dist.sum = 1 := by
  set FS := (eliminateZ (restrict (factors Net) EvidenceVars σ).1
    (orderingFn (restrict (factors Net) EvidenceVars σ).1 QueryVar) QueryVar
    (restrict (factors Net) EvidenceVars σ).2).1 with hFS
  set S2 := (eliminateZ (restrict (factors Net) EvidenceVars σ).1
    (orderingFn (restrict (factors Net) EvidenceVars σ).1 QueryVar) QueryVar
    (restrict (factors Net) EvidenceVars σ).2).2 with hS2
  have hfs2 : ∀ f ∈ FS, nnF f := by
    rw [hFS]
    exact eliminateZ_nn _ _ _ _ (restrict_nn _ _ _ hnn)
  set D := distPure FS QueryVar S2 QueryVar.dom with hD
  have h1 : (VErun Net QueryVar EvidenceVars orderingFn σ).1 = D := by
    show (distLoop FS QueryVar S2 QueryVar.dom [] 0).1 = D
    rw [(distLoop_spec FS QueryVar QueryVar.dom S2 [] 0).1]
    simp
  have h2 : (VErun Net QueryVar EvidenceVars orderingFn σ).2.1 = D.sum := by
    show (distLoop FS QueryVar S2 QueryVar.dom [] 0).2.1 = D.sum
    rw [(distLoop_spec FS QueryVar QueryVar.dom S2 [] 0).2]
    simp
  rw [h2] at hs
  have hDnn : ∀ x ∈ D, 0 ≤ x := by
    rw [hD]
    exact distPure_nonneg QueryVar QueryVar.dom hfs2 _
  refine ⟨D.map fun x => x / D.sum, ?_, ?_, ?_, ?_⟩
  · unfold VE
    dsimp only
    rw [h1, h2]
    rw [if_neg (by intro hcon; exact hs hcon.1)]
  · rw [List.length_map, hD]
    exact distPure_length _ _ _ _
  · intro x hx
    obtain ⟨y, hy, rfl⟩ := List.mem_map.mp hx
    have hsumpos : 0 < D.sum :=
      lt_of_le_of_ne (List.sum_nonneg hDnn) (Ne.symm hs)
    exact div_nonneg (hDnn y hy) (le_of_lt hsumpos)
  · rw [sum_map_div, div_self hs]

/-! ## C1 machinery: well-formed variable sets and state overrides -/

/-- Well-formedness of a collection of variable objects, as the spec's data
model stipulates: distinct objects (distinct ids), unique names, and
duplicate-free nonempty domains. -/
def VarsWF (vars : List (BVar Val)) : Prop :=
  vars.Pairwise (fun a b => a.id ≠ b.id ∧ a.name ≠ b.name) ∧
    ∀ v ∈ vars, v.dom.Nodup ∧ v.dom ≠ []

theorem VarsWF_pair {vars : List (BVar Val)} (h : VarsWF vars) {a b : BVar Val}
    (ha : a ∈ vars) (hb : b ∈ vars) (hne : a ≠ b) : a.id ≠ b.id ∧ a.name ≠ b.name := by
  have hsym : Symmetric (fun x y : BVar Val => x.id ≠ y.id ∧ x.name ≠ y.name) := by
    intro x y hxy
    exact ⟨hxy.1.symm, hxy.2.symm⟩
  exact List.Pairwise.forall hsym h.1 ha hb hne

theorem VarsWF_name_eq {vars : List (BVar Val)} (h : VarsWF vars) {a b : BVar Val}
    (ha : a ∈ vars) (hb : b ∈ vars) (hn : a.name = b.name) : a = b := by
  by_contra hne
  exact (VarsWF_pair h ha hb hne).2 hn

theorem VarsWF_id_eq {vars : List (BVar Val)} (h : VarsWF vars) {a b : BVar Val}
    (ha : a ∈ vars) (hb : b ∈ vars) (hn : a.id = b.id) : a = b := by
  by_contra hne
  exact (VarsWF_pair h ha hb hne).1 hn

/-- Override `σ` by `τ` on the given ids. -/
def ovr (σ τ : AState) (ids : List Nat) : AState :=
  fun j => if j ∈ ids then τ j else σ j

theorem ovr_nil (σ τ : AState) : ovr σ τ [] = σ := by
  funext j
  simp [ovr]

theorem ovr_mem (σ τ : AState) {ids : List Nat} {j : Nat} (h : j ∈ ids) :
    ovr σ τ ids j = τ j := by
  simp [ovr, h]

theorem ovr_not_mem (σ τ : AState) {ids : List Nat} {j : Nat} (h : j ∉ ids) :
    ovr σ τ ids j = σ j := by
  simp [ovr, h]

theorem fval_congr {f : BFactor Val} {σ σ' : AState}
    (h : ∀ w ∈ f.scope, σ w.id = σ' w.id) :
    get_value_at_current_assignments f σ = get_value_at_current_assignments f σ' := by
  unfold get_value_at_current_assignments
  rw [idx_at_assignment_eq, idx_at_assignment_eq, idxFrom_congr h]

theorem prodFactors_congr {F : List (BFactor Val)} {σ σ' : AState}
    (h : ∀ f ∈ F, ∀ w ∈ f.scope, σ w.id = σ' w.id) :
    prodFactors F σ = prodFactors F σ' := by
  unfold prodFactors
  have hgen : ∀ (G : List (BFactor Val)), (∀ f ∈ G, ∀ w ∈ f.scope, σ w.id = σ' w.id) →
      ∀ p : ℚ, G.foldl (fun p f => p * get_value_at_current_assignments f σ) p =
        G.foldl (fun p f => p * get_value_at_current_assignments f σ') p := by
    intro G
    induction G with
    | nil => intro _ p; rfl
    | cons f rest ih =>
      intro hG p
      simp only [List.foldl]
      rw [fval_congr (hG f (by simp)), ih (fun g hg => hG g (by simp [hg]))]
  exact hgen F h 1

theorem map_value_index_range (v : BVar Val) (hnd : v.dom.Nodup) :
    v.dom.map (fun x => value_index v x) = List.range (domain_size v) := by
  apply List.ext_get
  · simp [domain_size]
  · intro i h1 h2
    simp only [List.get_map, List.get_range]
    exact List.get_indexOf hnd _

/-- Under name-consistency, looking up a variable of the scope finds that
very variable object. -/
theorem get_var_in_scope_consistent {vars : List (BVar Val)} (hWF : VarsWF vars)
    {f : BFactor Val} (hsub : ∀ w ∈ f.scope, w ∈ vars) {var : BVar Val}
    (hvar : var ∈ vars) (hmem : var ∈ f.scope) :
    get_var_in_scope f var = some var := by
  cases hfind : get_var_in_scope f var with
  | none =>
    exfalso
    have := (get_var_in_scope_eq_none_iff f var).mp hfind var hmem
    exact this rfl
  | some w =>
    have hw : w ∈ f.scope := List.mem_of_find?_eq_some hfind
    have hwn : w.name = var.name := by
      have := List.find?_some hfind
      simpa using this
    rw [VarsWF_name_eq hWF (hsub w hw) hvar hwn]

/-- Assigning a variable in a factor list whose scopes are drawn from a
well-formed collection, starting from a state that already holds the
assignment, is a no-op on the state. -/
theorem assign_state_already {vars : List (BVar Val)} (hWF : VarsWF vars)
    {var : BVar Val} (hvar : var ∈ vars) (val : Val) (F : List (BFactor Val))
    (hF : ∀ f ∈ F, ∀ w ∈ f.scope, w ∈ vars) (σ : AState) :
    (assign var val F (updState σ var.id (value_index var val))).2 =
      updState σ var.id (value_index var val) := by
  induction F generalizing σ with
  | nil => rfl
  | cons f rest ih =>
    simp only [assign]
    cases hfind : get_var_in_scope f var with
    | none =>
      exact ih (fun g hg => hF g (by simp [hg])) σ
    | some w =>
      have hw : w ∈ f.scope := List.mem_of_find?_eq_some hfind
      have hwn : w.name = var.name := by
        have := List.find?_some hfind
        simpa using this
      have hweq : w = var := VarsWF_name_eq hWF (hF f (by simp) w hw) hvar hwn
      subst hweq
      simp only
      have hupd : set_assignment w val (updState σ w.id (value_index w val)) =
          updState σ w.id (value_index w val) := by
        funext j
        unfold set_assignment updState
        by_cases hj : j = w.id <;> simp [hj]
      rw [hupd]
      exact ih (fun g hg => hF g (by simp [hg])) σ

/-- If some factor of the list mentions the variable, `assign` sets the
variable's slot (and nothing else). -/
theorem assign_state_mentioned {vars : List (BVar Val)} (hWF : VarsWF vars)
    {var : BVar Val} (hvar : var ∈ vars) (val : Val) (F : List (BFactor Val))
    (hF : ∀ f ∈ F, ∀ w ∈ f.scope, w ∈ vars) (σ : AState)
    (hm : ∃ f ∈ F, var ∈ f.scope) :
    (assign var val F σ).2 = updState σ var.id (value_index var val) := by
  induction F generalizing σ with
  | nil => simp at hm
  | cons f rest ih =>
    simp only [assign]
    by_cases hmem : var ∈ f.scope
    · rw [get_var_in_scope_consistent hWF (hF f (by simp)) hvar hmem]
      simp only
      show (assign var val rest (set_assignment var val σ)).2 = _
      exact assign_state_already hWF hvar val rest (fun g hg => hF g (by simp [hg])) σ
    · cases hfind : get_var_in_scope f var with
      | none =>
        apply ih (fun g hg => hF g (by simp [hg]))
        rcases hm with ⟨f', hf', hvf'⟩
        rcases List.mem_cons.mp hf' with rfl | hf'
        · exact absurd hvf' hmem
        · exact ⟨f', hf', hvf'⟩
      | some w =>
        exfalso
        have hw : w ∈ f.scope := List.mem_of_find?_eq_some hfind
        have hwn : w.name = var.name := by
          have := List.find?_some hfind
          simpa using this
        have : w = var := VarsWF_name_eq hWF (hF f (by simp) w hw) hvar hwn
        subst this
        exact hmem hw

/-- The `assign` inside `compute` (`assign(var, val, [g])` followed by
`assign(var, val, F)`) sets exactly the enumerated variable's slot. -/
theorem assign_compute_state {vars : List (BVar Val)} (hWF : VarsWF vars)
    {var : BVar Val} (hvar : var ∈ vars) (val : Val) {g : BFactor Val}
    (hg : ∀ w ∈ g.scope, w ∈ vars) (hmem : var ∈ g.scope)
    (F : List (BFactor Val)) (hF : ∀ f ∈ F, ∀ w ∈ f.scope, w ∈ vars) (σ : AState) :
    (assign var val F ((assign var val [g] σ).2)).2 =
      updState σ var.id (value_index var val) := by
  have h1 : (assign var val [g] σ).2 = updState σ var.id (value_index var val) :=
    assign_state_mentioned hWF hvar val [g] (by simpa using hg) σ ⟨g, by simp, hmem⟩
  rw [h1]
  exact assign_state_already hWF hvar val F hF σ

/-! ## C1 machinery: full characterization of `compute` -/

/-- **Characterization of `compute`.**  With the scope split as
`pre ++ rem` (`pre` already assigned in `σ`), running `compute` over `rem`
(i) touches the state only at the `rem` ids, (ii) adds, at every table
position reachable by a valid assignment `τ` that agrees with `σ` on
`pre`, the product of the `F` factors evaluated with the `rem` slots
overridden by `τ`, and (iii) leaves every position whose `pre` part
disagrees with `σ` unchanged. -/
theorem compute_spec {vars : List (BVar Val)} (hWF : VarsWF vars)
    (F : List (BFactor Val)) (hF : ∀ f ∈ F, ∀ w ∈ f.scope, w ∈ vars) :
    ∀ (rem pre : List (BVar Val)) (g : BFactor Val) (σ : AState),
    g.scope = pre ++ rem →
    (∀ w ∈ g.scope, w ∈ vars) →
    g.scope.Nodup →
    g.values.length = prodSize g.scope →
    validOn pre σ →
    ((∀ j, j ∉ rem.map (fun v => v.id) → (compute g rem F σ).2 j = σ j) ∧
      (∀ τ : AState, validOn g.scope τ → (∀ v ∈ pre, τ v.id = σ v.id) →
        (compute g rem F σ).1.values.getD (idxFrom g.scope τ 0) 0 =
          g.values.getD (idxFrom g.scope τ 0) 0 +
            prodFactors F (ovr σ τ (rem.map fun v => v.id))) ∧
      (∀ τ : AState, validOn g.scope τ → (∃ v ∈ pre, τ v.id ≠ σ v.id) →
        (compute g rem F σ).1.values.getD (idxFrom g.scope τ 0) 0 =
          g.values.getD (idxFrom g.scope τ 0) 0)) := by
  intro rem
  induction rem with
  | nil =>
    intro pre g σ hsc hsub hnd hlen hval
    have hpre : g.scope = pre := by simpa using hsc
    have hvalσ : validOn g.scope σ := by rw [hpre]; exact hval
    refine ⟨fun j hj => rfl, ?_, ?_⟩
    · intro τ hτ hagree
      have hidx : idxFrom g.scope τ 0 = idxFrom g.scope σ 0 :=
        idxFrom_congr (fun v hv => hagree v (hpre ▸ hv)) 0
      show (add_value_at_current_assignment g
        (get_value_at_current_assignments g σ + prodFactors F σ) σ).values.getD
          (idxFrom g.scope τ 0) 0 = _
      unfold add_value_at_current_assignment
      simp only
      rw [hidx, idx_at_assignment_eq]
      have hlt : idxFrom g.scope σ 0 < g.values.length := by
        rw [hlen]
        simpa using idxFrom_lt hvalσ 0
      rw [getD_set_self _ hlt]
      simp only [List.map_nil, ovr_nil]
      rfl
    · intro τ hτ hdis
      rcases hdis with ⟨v, hv, hvne⟩
      have hne : idxFrom g.scope τ 0 ≠ idxFrom g.scope σ 0 := by
        intro heq
        exact hvne ((idxFrom_inj hτ hvalσ heq).2 v (hpre ▸ hv))
      show (add_value_at_current_assignment g
        (get_value_at_current_assignments g σ + prodFactors F σ) σ).values.getD
          (idxFrom g.scope τ 0) 0 = _
      unfold add_value_at_current_assignment
      simp only
      rw [idx_at_assignment_eq]
      exact getD_set_ne _ _ (Ne.symm hne)
  | cons var rest ih =>
    intro pre g σ hsc hsub hnd hlen hval
    have hvmem : var ∈ g.scope := by rw [hsc]; simp
    have hvvars : var ∈ vars := hsub var hvmem
    have hnd' := hnd
    rw [hsc] at hnd'
    obtain ⟨hndpre, hndrem, hdisj⟩ := List.nodup_append.mp hnd'
    have hvpre : var ∉ pre := fun hv => hdisj hv (by simp)
    have hvrest : var ∉ rest := by
      simp only [List.nodup_cons] at hndrem
      exact hndrem.1
    have hmemvars : ∀ w ∈ pre ++ var :: rest, w ∈ vars := by
      rw [← hsc]; exact hsub
    have hidpre : ∀ v ∈ pre, v.id ≠ var.id := by
      intro v hv hid
      exact hvpre ((VarsWF_id_eq hWF (hmemvars v (by simp [hv])) hvvars hid) ▸ hv)
    have hpre_not_rem : ∀ v ∈ pre, v.id ∉ (var :: rest).map fun w => w.id := by
      intro v hv hj
      rcases List.mem_map.mp hj with ⟨w, hw, hid⟩
      have hweq : w = v :=
        VarsWF_id_eq hWF (hmemvars w (by simp [hw])) (hmemvars v (by simp [hv])) hid
      exact hdisj hv (hweq ▸ hw)
    rw [compute_cons]
    have inner : ∀ (vals : List Val), (∀ x ∈ vals, x ∈ var.dom) →
        (vals.map fun x => value_index var x).Nodup →
        ∀ (g' : BFactor Val) (σ' : AState),
        g'.scope = g.scope → g'.values.length = g.values.length →
        (∀ j, j ∉ (var :: rest).map (fun w => w.id) → σ' j = σ j) →
        ((∀ j, j ∉ (var :: rest).map (fun w => w.id) →
            (computeVals g' var rest F σ' vals).2 j = σ j) ∧
          (∀ τ : AState, validOn g.scope τ → (∀ v ∈ pre, τ v.id = σ v.id) →
            τ var.id ∈ vals.map (fun x => value_index var x) →
            (computeVals g' var rest F σ' vals).1.values.getD (idxFrom g.scope τ 0) 0 =
              g'.values.getD (idxFrom g.scope τ 0) 0 +
                prodFactors F (ovr σ τ ((var :: rest).map fun w => w.id))) ∧
          (∀ τ : AState, validOn g.scope τ → (∀ v ∈ pre, τ v.id = σ v.id) →
            τ var.id ∉ vals.map (fun x => value_index var x) →
            (computeVals g' var rest F σ' vals).1.values.getD (idxFrom g.scope τ 0) 0 =
              g'.values.getD (idxFrom g.scope τ 0) 0) ∧
          (∀ τ : AState, validOn g.scope τ → (∃ v ∈ pre, τ v.id ≠ σ v.id) →
            (computeVals g' var rest F σ' vals).1.values.getD (idxFrom g.scope τ 0) 0 =
              g'.values.getD (idxFrom g.scope τ 0) 0)) := by
      intro vals
      induction vals with
      | nil =>
        intro _ _ g' σ' hsc' hlen' hσ'
        exact ⟨fun j hj => hσ' j hj, fun τ _ _ h => by simp at h,
          fun τ _ _ _ => rfl, fun τ _ _ => rfl⟩
      | cons val more ihv =>
        intro hvd hndv g' σ' hsc' hlen' hσ'
        have hvalmem : val ∈ var.dom := hvd val (by simp)
        have hndv' : value_index var val ∉ more.map (fun x => value_index var x) ∧
            (more.map fun x => value_index var x).Nodup := by
          simp only [List.map_cons, List.nodup_cons] at hndv
          exact hndv
        simp only [computeVals]
        have hσ2 : (assign var val F ((assign var val [g'] σ').2)).2 =
            updState σ' var.id (value_index var val) :=
          assign_compute_state hWF hvvars val
            (by rw [hsc']; exact hsub) (by rw [hsc']; exact hvmem) F hF σ'
        rw [hσ2]
        have hvalidA : validOn (pre ++ [var])
            (updState σ' var.id (value_index var val)) := by
          intro w hw
          rcases List.mem_append.mp hw with hw | hw
          · show updState σ' var.id (value_index var val) w.id < domain_size w
            rw [updState_ne _ _ (hidpre w hw), hσ' w.id (hpre_not_rem w hw)]
            exact hval w hw
          · rw [List.mem_singleton.mp hw]
            show updState σ' var.id (value_index var val) var.id < domain_size var
            rw [updState_self]
            exact value_index_lt hvalmem
        obtain ⟨ihb, ihc, ihd⟩ := ih (pre ++ [var]) g'
          (updState σ' var.id (value_index var val))
          (by rw [hsc', hsc]; simp)
          (by rw [hsc']; exact hsub)
          (by rw [hsc']; exact hnd)
          (by rw [hsc', hlen']; exact hlen)
          hvalidA
        have hrcscope :
            (compute g' rest F (updState σ' var.id (value_index var val))).1.scope =
              g.scope :=
          (compute_fields rest g' F _).1.trans hsc'
        have hrclen :
            (compute g' rest F
              (updState σ' var.id (value_index var val))).1.values.length =
              g.values.length :=
          ((compute_fields rest g' F _).2.2).trans hlen'
        have hrcstate : ∀ j, j ∉ (var :: rest).map (fun w => w.id) →
            (compute g' rest F (updState σ' var.id (value_index var val))).2 j =
              σ j := by
          intro j hj
          have hj' : j ∉ rest.map fun w => w.id := by
            intro hmem
            exact hj (by simp only [List.map_cons, List.mem_cons]; right; exact hmem)
          have hjvar : j ≠ var.id := by
            intro hid
            exact hj (by simp [hid])
          rw [ihb j hj', updState_ne _ _ hjvar]
          exact hσ' j hj
        obtain ⟨jb, jc1, jc2, jd⟩ := ihv (fun x hx => hvd x (by simp [hx])) hndv'.2
          (compute g' rest F (updState σ' var.id (value_index var val))).1
          (compute g' rest F (updState σ' var.id (value_index var val))).2
          hrcscope hrclen hrcstate
        refine ⟨jb, ?_, ?_, ?_⟩
        · intro τ hτ hagree hmem
          simp only [List.map_cons, List.mem_cons] at hmem
          rcases hmem with hτv | hτv
          · have hagreeA : ∀ v ∈ pre ++ [var],
                τ v.id = updState σ' var.id (value_index var val) v.id := by
              intro v hv
              rcases List.mem_append.mp hv with hv | hv
              · rw [updState_ne _ _ (hidpre v hv), hσ' v.id (hpre_not_rem v hv)]
                exact hagree v hv
              · rw [List.mem_singleton.mp hv, updState_self]
                exact hτv
            have hstep := ihc τ (by rw [hsc']; exact hτ) hagreeA
            rw [hsc'] at hstep
            have hovr : ovr (updState σ' var.id (value_index var val)) τ
                (rest.map fun w => w.id) =
                ovr σ τ ((var :: rest).map fun w => w.id) := by
              funext j
              by_cases hjr : j ∈ rest.map fun w => w.id
              · rw [ovr_mem _ _ hjr, ovr_mem _ _
                  (by simp only [List.map_cons, List.mem_cons]; right; exact hjr)]
              · by_cases hjv : j = var.id
                · subst hjv
                  rw [ovr_not_mem _ _ hjr, ovr_mem _ _ (by simp), updState_self]
                  exact hτv.symm
                · have hjnot : j ∉ (var :: rest).map fun w => w.id := by
                    simp only [List.map_cons, List.mem_cons]
                    push_neg
                    exact ⟨hjv, hjr⟩
                  rw [ovr_not_mem _ _ hjr, updState_ne _ _ hjv, ovr_not_mem _ _ hjnot]
                  exact hσ' j hjnot
            have hskip := jc2 τ hτ hagree (by rw [hτv]; exact hndv'.1)
            rw [hskip, hstep, hovr]
          · have hdisA : ∃ v ∈ pre ++ [var],
                τ v.id ≠ updState σ' var.id (value_index var val) v.id := by
              refine ⟨var, by simp, ?_⟩
              rw [updState_self]
              intro heq
              rw [heq] at hτv
              exact hndv'.1 hτv
            have hstep := ihd τ (by rw [hsc']; exact hτ) hdisA
            rw [hsc'] at hstep
            rw [jc1 τ hτ hagree hτv, hstep]
        · intro τ hτ hagree hnm
          simp only [List.map_cons, List.mem_cons] at hnm
          push_neg at hnm
          have hstep := ihd τ (by rw [hsc']; exact hτ)
            ⟨var, by simp, by rw [updState_self]; exact hnm.1⟩
          rw [hsc'] at hstep
          rw [jc2 τ hτ hagree hnm.2, hstep]
        · intro τ hτ hdis
          rcases hdis with ⟨v, hv, hvne⟩
          have hstep := ihd τ (by rw [hsc']; exact hτ)
            ⟨v, by simp [hv], by
              rw [updState_ne _ _ (hidpre v hv), hσ' v.id (hpre_not_rem v hv)]
              exact hvne⟩
          rw [hsc'] at hstep
          rw [jd τ hτ ⟨v, hv, hvne⟩, hstep]
    obtain ⟨kb, kc1, kc2, kd⟩ := inner var.dom (fun x hx => hx)
      (by rw [map_value_index_range var ((hWF.2 var hvvars).1)]
          exact List.nodup_range _)
      g σ rfl rfl (fun j _ => rfl)
    refine ⟨kb, ?_, kd⟩
    intro τ hτ hagree
    apply kc1 τ hτ hagree
    rw [map_value_index_range var ((hWF.2 var hvvars).1)]
    exact List.mem_range.mpr (hτ var hvmem)


/-! ## C1 machinery: the elimination loop -/

theorem assign_fst_filter (var : BVar Val) (val : Val) :
    ∀ (F : List (BFactor Val)) (σ : AState),
    (assign var val F σ).1 = F.filter fun f => (get_var_in_scope f var).isSome := by
  intro F
  induction F with
  | nil => intro σ; rfl
  | cons f rest ih =>
    intro σ
    simp only [assign]
    cases hfind : get_var_in_scope f var with
    | some w =>
      simp only [List.filter, hfind, Option.isSome_some]
      rw [ih _]
    | none =>
      simp only [List.filter, hfind, Option.isSome_none]
      rw [ih _]

theorem foldl_erase_skip {α : Type} [DecidableEq α] (p : α → Bool) {x : α}
    (hx : p x = false) :
    ∀ (items : List α), (∀ a ∈ items, p a = true) → ∀ xs : List α,
    items.foldl (fun acc a => acc.erase a) (x :: xs) =
      x :: items.foldl (fun acc a => acc.erase a) xs := by
  intro items
  induction items with
  | nil => intro _ xs; rfl
  | cons a as ih =>
    intro hmem xs
    simp only [List.foldl]
    have hax : x ≠ a := by
      intro h
      rw [h] at hx
      rw [hmem a (by simp)] at hx
      cases hx
    rw [List.erase_cons_tail (by simp [hax])]
    exact ih (fun b hb => hmem b (by simp [hb])) _

theorem foldl_erase_filter {α : Type} [DecidableEq α] (p : α → Bool) :
    ∀ l : List α,
    (l.filter p).foldl (fun acc a => acc.erase a) l = l.filter fun a => !(p a) := by
  intro l
  induction l with
  | nil => rfl
  | cons x xs ih =>
    by_cases hx : p x = true
    · rw [List.filter_cons_of_pos hx]
      simp only [List.foldl]
      rw [List.erase_cons_head]
      rw [List.filter_cons_of_neg (by simp [hx])]
      exact ih
    · have hx' : p x = false := by simpa using hx
      rw [List.filter_cons_of_neg (by simp [hx']), List.filter_cons_of_pos (by simp [hx'])]
      rw [foldl_erase_skip p hx' _ (fun a ha => List.of_mem_filter ha) xs]
      rw [ih]

theorem eliminateLoop_F (factorList : List (BFactor Val)) (z : BVar Val)
    (gs : List (BVar Val)) :
    ∀ (vals : List Val) (g : BFactor Val) (Facc : List (BFactor Val)) (σ : AState),
    vals ≠ [] →
    (eliminateLoop factorList z gs g Facc σ vals).2.1 =
      factorList.filter fun f => (get_var_in_scope f z).isSome := by
  intro vals
  induction vals with
  | nil => intro g Facc σ h; exact absurd rfl h
  | cons val more ih =>
    intro g Facc σ _
    simp only [eliminateLoop]
    cases hm : more with
    | nil =>
      simp only [eliminateLoop]
      exact assign_fst_filter z val factorList _
    | cons m ms =>
      rw [← hm]
      rw [ih _ _ _ (by simp [hm])]

theorem eliminateLoop_spec {vars : List (BVar Val)} (hWF : VarsWF vars)
    (factorList : List (BFactor Val)) (hfl : ∀ f ∈ factorList, ∀ w ∈ f.scope, w ∈ vars)
    {z : BVar Val} (hz : z ∈ vars) (hzm : ∃ f ∈ factorList, z ∈ f.scope)
    {gs : List (BVar Val)} (hgs_sub : ∀ w ∈ gs, w ∈ vars) (hgs_nd : gs.Nodup)
    (hzid : z.id ∉ gs.map fun w => w.id) :
    ∀ (vals : List Val), (∀ x ∈ vals, x ∈ z.dom) →
    ∀ (g : BFactor Val) (Facc : List (BFactor Val)) (σ' σ : AState),
    g.scope = gs → g.values.length = prodSize gs →
    (∀ j, j ∉ gs.map (fun w => w.id) → j ≠ z.id → σ' j = σ j) →
    ((∀ j, j ∉ gs.map (fun w => w.id) → j ≠ z.id →
        (eliminateLoop factorList z gs g Facc σ' vals).2.2 j = σ j) ∧
      (∀ τ : AState, validOn gs τ →
        (eliminateLoop factorList z gs g Facc σ' vals).1.values.getD
            (idxFrom gs τ 0) 0 =
          g.values.getD (idxFrom gs τ 0) 0 +
            (vals.map fun val =>
              prodFactors (factorList.filter fun f => (get_var_in_scope f z).isSome)
                (updState (ovr σ τ (gs.map fun w => w.id)) z.id
                  (value_index z val))).sum)) := by
  intro vals
  induction vals with
  | nil =>
    intro _ g Facc σ' σ hgsc hglen hσ'
    exact ⟨fun j hj hjz => hσ' j hj hjz, fun τ hτ => by simp [eliminateLoop]⟩
  | cons val more ih =>
    intro hvd g Facc σ' σ hgsc hglen hσ'
    simp only [eliminateLoop]
    rw [assign_fst_filter z val factorList σ']
    have hσA : (assign z val factorList σ').2 =
        updState σ' z.id (value_index z val) :=
      assign_state_mentioned hWF hz val factorList hfl σ' hzm
    rw [hσA]
    have hFsub : ∀ f ∈ (factorList.filter fun f => (get_var_in_scope f z).isSome),
        ∀ w ∈ f.scope, w ∈ vars :=
      fun f hf => hfl f (List.mem_of_mem_filter hf)
    obtain ⟨cb, cc, _⟩ := compute_spec hWF
      (factorList.filter fun f => (get_var_in_scope f z).isSome) hFsub gs [] g
      (updState σ' z.id (value_index z val))
      (by simpa using hgsc)
      (by rw [hgsc]; exact hgs_sub)
      (by rw [hgsc]; exact hgs_nd)
      (by rw [hgsc]; exact hglen)
      (fun v hv => absurd hv (List.not_mem_nil v))
    have hrscope : (compute g gs
        (factorList.filter fun f => (get_var_in_scope f z).isSome)
        (updState σ' z.id (value_index z val))).1.scope = gs :=
      ((compute_fields gs g _ _).1).trans hgsc
    have hrlen : (compute g gs
        (factorList.filter fun f => (get_var_in_scope f z).isSome)
        (updState σ' z.id (value_index z val))).1.values.length = prodSize gs :=
      ((compute_fields gs g _ _).2.2).trans hglen
    have hσ'' : ∀ j, j ∉ gs.map (fun w => w.id) → j ≠ z.id →
        (compute g gs (factorList.filter fun f => (get_var_in_scope f z).isSome)
          (updState σ' z.id (value_index z val))).2 j = σ j := by
      intro j hj hjz
      rw [cb j hj, updState_ne _ _ hjz]
      exact hσ' j hj hjz
    obtain ⟨ib, ic⟩ := ih (fun x hx => hvd x (by simp [hx]))
      (compute g gs (factorList.filter fun f => (get_var_in_scope f z).isSome)
        (updState σ' z.id (value_index z val))).1 _
      (compute g gs (factorList.filter fun f => (get_var_in_scope f z).isSome)
        (updState σ' z.id (value_index z val))).2 σ hrscope hrlen hσ''
    refine ⟨ib, ?_⟩
    intro τ hτ
    rw [ic τ hτ]
    have hcc := cc τ (by rw [hgsc]; exact hτ) (fun v hv => absurd hv (List.not_mem_nil v))
    rw [hgsc] at hcc
    rw [hcc]
    have hstate : ovr (updState σ' z.id (value_index z val)) τ (gs.map fun w => w.id) =
        updState (ovr σ τ (gs.map fun w => w.id)) z.id (value_index z val) := by
      funext j
      by_cases hj : j ∈ gs.map fun w => w.id
      · have hjz : j ≠ z.id := fun h => hzid (h ▸ hj)
        rw [ovr_mem _ _ hj, updState_ne _ _ hjz, ovr_mem _ _ hj]
      · by_cases hjz : j = z.id
        · subst hjz
          rw [ovr_not_mem _ _ hj, updState_self, updState_self]
        · rw [ovr_not_mem _ _ hj, updState_ne _ _ hjz, updState_ne _ _ hjz,
            ovr_not_mem _ _ hj]
          exact hσ' j hj hjz
    rw [hstate]
    rw [List.map_cons, List.sum_cons]
    ring


/-! ## C1 machinery: summation over joint assignments -/

/-- Sum of `h` over all joint index assignments of the variables `vs`,
starting from the base state `σ` (a specification-side device used to state
what elimination computes). -/
def sumOver (vs : List (BVar Val)) (σ : AState) (h : AState → ℚ) : ℚ :=
  match vs with
  | [] => h σ
  | v :: rest =>
    ∑ i ∈ Finset.range (domain_size v), sumOver rest (updState σ v.id i) h

theorem updState_comm (σ : AState) {a b : Nat} (x y : Nat) (h : a ≠ b) :
    updState (updState σ a x) b y = updState (updState σ b y) a x := by
  funext j
  unfold updState
  by_cases hja : j = a <;> by_cases hjb : j = b <;> simp_all

theorem updState_shadow (σ : AState) (a x y : Nat) :
    updState (updState σ a x) a y = updState σ a y := by
  funext j
  unfold updState
  by_cases hja : j = a <;> simp_all

theorem sumOver_congr_on {vs : List (BVar Val)} (hnd : (vs.map fun v => v.id).Nodup) :
    ∀ (σ : AState) (h h' : AState → ℚ),
    (∀ ρ : AState, (∀ j, j ∉ vs.map (fun v => v.id) → ρ j = σ j) → validOn vs ρ →
      h ρ = h' ρ) →
    sumOver vs σ h = sumOver vs σ h' := by
  induction vs with
  | nil =>
    intro σ h h' hh
    exact hh σ (fun j _ => rfl) (fun v hv => absurd hv (List.not_mem_nil v))
  | cons v rest ih =>
    intro σ h h' hh
    simp only [sumOver]
    apply Finset.sum_congr rfl
    intro i hi
    have hvid : v.id ∉ rest.map fun w => w.id := by
      simp only [List.map_cons, List.nodup_cons] at hnd
      exact hnd.1
    apply ih (by simp only [List.map_cons, List.nodup_cons] at hnd; exact hnd.2)
    intro ρ hρ hρv
    apply hh
    · intro j hj
      simp only [List.map_cons, List.mem_cons] at hj
      push_neg at hj
      rw [hρ j hj.2, updState_ne _ _ hj.1]
    · intro w hw
      rcases List.mem_cons.mp hw with rfl | hw
      · rw [hρ w.id hvid, updState_self]
        exact List.mem_range.mp hi
      · exact hρv w hw

theorem sumOver_pull_upd {z : BVar Val} :
    ∀ (vs : List (BVar Val)), z.id ∉ vs.map (fun v => v.id) →
    ∀ (σ : AState) (i : Nat) (h : AState → ℚ),
    sumOver vs (updState σ z.id i) h =
      sumOver vs σ (fun ρ => h (updState ρ z.id i)) := by
  intro vs
  induction vs with
  | nil => intro _ σ i h; rfl
  | cons v rest ih =>
    intro hz σ i h
    simp only [List.map_cons, List.mem_cons] at hz
    push_neg at hz
    simp only [sumOver]
    apply Finset.sum_congr rfl
    intro j hj
    rw [updState_comm σ i j hz.1]
    exact ih hz.2 _ i h

theorem sumOver_sum_swap (n : Nat) (H : Nat → AState → ℚ) :
    ∀ (vs : List (BVar Val)) (σ : AState),
    sumOver vs σ (fun ρ => ∑ i ∈ Finset.range n, H i ρ) =
      ∑ i ∈ Finset.range n, sumOver vs σ (H i) := by
  intro vs
  induction vs with
  | nil => intro σ; rfl
  | cons v rest ih =>
    intro σ
    simp only [sumOver]
    rw [Finset.sum_comm]
    apply Finset.sum_congr rfl
    intro j hj
    exact ih _

/-! ## C1 machinery: product decompositions -/

theorem prodFactors_eq_prod (F : List (BFactor Val)) (σ : AState) :
    prodFactors F σ = (F.map fun f => get_value_at_current_assignments f σ).prod := by
  unfold prodFactors
  have hgen : ∀ (G : List (BFactor Val)) (p : ℚ),
      G.foldl (fun p f => p * get_value_at_current_assignments f σ) p =
        p * (G.map fun f => get_value_at_current_assignments f σ).prod := by
    intro G
    induction G with
    | nil => intro p; simp
    | cons f rest ihg =>
      intro p
      simp only [List.foldl, List.map_cons, List.prod_cons]
      rw [ihg]
      ring
  rw [hgen]
  ring

theorem prodFactors_append (A B : List (BFactor Val)) (σ : AState) :
    prodFactors (A ++ B) σ = prodFactors A σ * prodFactors B σ := by
  rw [prodFactors_eq_prod, prodFactors_eq_prod, prodFactors_eq_prod,
    List.map_append, List.prod_append]

theorem prodFactors_singleton (f : BFactor Val) (σ : AState) :
    prodFactors [f] σ = get_value_at_current_assignments f σ := by
  rw [prodFactors_eq_prod]
  simp

theorem prodFactors_filter_split (p : BFactor Val → Bool) (F : List (BFactor Val))
    (σ : AState) :
    prodFactors (F.filter p) σ * prodFactors (F.filter fun f => !(p f)) σ =
      prodFactors F σ := by
  induction F with
  | nil => simp [prodFactors]
  | cons f rest ih =>
    by_cases hf : p f = true
    · rw [List.filter_cons_of_pos hf, List.filter_cons_of_neg (by simp [hf])]
      rw [prodFactors_eq_prod, List.map_cons, List.prod_cons, ← prodFactors_eq_prod,
        prodFactors_eq_prod (f :: rest), List.map_cons, List.prod_cons,
        ← prodFactors_eq_prod]
      rw [← ih]
      ring
    · have hf' : p f = false := by simpa using hf
      rw [List.filter_cons_of_neg (by simp [hf']), List.filter_cons_of_pos (by simp [hf'])]
      rw [prodFactors_eq_prod (f :: List.filter _ rest), List.map_cons, List.prod_cons,
        ← prodFactors_eq_prod,
        prodFactors_eq_prod (f :: rest), List.map_cons, List.prod_cons,
        ← prodFactors_eq_prod]
      rw [← ih]
      ring

theorem getD_replicate_zero (n i : Nat) :
    (List.replicate n (0 : ℚ)).getD i 0 = 0 := by
  rcases @getD_mem_or (List.replicate n (0 : ℚ)) i with hm | hm
  · exact List.eq_of_mem_replicate hm
  · exact hm

theorem sum_list_range (H : Nat → ℚ) (n : Nat) :
    ((List.range n).map H).sum = ∑ i ∈ Finset.range n, H i := by
  induction n with
  | zero => simp
  | succ n ih =>
    rw [List.range_succ, List.map_append, List.sum_append, Finset.sum_range_succ, ih]
    simp


/-! ## C1 machinery: the elimination pass computes an iterated sum -/

theorem mention_isSome {f : BFactor Val} {z : BVar Val} (h : z ∈ f.scope) :
    (get_var_in_scope f z).isSome = true := by
  unfold get_var_in_scope
  cases hfind : f.scope.find? fun var => var.name == z.name with
  | some w => rfl
  | none =>
    exfalso
    have := List.find?_eq_none.mp hfind z h
    simp at this

theorem ids_nodup {vars : List (BVar Val)} (hWF : VarsWF vars)
    {l : List (BVar Val)} (hsub : ∀ w ∈ l, w ∈ vars) (hnd : l.Nodup) :
    (l.map fun v => v.id).Nodup :=
  List.Nodup.map_on
    (fun x hx y hy hxy => VarsWF_id_eq hWF (hsub x hx) (hsub y hy) hxy) hnd

theorem id_not_mem_map {vars : List (BVar Val)} (hWF : VarsWF vars)
    {l : List (BVar Val)} (hsub : ∀ w ∈ l, w ∈ vars) {v : BVar Val}
    (hv : v ∈ vars) (hnm : v ∉ l) : v.id ∉ l.map fun w => w.id := by
  intro hmem
  rcases List.mem_map.mp hmem with ⟨w, hw, hid⟩
  exact hnm ((VarsWF_id_eq hWF (hsub w hw) hv hid) ▸ hw)

/-- **The elimination pass computes an iterated sum.**  If every factor's
scope is contained in the not-yet-eliminated variables plus the query
variable and every variable of the ordering is mentioned by some factor,
then the product of the resulting factor list at any assignment giving the
query variable a legal value equals the sum, over all joint assignments of
the eliminated variables, of the product of the input factor list. -/
theorem eliminateZ_sum {vars : List (BVar Val)} (hWF : VarsWF vars)
    {QueryVar : BVar Val} (hQ : QueryVar ∈ vars) :
    ∀ (R : List (BVar Val)), (∀ w ∈ R, w ∈ vars) → R.Nodup → QueryVar ∉ R →
    ∀ (factorList : List (BFactor Val)) (σ : AState),
    (∀ f ∈ factorList, (∀ w ∈ f.scope, w ∈ vars) ∧
      (∀ w ∈ f.scope, w ∈ R ∨ w = QueryVar) ∧
      f.values.length = prodSize f.scope) →
    (∀ z' ∈ R, ∃ f ∈ factorList, z' ∈ f.scope) →
    ∀ τ : AState, τ QueryVar.id < domain_size QueryVar →
    prodFactors (eliminateZ factorList R QueryVar σ).1 τ =
      sumOver R τ (fun ρ => prodFactors factorList ρ) := by
  intro R
  induction R with
  | nil => intro _ _ _ factorList σ _ _ τ _; rfl
  | cons z R' ihR =>
    intro hRsub hRnd hQR factorList σ hfl hment τ hτQ
    have hz : z ∈ vars := hRsub z (by simp)
    have hzR' : z ∉ R' := by simp only [List.nodup_cons] at hRnd; exact hRnd.1
    have hR'nd : R'.Nodup := by simp only [List.nodup_cons] at hRnd; exact hRnd.2
    have hR'sub : ∀ w ∈ R', w ∈ vars := fun w hw => hRsub w (by simp [hw])
    have hQR' : QueryVar ∉ R' := fun h => hQR (by simp [h])
    have hzQ : z ≠ QueryVar := fun h => hQR (by rw [← h]; simp)
    have hgs_sub : ∀ w ∈ R' ++ [QueryVar], w ∈ vars := by
      intro w hw
      rcases List.mem_append.mp hw with hw | hw
      · exact hR'sub w hw
      · rw [List.mem_singleton.mp hw]; exact hQ
    have hgs_nd : (R' ++ [QueryVar]).Nodup := by
      rw [List.nodup_append]
      exact ⟨hR'nd, List.nodup_singleton _,
        fun a ha hb => hQR' ((List.mem_singleton.mp hb) ▸ ha)⟩
    have hzgs : z ∉ R' ++ [QueryVar] := by
      intro h
      rcases List.mem_append.mp h with h | h
      · exact hzR' h
      · exact hzQ (List.mem_singleton.mp h)
    have hzid : z.id ∉ (R' ++ [QueryVar]).map fun w => w.id :=
      id_not_mem_map hWF hgs_sub hz hzgs
    have hzidR' : z.id ∉ R'.map fun w => w.id :=
      id_not_mem_map hWF hR'sub hz hzR'
    have hQidR' : QueryVar.id ∉ R'.map fun w => w.id :=
      id_not_mem_map hWF hR'sub hQ hQR'
    have hR'ids : (R'.map fun w => w.id).Nodup := ids_nodup hWF hR'sub hR'nd
    have hzdom : z.dom ≠ [] := (hWF.2 z hz).2
    have hzm : ∃ f ∈ factorList, z ∈ f.scope := hment z (by simp)
    have hflsub : ∀ f ∈ factorList, ∀ w ∈ f.scope, w ∈ vars :=
      fun f hf => (hfl f hf).1
    -- the replacement factor
    have hloop := eliminateLoop_spec hWF factorList hflsub hz hzm hgs_sub hgs_nd
      hzid z.dom (fun x hx => hx) (mkFactor "" (R' ++ [QueryVar])) [] σ σ rfl
      (by simp [mkFactor]) (fun j _ _ => rfl)
    have hgLscope :
        (eliminateLoop factorList z (R' ++ [QueryVar])
          (mkFactor "" (R' ++ [QueryVar])) [] σ z.dom).1.scope = R' ++ [QueryVar] :=
      (eliminateLoop_fields factorList z (R' ++ [QueryVar]) _ [] σ z.dom).1
    have hgLlen :
        (eliminateLoop factorList z (R' ++ [QueryVar])
          (mkFactor "" (R' ++ [QueryVar])) [] σ z.dom).1.values.length =
          prodSize (R' ++ [QueryVar]) := by
      rw [(eliminateLoop_fields factorList z (R' ++ [QueryVar]) _ [] σ z.dom).2]
      simp [mkFactor]
    -- evaluation of the replacement factor
    have hgL : ∀ ρ : AState, validOn (R' ++ [QueryVar]) ρ →
        get_value_at_current_assignments
          (eliminateLoop factorList z (R' ++ [QueryVar])
            (mkFactor "" (R' ++ [QueryVar])) [] σ z.dom).1 ρ =
          ∑ i ∈ Finset.range (domain_size z),
            prodFactors (factorList.filter fun f => (get_var_in_scope f z).isSome)
              (updState ρ z.id i) := by
      intro ρ hρ
      unfold get_value_at_current_assignments
      rw [hgLscope, idx_at_assignment_eq]
      rw [hloop.2 ρ hρ]
      have hzero : (mkFactor "" (R' ++ [QueryVar]) : BFactor Val).values.getD
          (idxFrom (R' ++ [QueryVar]) ρ 0) 0 = 0 := by
        unfold mkFactor
        exact getD_replicate_zero _ _
      rw [hzero, zero_add]
      have hmapc : z.dom.map (fun val =>
          prodFactors (factorList.filter fun f => (get_var_in_scope f z).isSome)
            (updState (ovr σ ρ ((R' ++ [QueryVar]).map fun w => w.id)) z.id
              (value_index z val))) =
          z.dom.map (fun val =>
          prodFactors (factorList.filter fun f => (get_var_in_scope f z).isSome)
            (updState ρ z.id (value_index z val))) := by
        apply List.map_congr_left
        intro val hval
        apply prodFactors_congr
        intro f hf w hw
        have hw2 := (hfl f (List.mem_of_mem_filter hf)).2.1 w hw
        by_cases hwz : w = z
        · subst hwz
          rw [updState_self, updState_self]
        · have hwid : w.id ≠ z.id := by
            intro hid
            exact hwz (VarsWF_id_eq hWF ((hfl f (List.mem_of_mem_filter hf)).1 w hw)
              hz hid)
          have hwgs : w ∈ R' ++ [QueryVar] := by
            rcases hw2 with hw2 | hw2
            · rcases List.mem_cons.mp hw2 with h | h
              · exact absurd h hwz
              · exact List.mem_append.mpr (Or.inl h)
            · rw [hw2]; simp
          rw [updState_ne _ _ hwid, updState_ne _ _ hwid,
            ovr_mem _ _ (List.mem_map_of_mem _ hwgs)]
      rw [hmapc]
      have hmm : z.dom.map (fun val =>
          prodFactors (factorList.filter fun f => (get_var_in_scope f z).isSome)
            (updState ρ z.id (value_index z val))) =
          (List.range (domain_size z)).map (fun i =>
          prodFactors (factorList.filter fun f => (get_var_in_scope f z).isSome)
            (updState ρ z.id i)) := by
        rw [← map_value_index_range z (hWF.2 z hz).1]
        rw [List.map_map]
        rfl
      rw [hmm, sum_list_range]
    -- one unfolding of eliminateZ
    show prodFactors (eliminateZ (eliminateStep factorList z R' QueryVar σ).1 R'
      QueryVar (eliminateStep factorList z R' QueryVar σ).2).1 τ = _
    have hstep1 : (eliminateStep factorList z R' QueryVar σ).1 =
        (factorList.filter fun f => !((get_var_in_scope f z).isSome)) ++
          [(eliminateLoop factorList z (R' ++ [QueryVar])
            (mkFactor "" (R' ++ [QueryVar])) [] σ z.dom).1] := by
      unfold eliminateStep
      simp only
      rw [eliminateLoop_F factorList z (R' ++ [QueryVar]) z.dom _ _ _ hzdom]
      rw [foldl_erase_filter]
    rw [hstep1]
    -- apply the induction hypothesis
    rw [ihR hR'sub hR'nd hQR' _ (eliminateStep factorList z R' QueryVar σ).2 ?hfl' ?hment' τ hτQ]
    case hfl' =>
      intro f hf
      rcases List.mem_append.mp hf with hf | hf
      · have hmem := List.mem_of_mem_filter hf
        have hnm : (get_var_in_scope f z).isSome = false := by
          have := List.of_mem_filter hf
          simpa using this
        refine ⟨(hfl f hmem).1, ?_, (hfl f hmem).2.2⟩
        intro w hw
        rcases (hfl f hmem).2.1 w hw with hw2 | hw2
        · rcases List.mem_cons.mp hw2 with h | h
          · exfalso
            rw [h] at hw
            rw [mention_isSome hw] at hnm
            cases hnm
          · exact Or.inl h
        · exact Or.inr hw2
      · rw [List.mem_singleton.mp hf]
        refine ⟨by rw [hgLscope]; exact hgs_sub, ?_, by rw [hgLscope]; exact hgLlen⟩
        rw [hgLscope]
        intro w hw
        rcases List.mem_append.mp hw with hw | hw
        · exact Or.inl hw
        · exact Or.inr (List.mem_singleton.mp hw)
    case hment' =>
      intro z' hz'
      refine ⟨(eliminateLoop factorList z (R' ++ [QueryVar])
        (mkFactor "" (R' ++ [QueryVar])) [] σ z.dom).1,
        List.mem_append.mpr (Or.inr (by simp)), ?_⟩
      rw [hgLscope]
      exact List.mem_append.mpr (Or.inl hz')
    -- now rewrite the sum
    have hsplit : (fun ρ => prodFactors
        ((factorList.filter fun f => !((get_var_in_scope f z).isSome)) ++
          [(eliminateLoop factorList z (R' ++ [QueryVar])
            (mkFactor "" (R' ++ [QueryVar])) [] σ z.dom).1]) ρ) =
        fun ρ => prodFactors (factorList.filter fun f => !((get_var_in_scope f z).isSome)) ρ *
          get_value_at_current_assignments
            (eliminateLoop factorList z (R' ++ [QueryVar])
              (mkFactor "" (R' ++ [QueryVar])) [] σ z.dom).1 ρ := by
      funext ρ
      rw [prodFactors_append, prodFactors_singleton]
    rw [hsplit]
    have hcongr : sumOver R' τ (fun ρ =>
        prodFactors (factorList.filter fun f => !((get_var_in_scope f z).isSome)) ρ *
          get_value_at_current_assignments
            (eliminateLoop factorList z (R' ++ [QueryVar])
              (mkFactor "" (R' ++ [QueryVar])) [] σ z.dom).1 ρ) =
        sumOver R' τ (fun ρ => ∑ i ∈ Finset.range (domain_size z),
          prodFactors factorList (updState ρ z.id i)) := by
      apply sumOver_congr_on hR'ids
      intro ρ hρoff hρval
      have hρQ : ρ QueryVar.id = τ QueryVar.id := hρoff QueryVar.id hQidR'
      have hρgs : validOn (R' ++ [QueryVar]) ρ := by
        intro w hw
        rcases List.mem_append.mp hw with hw | hw
        · exact hρval w hw
        · rw [List.mem_singleton.mp hw]
          rw [hρQ]
          exact hτQ
      rw [hgL ρ hρgs]
      rw [Finset.mul_sum]
      apply Finset.sum_congr rfl
      intro i hi
      have hFn : prodFactors (factorList.filter fun f => !((get_var_in_scope f z).isSome)) ρ =
          prodFactors (factorList.filter fun f => !((get_var_in_scope f z).isSome))
            (updState ρ z.id i) := by
        apply prodFactors_congr
        intro f hf w hw
        have hnm : (get_var_in_scope f z).isSome = false := by
          have := List.of_mem_filter hf
          simpa using this
        have hwz : w ≠ z := by
          intro h
          rw [h] at hw
          rw [mention_isSome hw] at hnm
          cases hnm
        have hwid : w.id ≠ z.id := by
          intro hid
          exact hwz (VarsWF_id_eq hWF
            ((hfl f (List.mem_of_mem_filter hf)).1 w hw) hz hid)
        rw [updState_ne _ _ hwid]
      rw [hFn]
      rw [mul_comm]
      exact prodFactors_filter_split _ factorList (updState ρ z.id i)
    rw [hcongr, sumOver_sum_swap]
    show _ = sumOver (z :: R') τ fun ρ => prodFactors factorList ρ
    simp only [sumOver]
    apply Finset.sum_congr rfl
    intro i hi
    rw [sumOver_pull_upd R' hzidR']


/-! ## C1 machinery: restriction correctness -/

/-- Evidence override: write every evidence variable's observed index into
the state. -/
def evUpd (evs : List (EVar Val)) (τ : AState) : AState :=
  evs.foldr (fun e ρ => updState ρ e.var.id e.evidence_index) τ

theorem evUpd_nil (τ : AState) : evUpd ([] : List (EVar Val)) τ = τ := rfl

theorem evUpd_cons (e : EVar Val) (evs : List (EVar Val)) (τ : AState) :
    evUpd (e :: evs) τ = updState (evUpd evs τ) e.var.id e.evidence_index := rfl

theorem evUpd_not_mem {evs : List (EVar Val)} {j : Nat}
    (h : ∀ e ∈ evs, j ≠ e.var.id) (τ : AState) : evUpd evs τ j = τ j := by
  induction evs with
  | nil => rfl
  | cons e rest ih =>
    rw [evUpd_cons, updState_ne _ _ (h e (by simp))]
    exact ih (fun e' he' => h e' (by simp [he']))

theorem evUpd_updState_comm {evs : List (EVar Val)} {a : Nat}
    (h : ∀ e ∈ evs, a ≠ e.var.id) (x : Nat) (τ : AState) :
    evUpd evs (updState τ a x) = updState (evUpd evs τ) a x := by
  induction evs with
  | nil => rfl
  | cons e rest ih =>
    rw [evUpd_cons, evUpd_cons, ih (fun e' he' => h e' (by simp [he'])),
      updState_comm _ _ _ (fun hh => h e (by simp) hh.symm)]

theorem evUpd_id_of_mem {vars : List (BVar Val)} (hWF : VarsWF vars)
    {evs : List (EVar Val)} (hsub : ∀ e ∈ evs, e.var ∈ vars)
    (hnd : (evs.map fun e => e.var).Nodup) {e : EVar Val} (he : e ∈ evs)
    (τ : AState) : evUpd evs τ e.var.id = e.evidence_index := by
  induction evs with
  | nil => simp at he
  | cons e0 rest ih =>
    rw [evUpd_cons]
    rcases List.mem_cons.mp he with rfl | he
    · rw [updState_self]
    · have hne : e.var.id ≠ e0.var.id := by
        intro hid
        have : e.var = e0.var :=
          VarsWF_id_eq hWF (hsub e (by simp [he])) (hsub e0 (by simp)) hid
        simp only [List.map_cons, List.nodup_cons] at hnd
        exact hnd.1 (this ▸ List.mem_map_of_mem _ he)
      rw [updState_ne _ _ hne]
      exact ih (fun e' he' => hsub e' (by simp [he']))
        (by simp only [List.map_cons, List.nodup_cons] at hnd; exact hnd.2) he

theorem mem_foldl_erase_iff {vars : List (BVar Val)} (hWF : VarsWF vars) :
    ∀ (evs : List (EVar Val)) (sc : List (BVar Val)), sc.Nodup →
    ∀ w : BVar Val,
    (w ∈ evs.foldl (fun sc e => sc.erase e.var) sc ↔
      w ∈ sc ∧ ∀ e ∈ evs, w ≠ e.var) := by
  intro evs
  induction evs with
  | nil => intro sc _ w; simp
  | cons e rest ih =>
    intro sc hnd w
    simp only [List.foldl]
    rw [ih (sc.erase e.var) (hnd.erase _) w]
    rw [hnd.mem_erase_iff]
    constructor
    · rintro ⟨⟨hne, hmem⟩, hrest⟩
      refine ⟨hmem, ?_⟩
      intro e' he'
      rcases List.mem_cons.mp he' with rfl | he'
      · exact hne
      · exact hrest e' he'
    · rintro ⟨hmem, hall⟩
      exact ⟨⟨hall e (by simp), hmem⟩, fun e' he' => hall e' (by simp [he'])⟩

theorem foldl_erase_sublist (evs : List (EVar Val)) :
    ∀ sc : List (BVar Val),
    (evs.foldl (fun sc e => sc.erase e.var) sc).Sublist sc := by
  induction evs with
  | nil => intro sc; exact List.Sublist.refl sc
  | cons e rest ih =>
    intro sc
    exact (ih (sc.erase e.var)).trans (List.erase_sublist _ _)

/-- Per-factor restriction correctness: restricting by one evidence
variable removes it from the scope and evaluates the old factor with the
evidence index written into the state. -/
theorem restrictFactor_eval {vars : List (BVar Val)} (hWF : VarsWF vars)
    {e : EVar Val} (he : e.var ∈ vars) (hidx : e.evidence_index < domain_size e.var)
    {f : BFactor Val} (hfsub : ∀ w ∈ f.scope, w ∈ vars) (hfnd : f.scope.Nodup)
    (hflen : f.values.length = prodSize f.scope) (σ : AState) :
    (restrictFactor e f σ).1.scope = f.scope.erase e.var ∧
      (restrictFactor e f σ).1.values.length = prodSize (f.scope.erase e.var) ∧
      (∀ τ : AState, validOn (f.scope.erase e.var) τ →
        get_value_at_current_assignments (restrictFactor e f σ).1 τ =
          get_value_at_current_assignments f
            (updState τ e.var.id e.evidence_index)) := by
  cases hmem : decide (e.var ∈ f.scope) with
  | false =>
    have hnmem : e.var ∉ f.scope := by simpa using hmem
    have hnone : get_var_in_scope f e.var = none := by
      rw [get_var_in_scope_eq_none_iff]
      intro w hw hname
      exact hnmem ((VarsWF_name_eq hWF (hfsub w hw) he hname) ▸ hw)
    rw [restrictFactor_none σ hnone]
    have herase : f.scope.erase e.var = f.scope := List.erase_of_not_mem hnmem
    rw [herase]
    refine ⟨rfl, hflen, ?_⟩
    intro τ hτ
    apply fval_congr
    intro w hw
    have hwid : w.id ≠ e.var.id := by
      intro hid
      exact hnmem ((VarsWF_id_eq hWF (hfsub w hw) he hid) ▸ hw)
    rw [updState_ne _ _ hwid]
  | true =>
    have hmem' : e.var ∈ f.scope := by simpa using hmem
    have hfind : get_var_in_scope f e.var = some e.var :=
      get_var_in_scope_consistent hWF hfsub he hmem'
    have hres : restrictFactor e f σ =
        compute (mkFactor "" (f.scope.erase e.var)) (f.scope.erase e.var) [f]
          (set_assignment e.var (get_evidence e) σ) := by
      unfold restrictFactor
      rw [hfind]
      rfl
    have hσ1 : set_assignment e.var (get_evidence e) σ =
        updState σ e.var.id e.evidence_index := by
      unfold set_assignment get_evidence
      rw [value_index_indexOf_getD (hWF.2 e.var he).1 hidx]
    have hesub : ∀ w ∈ f.scope.erase e.var, w ∈ vars :=
      fun w hw => hfsub w (List.mem_of_mem_erase hw)
    have hend : (f.scope.erase e.var).Nodup := hfnd.erase _
    obtain ⟨_, cc, _⟩ := compute_spec hWF [f] (by simpa using hfsub)
      (f.scope.erase e.var) [] (mkFactor "" (f.scope.erase e.var))
      (updState σ e.var.id e.evidence_index)
      (by simp [mkFactor]) (by simp only [mkFactor]; exact hesub)
      (by simp only [mkFactor]; exact hend) (by simp [mkFactor])
      (fun v hv => absurd hv (List.not_mem_nil v))
    have hscope := (compute_fields (f.scope.erase e.var)
      (mkFactor "" (f.scope.erase e.var)) [f]
      (updState σ e.var.id e.evidence_index)).1
    have hlen := (compute_fields (f.scope.erase e.var)
      (mkFactor "" (f.scope.erase e.var)) [f]
      (updState σ e.var.id e.evidence_index)).2.2
    rw [hres, hσ1]
    refine ⟨by rw [hscope]; simp [mkFactor], by rw [hlen]; simp [mkFactor], ?_⟩
    intro τ hτ
    unfold get_value_at_current_assignments
    rw [hscope]
    simp only [mkFactor]
    rw [idx_at_assignment_eq]
    have hcc := cc τ (by simp only [mkFactor]; exact hτ)
      (fun v hv => absurd hv (List.not_mem_nil v))
    simp only [mkFactor] at hcc
    rw [hcc]
    rw [getD_replicate_zero, zero_add]
    have hprod : prodFactors [f] (ovr (updState σ e.var.id e.evidence_index) τ
        ((f.scope.erase e.var).map fun v => v.id)) =
        get_value_at_current_assignments f (updState τ e.var.id e.evidence_index) := by
      rw [prodFactors_singleton]
      apply fval_congr
      intro w hw
      by_cases hwe : w = e.var
      · have hwid : e.var.id ∉ (f.scope.erase e.var).map fun v => v.id := by
          intro hmem2
          rcases List.mem_map.mp hmem2 with ⟨w', hw', hid⟩
          have hw'e : w' = e.var := VarsWF_id_eq hWF (hesub w' hw') he hid
          exact (hfnd.mem_erase_iff.mp hw').1 hw'e
        rw [hwe]
        rw [ovr_not_mem _ _ hwid, updState_self, updState_self]
      · have hwer : w ∈ f.scope.erase e.var := by
          rw [hfnd.mem_erase_iff]
          exact ⟨hwe, hw⟩
        have hwid : w.id ≠ e.var.id := by
          intro hid
          exact hwe (VarsWF_id_eq hWF (hfsub w hw) he hid)
        rw [ovr_mem _ _ (List.mem_map_of_mem _ hwer), updState_ne _ _ hwid]
    rw [hprod]
    rfl


/-- The per-list restriction relation: after restricting by `evs`, each
factor's scope lost exactly the evidence variables (in pass order) and its
table evaluates the original factor with the evidence indices written into
the state. -/
def RestRel (evs : List (EVar Val)) (f f' : BFactor Val) : Prop :=
  f'.scope = evs.foldl (fun sc e => sc.erase e.var) f.scope ∧
    f'.values.length = prodSize f'.scope ∧
    (∀ τ : AState, validOn f'.scope τ →
      get_value_at_current_assignments f' τ =
        get_value_at_current_assignments f (evUpd evs τ))

/-- Transport of validity through the evidence override. -/
theorem valid_evUpd {vars : List (BVar Val)} (hWF : VarsWF vars) :
    ∀ (evs : List (EVar Val)), (∀ e ∈ evs, e.var ∈ vars) →
    (∀ e ∈ evs, e.evidence_index < domain_size e.var) →
    ∀ (sc : List (BVar Val)), (∀ w ∈ sc, w ∈ vars) → sc.Nodup →
    ∀ τ : AState, validOn (evs.foldl (fun sc e => sc.erase e.var) sc) τ →
    validOn sc (evUpd evs τ) := by
  intro evs
  induction evs with
  | nil => intro _ _ sc _ _ τ hτ; exact hτ
  | cons e rest ih =>
    intro hsub hidx sc hscsub hscnd τ hτ
    intro w hw
    rw [evUpd_cons]
    by_cases hwe : w.id = e.var.id
    · have hweq : w = e.var := VarsWF_id_eq hWF (hscsub w hw) (hsub e (by simp)) hwe
      rw [hwe, updState_self, hweq]
      exact hidx e (by simp)
    · rw [updState_ne _ _ hwe]
      have hwer : w ∈ sc.erase e.var := by
        rw [hscnd.mem_erase_iff]
        refine ⟨?_, hw⟩
        intro heq
        exact hwe (heq ▸ rfl)
      exact ih (fun e' he' => hsub e' (by simp [he']))
        (fun e' he' => hidx e' (by simp [he'])) (sc.erase e.var)
        (fun w' hw' => hscsub w' (List.mem_of_mem_erase hw')) (hscnd.erase _)
        τ hτ w hwer

/-- One restriction pass establishes the single-evidence relation at every
position. -/
theorem restrictPass_rel {vars : List (BVar Val)} (hWF : VarsWF vars)
    {e : EVar Val} (he : e.var ∈ vars) (hidx : e.evidence_index < domain_size e.var) :
    ∀ (fs : List (BFactor Val)) (σ : AState),
    (∀ f ∈ fs, (∀ w ∈ f.scope, w ∈ vars) ∧ f.scope.Nodup ∧
      f.values.length = prodSize f.scope) →
    List.Forall₂ (fun f f' => f'.scope = f.scope.erase e.var ∧
      f'.values.length = prodSize f'.scope ∧
      (∀ τ : AState, validOn f'.scope τ →
        get_value_at_current_assignments f' τ =
          get_value_at_current_assignments f (updState τ e.var.id e.evidence_index)))
      fs (restrictPass e fs σ).1 := by
  intro fs
  induction fs with
  | nil => intro σ _; exact List.Forall₂.nil
  | cons f rest ih =>
    intro σ hfs
    simp only [restrictPass]
    refine List.Forall₂.cons ?_ (ih _ (fun g hg => hfs g (by simp [hg])))
    obtain ⟨h1, h2, h3⟩ := restrictFactor_eval hWF he hidx (hfs f (by simp)).1
      (hfs f (by simp)).2.1 (hfs f (by simp)).2.2 σ
    exact ⟨h1, by rw [h1]; exact h2, by rw [h1]; exact h3⟩

/-- Membership on the right of a `Forall₂` has a related member on the left. -/
theorem forall₂_mem_right {α β : Type} {R : α → β → Prop} :
    ∀ {l₁ : List α} {l₂ : List β}, List.Forall₂ R l₁ l₂ →
    ∀ b ∈ l₂, ∃ a ∈ l₁, R a b := by
  intro l₁ l₂ h
  induction h with
  | nil => simp
  | @cons a b l₁ l₂ hr _ ih =>
    intro b' hb'
    rcases List.mem_cons.mp hb' with rfl | hb'
    · exact ⟨a, by simp, hr⟩
    · obtain ⟨a', ha', hab⟩ := ih b' hb'
      exact ⟨a', by simp [ha'], hab⟩

/-- Membership-aware composition of two `Forall₂` relations. -/
theorem forall₂_trans_mem {α β γ : Type} {R : α → β → Prop} {S : β → γ → Prop}
    {T : α → γ → Prop} :
    ∀ {l₁ : List α} {l₂ : List β} {l₃ : List γ},
    (∀ a ∈ l₁, ∀ b c, R a b → S b c → T a c) →
    List.Forall₂ R l₁ l₂ → List.Forall₂ S l₂ l₃ → List.Forall₂ T l₁ l₃ := by
  intro l₁ l₂ l₃ hc h1
  induction h1 generalizing l₃ with
  | nil =>
    intro h2
    cases h2
    exact List.Forall₂.nil
  | @cons a b l₁ l₂ hr _ ih =>
    intro h2
    cases h2 with
    | cons hs h2' =>
      exact List.Forall₂.cons (hc a (by simp) _ _ hr hs)
        (ih (fun a' ha' => hc a' (by simp [ha'])) h2')

/-- The full restriction pass establishes `RestRel evs` positionally. -/
theorem restrict_rel {vars : List (BVar Val)} (hWF : VarsWF vars) :
    ∀ (evs : List (EVar Val)), (∀ e ∈ evs, e.var ∈ vars) →
    (∀ e ∈ evs, e.evidence_index < domain_size e.var) →
    ∀ (fs : List (BFactor Val)) (σ : AState),
    (∀ f ∈ fs, (∀ w ∈ f.scope, w ∈ vars) ∧ f.scope.Nodup ∧
      f.values.length = prodSize f.scope) →
    List.Forall₂ (RestRel evs) fs (restrict fs evs σ).1 := by
  intro evs
  induction evs with
  | nil =>
    intro _ _ fs σ hfs
    show List.Forall₂ (RestRel []) fs fs
    apply List.forall₂_same.mpr
    intro f hf
    exact ⟨rfl, (hfs f hf).2.2, fun τ _ => rfl⟩
  | cons e rest ih =>
    intro hsub hidx fs σ hfs
    simp only [restrict]
    have hpass := restrictPass_rel hWF (hsub e (by simp)) (hidx e (by simp)) fs σ hfs
    have hfs' : ∀ f' ∈ (restrictPass e fs σ).1, (∀ w ∈ f'.scope, w ∈ vars) ∧
        f'.scope.Nodup ∧ f'.values.length = prodSize f'.scope := by
      intro f' hf'
      obtain ⟨f, hf, hrel⟩ := forall₂_mem_right hpass f' hf'
      refine ⟨?_, ?_, hrel.2.1⟩
      · rw [hrel.1]
        exact fun w hw => (hfs f hf).1 w (List.mem_of_mem_erase hw)
      · rw [hrel.1]
        exact ((hfs f hf).2.1).erase _
    have hrest := ih (fun e' he' => hsub e' (by simp [he']))
      (fun e' he' => hidx e' (by simp [he'])) (restrictPass e fs σ).1
      (restrictPass e fs σ).2 hfs'
    refine forall₂_trans_mem ?_ hpass hrest
    intro a ha b c hR hS
    have haWF := hfs a ha
    have hbsub : ∀ w ∈ b.scope, w ∈ vars := by
      rw [hR.1]
      exact fun w hw => haWF.1 w (List.mem_of_mem_erase hw)
    have hbnd : b.scope.Nodup := by
      rw [hR.1]
      exact (haWF.2.1).erase _
    refine ⟨?_, hS.2.1, ?_⟩
    · rw [hS.1, hR.1]
      rfl
    · intro τ hτ
      have hτc : validOn (rest.foldl (fun sc e => sc.erase e.var) b.scope) τ := by
        rw [← hS.1]
        exact hτ
      have hvb : validOn b.scope (evUpd rest τ) :=
        valid_evUpd hWF rest (fun e' he' => hsub e' (by simp [he']))
          (fun e' he' => hidx e' (by simp [he'])) b.scope hbsub hbnd τ hτc
      rw [hS.2.2 τ hτ, hR.2.2 (evUpd rest τ) hvb]
      rw [evUpd_cons]

/-! ## C1 machinery: summation identities, the ordering, and brute force -/

theorem sumOver_zero (vs : List (BVar Val)) : ∀ σ : AState,
    sumOver vs σ (fun _ => (0 : ℚ)) = 0 := by
  induction vs with
  | nil => intro σ; rfl
  | cons v rest ih =>
    intro σ
    simp only [sumOver]
    rw [Finset.sum_congr rfl (fun i _ => ih _)]
    simp

theorem sumOver_append (as : List (BVar Val)) :
    ∀ (bs : List (BVar Val)) (σ : AState) (h : AState → ℚ),
    sumOver (as ++ bs) σ h = sumOver as σ (fun ρ => sumOver bs ρ h) := by
  induction as with
  | nil => intro bs σ h; rfl
  | cons v rest ih =>
    intro bs σ h
    simp only [List.cons_append, sumOver]
    exact Finset.sum_congr rfl (fun i _ => ih _ _ _)

/-- A permutation of the summed variables (with distinct ids) leaves the
sum unchanged. -/
theorem sumOver_perm {vs vs' : List (BVar Val)} (hperm : vs.Perm vs') :
    (vs.map fun v => v.id).Nodup →
    ∀ (σ : AState) (h : AState → ℚ), sumOver vs σ h = sumOver vs' σ h := by
  induction hperm with
  | nil => intro _ σ h; rfl
  | cons x hp ih =>
    intro hnd σ h
    simp only [sumOver]
    refine Finset.sum_congr rfl (fun i _ => ?_)
    exact ih (by simp only [List.map_cons, List.nodup_cons] at hnd; exact hnd.2) _ h
  | swap x y l =>
    intro hnd σ h
    have hxy : y.id ≠ x.id := by
      simp only [List.map_cons, List.nodup_cons, List.mem_cons] at hnd
      exact fun hh => hnd.1 (Or.inl hh)
    simp only [sumOver]
    rw [Finset.sum_comm]
    refine Finset.sum_congr rfl (fun j _ => ?_)
    refine Finset.sum_congr rfl (fun i _ => ?_)
    rw [updState_comm σ i j hxy]
  | trans h1 h2 ih1 ih2 =>
    intro hnd σ h
    rw [ih1 hnd σ h]
    exact ih2 (((h1.map (fun v => v.id)).nodup_iff).mp hnd) σ h

/-- Two sums over the same variables agree whenever the integrands agree
on every configuration, with each base state overridden by the enumerated
indices. -/
theorem sumOver_congr_base {vs : List (BVar Val)} :
    (vs.map fun v => v.id).Nodup →
    ∀ (σ σ' : AState) (h h' : AState → ℚ),
    (∀ τ : AState, validOn vs τ →
      h (ovr σ τ (vs.map fun v => v.id)) = h' (ovr σ' τ (vs.map fun v => v.id))) →
    sumOver vs σ h = sumOver vs σ' h' := by
  induction vs with
  | nil =>
    intro _ σ σ' h h' hh
    have := hh σ (fun v hv => absurd hv (List.not_mem_nil v))
    simp only [List.map_nil, ovr_nil] at this
    exact this
  | cons v rest ih =>
    intro hnd σ σ' h h' hh
    have hvid : v.id ∉ rest.map fun w => w.id := by
      simp only [List.map_cons, List.nodup_cons] at hnd
      exact hnd.1
    have hndr : (rest.map fun w => w.id).Nodup := by
      simp only [List.map_cons, List.nodup_cons] at hnd
      exact hnd.2
    simp only [sumOver]
    refine Finset.sum_congr rfl (fun i hi => ?_)
    apply ih hndr
    intro τ hτ
    have hkey : ∀ ρ : AState, ovr (updState ρ v.id i) τ (rest.map fun w => w.id) =
        ovr ρ (updState τ v.id i) ((v :: rest).map fun w => w.id) := by
      intro ρ
      funext j
      simp only [ovr, List.map_cons, List.mem_cons]
      by_cases hj : j ∈ rest.map fun w => w.id
      · have hjv : j ≠ v.id := fun hh2 => hvid (hh2 ▸ hj)
        rw [if_pos hj, if_pos (Or.inr hj), updState_ne _ _ hjv]
      · by_cases hjv : j = v.id
        · subst hjv
          rw [if_neg hj, if_pos (Or.inl rfl), updState_self, updState_self]
        · have hc : ¬ (j = v.id ∨ j ∈ rest.map fun w => w.id) :=
            fun hh2 => hh2.elim hjv hj
          rw [if_neg hj, if_neg hc, updState_ne _ _ hjv]
    rw [hkey σ, hkey σ']
    apply hh
    intro w hw
    rcases List.mem_cons.mp hw with rfl | hw
    · rw [updState_self]
      exact List.mem_range.mp hi
    · have hwv : w.id ≠ v.id := fun hh2 => hvid (hh2 ▸ List.mem_map_of_mem _ hw)
      rw [updState_ne _ _ hwv]
      exact hτ w hw

/-- Evidence-consistency test of the brute-force specification: a joint
assignment is kept only when every evidence variable's slot holds its
evidence index. -/
def evConsistent (evs : List (EVar Val)) (ρ : AState) : Bool :=
  evs.all fun e => ρ e.var.id == e.evidence_index

theorem evConsistent_cons (e : EVar Val) (evs : List (EVar Val)) (ρ : AState) :
    evConsistent (e :: evs) ρ =
      ((ρ e.var.id == e.evidence_index) && evConsistent evs ρ) := by
  simp [evConsistent]

theorem evConsistent_congr (evs : List (EVar Val)) (ρ ρ' : AState)
    (h : ∀ e ∈ evs, ρ e.var.id = ρ' e.var.id) :
    evConsistent evs ρ = evConsistent evs ρ' := by
  unfold evConsistent
  induction evs with
  | nil => rfl
  | cons e rest ih =>
    simp only [List.all_cons]
    rw [h e (by simp), ih (fun e' he' => h e' (by simp [he']))]

/-- Summing an evidence-filtered quantity over the evidence variables
collapses to the single evidence-consistent configuration. -/
theorem sumOver_ev_collapse {vars : List (BVar Val)} (hWF : VarsWF vars) :
    ∀ (evs : List (EVar Val)), (∀ e ∈ evs, e.var ∈ vars) →
    ((evs.map fun e => e.var).Nodup) →
    (∀ e ∈ evs, e.evidence_index < domain_size e.var) →
    ∀ (σ : AState) (T : AState → ℚ),
    sumOver (evs.map fun e => e.var) σ
        (fun ρ => if evConsistent evs ρ = true then T ρ else 0) =
      T (evUpd evs σ) := by
  intro evs
  induction evs with
  | nil =>
    intro _ _ _ σ T
    simp [sumOver, evConsistent, evUpd]
  | cons e rest ih =>
    intro hsub hnd hidx σ T
    have hrsub : ∀ w ∈ rest.map fun e' => e'.var, w ∈ vars := by
      intro w hw
      obtain ⟨e', he', rfl⟩ := List.mem_map.mp hw
      exact hsub e' (by simp [he'])
    have hrnd : (rest.map fun e' => e'.var).Nodup := by
      simp only [List.map_cons, List.nodup_cons] at hnd
      exact hnd.2
    have hemem : e.var ∉ rest.map fun e' => e'.var := by
      simp only [List.map_cons, List.nodup_cons] at hnd
      exact hnd.1
    have hids_nd : ((rest.map fun e' => e'.var).map fun v => v.id).Nodup :=
      ids_nodup hWF hrsub hrnd
    have he_not : e.var.id ∉ (rest.map fun e' => e'.var).map fun v => v.id :=
      id_not_mem_map hWF hrsub (hsub e (by simp)) hemem
    simp only [List.map_cons, sumOver]
    have hstep : ∀ i ∈ Finset.range (domain_size e.var),
        sumOver (rest.map fun e' => e'.var) (updState σ e.var.id i)
          (fun ρ => if evConsistent (e :: rest) ρ = true then T ρ else 0) =
        (if i = e.evidence_index then
          sumOver (rest.map fun e' => e'.var) (updState σ e.var.id i)
            (fun ρ => if evConsistent rest ρ = true then T ρ else 0) else 0) := by
      intro i hi
      by_cases hie : i = e.evidence_index
      · rw [if_pos hie]
        apply sumOver_congr_on hids_nd
        intro ρ hρ hv
        have hρe : ρ e.var.id = i := by
          rw [hρ e.var.id he_not, updState_self]
        show (if evConsistent (e :: rest) ρ = true then T ρ else 0) = _
        rw [evConsistent_cons, hρe, hie]
        simp
      · rw [if_neg hie]
        have hz : sumOver (rest.map fun e' => e'.var) (updState σ e.var.id i)
            (fun ρ => if evConsistent (e :: rest) ρ = true then T ρ else 0) =
            sumOver (rest.map fun e' => e'.var) (updState σ e.var.id i)
              (fun _ => 0) := by
          apply sumOver_congr_on hids_nd
          intro ρ hρ hv
          have hρe : ρ e.var.id = i := by
            rw [hρ e.var.id he_not, updState_self]
          show (if evConsistent (e :: rest) ρ = true then T ρ else 0) = 0
          rw [evConsistent_cons, hρe, beq_false_of_ne hie]
          simp
        rw [hz, sumOver_zero]
    rw [Finset.sum_congr rfl hstep,
      Finset.sum_ite_eq' (Finset.range (domain_size e.var)) e.evidence_index]
    rw [if_pos (Finset.mem_range.mpr (hidx e (by simp)))]
    rw [ih (fun e' he' => hsub e' (by simp [he'])) hrnd
      (fun e' he' => hidx e' (by simp [he']))
      (updState σ e.var.id e.evidence_index) T]
    have hne : ∀ e' ∈ rest, e.var.id ≠ e'.var.id := by
      intro e' he' hid
      have heq : e.var = e'.var :=
        VarsWF_id_eq hWF (hsub e (by simp)) (hsub e' (by simp [he'])) hid
      exact hemem (heq ▸ List.mem_map_of_mem _ he')
    rw [evUpd_updState_comm hne, evUpd_cons]

theorem mem_scope_foldl (QueryVar : BVar Val) (s : List (BVar Val)) :
    ∀ (acc : List (BVar Val)) (v : BVar Val),
    (v ∈ s.foldl
        (fun Vars w => if w ∉ Vars ∧ w ≠ QueryVar then Vars ++ [w] else Vars) acc ↔
      v ∈ acc ∨ (v ∈ s ∧ v ≠ QueryVar)) := by
  induction s with
  | nil => intro acc v; simp
  | cons w s' ih =>
    intro acc v
    simp only [List.foldl]
    by_cases hc : w ∉ acc ∧ w ≠ QueryVar
    · rw [if_pos hc, ih]
      constructor
      · rintro (hv | ⟨hv, hvq⟩)
        · rcases List.mem_append.mp hv with hv | hv
          · exact Or.inl hv
          · rw [List.mem_singleton.mp hv]
            exact Or.inr ⟨by simp, hc.2⟩
        · exact Or.inr ⟨by simp [hv], hvq⟩
      · rintro (hv | ⟨hv, hvq⟩)
        · exact Or.inl (List.mem_append.mpr (Or.inl hv))
        · rcases List.mem_cons.mp hv with rfl | hv
          · exact Or.inl (List.mem_append.mpr (Or.inr (by simp)))
          · exact Or.inr ⟨hv, hvq⟩
    · rw [if_neg hc, ih]
      push_neg at hc
      constructor
      · rintro (hv | ⟨hv, hvq⟩)
        · exact Or.inl hv
        · exact Or.inr ⟨by simp [hv], hvq⟩
      · rintro (hv | ⟨hv, hvq⟩)
        · exact Or.inl hv
        · rcases List.mem_cons.mp hv with rfl | hv
          · left
            by_contra hmem
            exact hvq (hc hmem)
          · exact Or.inr ⟨hv, hvq⟩

theorem nodup_scope_foldl (QueryVar : BVar Val) (s : List (BVar Val)) :
    ∀ acc : List (BVar Val), acc.Nodup →
    (s.foldl
      (fun Vars w => if w ∉ Vars ∧ w ≠ QueryVar then Vars ++ [w] else Vars)
      acc).Nodup := by
  induction s with
  | nil => intro acc h; exact h
  | cons w s' ih =>
    intro acc h
    simp only [List.foldl]
    by_cases hc : w ∉ acc ∧ w ≠ QueryVar
    · rw [if_pos hc]
      apply ih
      rw [List.nodup_append]
      exact ⟨h, List.nodup_singleton _,
        fun a ha hb => hc.1 ((List.mem_singleton.mp hb) ▸ ha)⟩
    · rw [if_neg hc]
      exact ih acc h

theorem mem_collect_foldl (QueryVar : BVar Val) (scopes : List (List (BVar Val))) :
    ∀ (acc : List (BVar Val)) (v : BVar Val),
    (v ∈ scopes.foldl
        (fun Vars s => s.foldl
          (fun Vars w => if w ∉ Vars ∧ w ≠ QueryVar then Vars ++ [w] else Vars)
          Vars) acc ↔
      v ∈ acc ∨ ((∃ s ∈ scopes, v ∈ s) ∧ v ≠ QueryVar)) := by
  induction scopes with
  | nil => intro acc v; simp
  | cons s ss ih =>
    intro acc v
    simp only [List.foldl]
    rw [ih, mem_scope_foldl]
    constructor
    · rintro ((hv | ⟨hv, hq⟩) | ⟨⟨s', hs', hv⟩, hq⟩)
      · exact Or.inl hv
      · exact Or.inr ⟨⟨s, by simp, hv⟩, hq⟩
      · exact Or.inr ⟨⟨s', by simp [hs'], hv⟩, hq⟩
    · rintro (hv | ⟨⟨s', hs', hv⟩, hq⟩)
      · exact Or.inl (Or.inl hv)
      · rcases List.mem_cons.mp hs' with rfl | hs'
        · exact Or.inl (Or.inr ⟨hv, hq⟩)
        · exact Or.inr ⟨⟨s', hs', hv⟩, hq⟩

/-- Membership in the `Vars` collection loop of `min_fill_ordering`: every
scope variable other than the query variable, exactly once. -/
theorem collectVars_mem (scopes : List (List (BVar Val))) (QueryVar : BVar Val)
    (v : BVar Val) :
    v ∈ collectVars scopes QueryVar ↔
      (∃ s ∈ scopes, v ∈ s) ∧ v ≠ QueryVar := by
  unfold collectVars
  rw [mem_collect_foldl]
  simp

theorem collectVars_nodup (scopes : List (List (BVar Val))) (QueryVar : BVar Val) :
    (collectVars scopes QueryVar).Nodup := by
  unfold collectVars
  have hgen : ∀ (ss : List (List (BVar Val))) (acc : List (BVar Val)), acc.Nodup →
      (ss.foldl
        (fun Vars s => s.foldl
          (fun Vars w => if w ∉ Vars ∧ w ≠ QueryVar then Vars ++ [w] else Vars)
          Vars) acc).Nodup := by
    intro ss
    induction ss with
    | nil => intro acc h; exact h
    | cons s ss' ih =>
      intro acc h
      simp only [List.foldl]
      exact ih _ (nodup_scope_foldl QueryVar s acc h)
  exact hgen scopes [] List.nodup_nil

/-- The fuelled `while Vars` loop returns a permutation of `Vars`: each
iteration removes exactly the chosen variable. -/
theorem min_fill_aux_fuel_perm :
    ∀ (n : Nat) (scopes : List (List (BVar Val))) (Vars : List (BVar Val)),
    Vars.length ≤ n → (min_fill_aux_fuel n scopes Vars).Perm Vars := by
  intro n
  induction n with
  | zero =>
    intro scopes Vars hn
    have hnil : Vars = [] := List.eq_nil_of_length_eq_zero (Nat.le_zero.mp hn)
    subst hnil
    simp [min_fill_aux_fuel]
  | succ n ih =>
    intro scopes Vars hn
    cases Vars with
    | nil => simp [min_fill_aux_fuel]
    | cons v vs =>
      simp only [min_fill_aux_fuel]
      have hmem : (min_fill_var scopes (v :: vs)).1 ∈ v :: vs :=
        min_fill_var_mem scopes (v :: vs) (by simp)
      have hlen := List.length_erase_of_mem hmem
      have htl : ((v :: vs).erase (min_fill_var scopes (v :: vs)).1).length ≤ n := by
        rw [hlen]
        simp only [List.length_cons] at hn ⊢
        omega
      have hrec := ih (remove_var (min_fill_var scopes (v :: vs)).1
        (min_fill_var scopes (v :: vs)).2.2 scopes) _ htl
      exact (hrec.cons _).trans (List.perm_cons_erase hmem).symm

/-- The min-fill ordering is a permutation of the collected scope
variables (all scope variables except the query variable). -/
theorem min_fill_ordering_perm (Factors : List (BFactor Val)) (QueryVar : BVar Val) :
    (min_fill_ordering Factors QueryVar).Perm
      (collectVars (Factors.map get_scope) QueryVar) := by
  show (min_fill_aux (Factors.map get_scope)
    (collectVars (Factors.map get_scope) QueryVar)).Perm _
  unfold min_fill_aux
  exact min_fill_aux_fuel_perm _ _ _ (Nat.le_refl _)

/-- Membership on the left of a `Forall₂` has a related member on the right. -/
theorem forall₂_mem_left {α β : Type} {R : α → β → Prop} :
    ∀ {l₁ : List α} {l₂ : List β}, List.Forall₂ R l₁ l₂ →
    ∀ a ∈ l₁, ∃ b ∈ l₂, R a b := by
  intro l₁ l₂ h
  induction h with
  | nil => simp
  | @cons a b l₁ l₂ hr _ ih =>
    intro a' ha'
    rcases List.mem_cons.mp ha' with rfl | ha'
    · exact ⟨b, by simp, hr⟩
    · obtain ⟨b', hb', hab⟩ := ih a' ha'
      exact ⟨b', by simp [hb'], hab⟩

/-- Weakening a `Forall₂`, with access to right-hand membership. -/
theorem forall₂_imp_mem {α β : Type} {R S : α → β → Prop} :
    ∀ {l₁ : List α} {l₂ : List β}, List.Forall₂ R l₁ l₂ →
    (∀ b ∈ l₂, ∀ a, R a b → S a b) → List.Forall₂ S l₁ l₂ := by
  intro l₁ l₂ h
  induction h with
  | nil => intro _; exact List.Forall₂.nil
  | cons hr hrest ih =>
    intro hc
    exact List.Forall₂.cons (hc _ (by simp) _ hr)
      (ih (fun b hb a hr' => hc b (by simp [hb]) a hr'))

/-- Positionally equal factor evaluations give equal products. -/
theorem prodFactors_forall₂ {ρ ρ' : AState} :
    ∀ {fs fs' : List (BFactor Val)},
    List.Forall₂ (fun f f' => get_value_at_current_assignments f' ρ' =
      get_value_at_current_assignments f ρ) fs fs' →
    prodFactors fs' ρ' = prodFactors fs ρ := by
  intro fs fs' h
  rw [prodFactors_eq_prod, prodFactors_eq_prod]
  induction h with
  | nil => rfl
  | cons hr hrest ih =>
    simp only [List.map_cons, List.prod_cons]
    rw [hr, ih]

/-- The per-query-value loop of `VE` reads the product of the final factor
list with the query variable's slot driven through its domain. -/
theorem distPure_eval {vars : List (BVar Val)} (hWF : VarsWF vars)
    {QueryVar : BVar Val} (hQ : QueryVar ∈ vars) {fs : List (BFactor Val)}
    (hfs : ∀ f ∈ fs, ∀ w ∈ f.scope, w ∈ vars)
    (hm : ∃ f ∈ fs, QueryVar ∈ f.scope) :
    ∀ (vals : List Val) (σ : AState),
    distPure fs QueryVar σ vals =
      vals.map (fun val =>
        prodFactors fs (updState σ QueryVar.id (value_index QueryVar val))) := by
  intro vals
  induction vals with
  | nil => intro σ; rfl
  | cons val more ih =>
    intro σ
    simp only [distPure, List.map_cons]
    have hσ1 : (assign QueryVar val fs σ).2 =
        updState σ QueryVar.id (value_index QueryVar val) :=
      assign_state_mentioned hWF hQ val fs hfs σ hm
    rw [hσ1, ih]
    congr 1
    apply List.map_congr_left
    intro v hv
    rw [updState_shadow]

/-- A nonempty elimination ordering leaves a factor that mentions the
query variable (the final replacement factor has scope `[QueryVar]`). -/
theorem eliminateZ_mentions_Q (QueryVar : BVar Val) :
    ∀ (R : List (BVar Val)) (fs : List (BFactor Val)) (σ : AState), R ≠ [] →
    ∃ f ∈ (eliminateZ fs R QueryVar σ).1, QueryVar ∈ f.scope := by
  intro R
  induction R with
  | nil => intro fs σ h; exact absurd rfl h
  | cons z rest ih =>
    intro fs σ _
    simp only [eliminateZ]
    cases rest with
    | nil =>
      simp only [eliminateZ, eliminateStep]
      refine ⟨_, List.mem_append.mpr (Or.inr (List.mem_singleton.mpr rfl)), ?_⟩
      rw [(eliminateLoop_fields fs z _ _ [] σ z.dom).1]
      simp [mkFactor]
    | cons z' rest' =>
      exact ih _ _ (by simp)

/-- Elimination keeps every factor scope inside the well-formed variable
collection. -/
theorem eliminateZ_scope_sub {vars : List (BVar Val)} (QueryVar : BVar Val)
    (hQ : QueryVar ∈ vars) :
    ∀ (R : List (BVar Val)), (∀ w ∈ R, w ∈ vars) →
    ∀ (fs : List (BFactor Val)) (σ : AState),
    (∀ f ∈ fs, ∀ w ∈ f.scope, w ∈ vars) →
    ∀ f ∈ (eliminateZ fs R QueryVar σ).1, ∀ w ∈ f.scope, w ∈ vars := by
  intro R
  induction R with
  | nil => intro _ fs σ hfs; exact hfs
  | cons z rest ih =>
    intro hR fs σ hfs
    simp only [eliminateZ]
    apply ih (fun w hw => hR w (by simp [hw]))
    intro f hf
    simp only [eliminateStep] at hf
    rcases List.mem_append.mp hf with hf | hf
    · exact hfs f (mem_foldl_erase hf)
    · rw [List.mem_singleton.mp hf,
        (eliminateLoop_fields fs z _ _ [] σ z.dom).1]
      intro w hw
      simp only [mkFactor] at hw
      rcases List.mem_append.mp hw with hw | hw
      · exact hR w (by simp [hw])
      · rw [List.mem_singleton.mp hw]
        exact hQ

/-- Brute-force marginalization as the specification describes it: sum the
joint product over every joint assignment of the network's variables, zero
out the assignments inconsistent with the evidence, for a fixed query
index. -/
def bruteRaw (Net : BNet Val) (QueryVar : BVar Val) (evs : List (EVar Val))
    (k : Nat) : ℚ :=
  sumOver Net.Variables (fun _ => 0)
    (fun ρ => if evConsistent evs ρ = true ∧ ρ QueryVar.id = k then
      prodFactors (factors Net) ρ else 0)

/-- The normalized brute-force distribution over the query variable's
domain positions. -/
def bruteDist (Net : BNet Val) (QueryVar : BVar Val) (evs : List (EVar Val)) :
    List ℚ :=
  let raw := (List.range (domain_size QueryVar)).map (bruteRaw Net QueryVar evs)
  raw.map fun x => x / raw.sum


/-- **C1 (amended).**  For every well-formed Bayes net of at most 5 binary
variables whose factors cover all variables, every query variable, and
every evidence list (evidence set beforehand, valid indices, distinct
evidence variables, and the query variable NOT among the evidence
variables) whose brute-force evidence probability is nonzero,
`VE(net, query, evidence, min_fill_ordering)` returns exactly the
brute-force marginalization: enumerate every joint assignment, zero those
inconsistent with the evidence, sum the joint product per query value, and
normalize. -/
theorem claim_C1_amended (Net : BNet Val) (QueryVar : BVar Val)
    (evs : List (EVar Val)) (σ : AState)
    (hWF : VarsWF Net.Variables)
    (hQ : QueryVar ∈ Net.Variables)
    (hbin : ∀ v ∈ Net.Variables, domain_size v = 2)
    (hfive : Net.Variables.length ≤ 5)
    (hfac : ∀ f ∈ factors Net, (∀ w ∈ f.scope, w ∈ Net.Variables) ∧
      f.scope.Nodup ∧ f.values.length = prodSize f.scope)
    (hcover : ∀ v ∈ Net.Variables, ∃ f ∈ factors Net, v ∈ f.scope)
    (hevsub : ∀ e ∈ evs, e.var ∈ Net.Variables)
    (hevidx : ∀ e ∈ evs, e.evidence_index < domain_size e.var)
    (hevnd : (evs.map fun e => e.var).Nodup)
    (hQev : ∀ e ∈ evs, e.var ≠ QueryVar)
    (hsum : ((List.range (domain_size QueryVar)).map
      (bruteRaw Net QueryVar evs)).sum ≠ 0) :
    VE Net QueryVar evs min_fill_ordering σ =
      Except.ok (bruteDist Net QueryVar evs) := by
  obtain ⟨fs', σ1, hre⟩ : ∃ a b, restrict (factors Net) evs σ = (a, b) := ⟨_, _, rfl⟩
  have hre1 : (restrict (factors Net) evs σ).1 = fs' := by rw [hre]
  have hre2 : (restrict (factors Net) evs σ).2 = σ1 := by rw [hre]
  have hr : List.Forall₂ (RestRel evs) (factors Net) fs' := by
    have h0 := restrict_rel hWF evs hevsub hevidx (factors Net) σ hfac
    rw [hre1] at h0
    exact h0
  obtain ⟨Z, hZdef⟩ : ∃ z, min_fill_ordering fs' QueryVar = z := ⟨_, rfl⟩
  have hZperm : Z.Perm (collectVars (fs'.map get_scope) QueryVar) := by
    rw [← hZdef]
    exact min_fill_ordering_perm fs' QueryVar
  have hcv : ∀ w : BVar Val, w ∈ collectVars (fs'.map get_scope) QueryVar ↔
      (∃ f' ∈ fs', w ∈ f'.scope) ∧ w ≠ QueryVar := by
    intro w
    rw [collectVars_mem]
    constructor
    · rintro ⟨⟨s, hs, hws⟩, hq⟩
      obtain ⟨f', hf', rfl⟩ := List.mem_map.mp hs
      exact ⟨⟨f', hf', hws⟩, hq⟩
    · rintro ⟨⟨f', hf', hw⟩, hq⟩
      exact ⟨⟨f'.scope, List.mem_map_of_mem _ hf', hw⟩, hq⟩
  have hZsub : ∀ w ∈ Z, w ∈ Net.Variables := by
    intro w hw
    obtain ⟨⟨f', hf', hwf'⟩, hq⟩ := (hcv w).mp ((hZperm.mem_iff).mp hw)
    obtain ⟨f, hf, hrel⟩ := forall₂_mem_right hr f' hf'
    have hws : w ∈ f.scope :=
      (foldl_erase_sublist evs f.scope).subset (hrel.1 ▸ hwf')
    exact (hfac f hf).1 w hws
  have hZnd : Z.Nodup := (hZperm.nodup_iff).mpr (collectVars_nodup _ _)
  have hQZ : QueryVar ∉ Z := fun hmem =>
    ((hcv QueryVar).mp ((hZperm.mem_iff).mp hmem)).2 rfl
  have hZev : ∀ z ∈ Z, ∀ e ∈ evs, z ≠ e.var := by
    intro z hz e he
    obtain ⟨⟨f', hf', hzf'⟩, hzq⟩ := (hcv z).mp ((hZperm.mem_iff).mp hz)
    obtain ⟨f, hf, hrel⟩ := forall₂_mem_right hr f' hf'
    exact ((mem_foldl_erase_iff hWF evs f.scope (hfac f hf).2.1 z).mp
      (hrel.1 ▸ hzf')).2 e he
  have hscZ : ∀ f' ∈ fs', ∀ w ∈ f'.scope, w ∈ Z ∨ w = QueryVar := by
    intro f' hf' w hw
    by_cases hwq : w = QueryVar
    · exact Or.inr hwq
    · exact Or.inl ((hZperm.mem_iff).mpr ((hcv w).mpr ⟨⟨f', hf', hw⟩, hwq⟩))
  have hZids : (Z.map fun v => v.id).Nodup := ids_nodup hWF hZsub hZnd
  have hQZid : QueryVar.id ∉ Z.map fun v => v.id :=
    id_not_mem_map hWF hZsub hQ hQZ
  have hQid_ev : ∀ e ∈ evs, e.var.id ≠ QueryVar.id := by
    intro e he hid
    exact hQev e he (VarsWF_id_eq hWF (hevsub e he) hQ hid)
  have hQid_ev' : ∀ e ∈ evs, QueryVar.id ≠ e.var.id :=
    fun e he => (hQid_ev e he).symm
  have hfl : ∀ f' ∈ fs', (∀ w ∈ f'.scope, w ∈ Net.Variables) ∧
      (∀ w ∈ f'.scope, w ∈ Z ∨ w = QueryVar) ∧
      f'.values.length = prodSize f'.scope := by
    intro f' hf'
    obtain ⟨f, hf, hrel⟩ := forall₂_mem_right hr f' hf'
    have hsub' : ∀ w ∈ f'.scope, w ∈ Net.Variables := by
      intro w hw
      exact (hfac f hf).1 w ((foldl_erase_sublist evs f.scope).subset (hrel.1 ▸ hw))
    exact ⟨hsub', hscZ f' hf', hrel.2.1⟩
  have hZcov : ∀ z ∈ Z, ∃ f' ∈ fs', z ∈ f'.scope := fun z hz =>
    ((hcv z).mp ((hZperm.mem_iff).mp hz)).1
  obtain ⟨fs2, σ2, hel⟩ : ∃ a b, eliminateZ fs' Z QueryVar σ1 = (a, b) := ⟨_, _, rfl⟩
  have hel1 : (eliminateZ fs' Z QueryVar σ1).1 = fs2 := by rw [hel]
  have hel2 : (eliminateZ fs' Z QueryVar σ1).2 = σ2 := by rw [hel]
  have hfs2sub : ∀ f ∈ fs2, ∀ w ∈ f.scope, w ∈ Net.Variables := by
    have h0 := eliminateZ_scope_sub QueryVar hQ Z hZsub fs' σ1
      (fun f' hf' => (hfl f' hf').1)
    rw [hel1] at h0
    exact h0
  have hQm : ∃ f ∈ fs2, QueryVar ∈ f.scope := by
    by_cases hZe : Z = []
    · obtain ⟨f, hf, hQf⟩ := hcover QueryVar hQ
      obtain ⟨f', hf', hrel⟩ := forall₂_mem_left hr f hf
      refine ⟨f', ?_, ?_⟩
      · rw [← hel1, hZe]
        exact hf'
      · rw [hrel.1, mem_foldl_erase_iff hWF evs f.scope (hfac f hf).2.1 QueryVar]
        exact ⟨hQf, fun e he => (hQev e he).symm⟩
    · have h0 := eliminateZ_mentions_Q QueryVar Z fs' σ1 hZe
      rw [hel1] at h0
      exact h0
  have hvarsnd : Net.Variables.Nodup :=
    hWF.1.imp (fun hab => fun heq => hab.1 (by rw [heq]))
  have hRHSnd : ((evs.map fun e => e.var) ++ QueryVar :: Z).Nodup := by
    rw [List.nodup_append]
    refine ⟨hevnd, List.nodup_cons.mpr ⟨hQZ, hZnd⟩, ?_⟩
    intro a ha hb
    obtain ⟨e, he, rfl⟩ := List.mem_map.mp ha
    rcases List.mem_cons.mp hb with heq | hbz
    · exact hQev e he heq
    · exact (hZev _ hbz e he) rfl
  have hperm : Net.Variables.Perm ((evs.map fun e => e.var) ++ QueryVar :: Z) := by
    apply (List.perm_ext_iff_of_nodup hvarsnd hRHSnd).mpr
    intro w
    constructor
    · intro hw
      by_cases hwq : w = QueryVar
      · subst hwq
        simp
      · by_cases hwe : ∃ e ∈ evs, w = e.var
        · obtain ⟨e, he, rfl⟩ := hwe
          exact List.mem_append.mpr (Or.inl (List.mem_map_of_mem _ he))
        · obtain ⟨f, hf, hwf⟩ := hcover w hw
          obtain ⟨f', hf', hrel⟩ := forall₂_mem_left hr f hf
          have hwf' : w ∈ f'.scope := by
            rw [hrel.1,
              mem_foldl_erase_iff hWF evs f.scope (hfac f hf).2.1 w]
            exact ⟨hwf, fun e he hc => hwe ⟨e, he, hc⟩⟩
          have hwZ : w ∈ Z :=
            (hZperm.mem_iff).mpr ((hcv w).mpr ⟨⟨f', hf', hwf'⟩, hwq⟩)
          exact List.mem_append.mpr (Or.inr (by simp [hwZ]))
    · intro hw
      rcases List.mem_append.mp hw with hw | hw
      · obtain ⟨e, he, rfl⟩ := List.mem_map.mp hw
        exact hevsub e he
      · rcases List.mem_cons.mp hw with rfl | hw
        · exact hQ
        · exact hZsub w hw
  have hids_vars_nd : (Net.Variables.map fun v => v.id).Nodup :=
    ids_nodup hWF (fun w hw => hw) hvarsnd
  have hQdom_nd : QueryVar.dom.Nodup := (hWF.2 QueryVar hQ).1
  have hkey : ∀ kk : Nat, kk < domain_size QueryVar →
      prodFactors fs2 (updState σ2 QueryVar.id kk) =
        bruteRaw Net QueryVar evs kk := by
    intro kk hkk
    have hve : prodFactors fs2 (updState σ2 QueryVar.id kk) =
        sumOver Z (updState σ2 QueryVar.id kk) (fun ρ => prodFactors fs' ρ) := by
      have h0 := eliminateZ_sum hWF hQ Z hZsub hZnd hQZ fs' σ1 hfl hZcov
        (updState σ2 QueryVar.id kk) (by rw [updState_self]; exact hkk)
      rw [hel1] at h0
      exact h0
    have hbridge : sumOver Z (updState σ2 QueryVar.id kk) (fun ρ => prodFactors fs' ρ) =
        sumOver Z (updState (evUpd evs fun _ => 0) QueryVar.id kk)
          (prodFactors (factors Net)) := by
      apply sumOver_congr_base hZids
      intro τ hτ
      show prodFactors fs' (ovr (updState σ2 QueryVar.id kk) τ (Z.map fun v => v.id)) =
        prodFactors (factors Net)
          (ovr (updState (evUpd evs fun _ => 0) QueryVar.id kk) τ (Z.map fun v => v.id))
      have hF2 : List.Forall₂ (fun f f' =>
          get_value_at_current_assignments f'
            (ovr (updState σ2 QueryVar.id kk) τ (Z.map fun v => v.id)) =
          get_value_at_current_assignments f
            (evUpd evs (ovr (updState σ2 QueryVar.id kk) τ (Z.map fun v => v.id))))
          (factors Net) fs' := by
        apply forall₂_imp_mem hr
        intro f' hf' f hrel
        apply hrel.2.2
        intro w hw
        rcases hscZ f' hf' w hw with hwZ | rfl
        · rw [ovr_mem _ _ (List.mem_map_of_mem _ hwZ)]
          exact hτ w hwZ
        · rw [ovr_not_mem _ _ hQZid, updState_self]
          exact hkk
      rw [prodFactors_forall₂ hF2]
      apply prodFactors_congr
      intro f hf w hw
      have hwv : w ∈ Net.Variables := (hfac f hf).1 w hw
      rcases List.mem_append.mp ((hperm.mem_iff).mp hwv) with hwe | hwqz
      · obtain ⟨e, he, rfl⟩ := List.mem_map.mp hwe
        have hidZ : e.var.id ∉ Z.map fun v => v.id :=
          id_not_mem_map hWF hZsub (hevsub e he) (fun hm => (hZev _ hm e he) rfl)
        rw [evUpd_id_of_mem hWF hevsub hevnd he, ovr_not_mem _ _ hidZ,
          updState_ne _ _ (hQid_ev e he), evUpd_id_of_mem hWF hevsub hevnd he]
      · rcases List.mem_cons.mp hwqz with rfl | hwZ
        · rw [evUpd_not_mem hQid_ev', ovr_not_mem _ _ hQZid, updState_self,
            ovr_not_mem _ _ hQZid, updState_self]
        · have hwne : ∀ e ∈ evs, w.id ≠ e.var.id := by
            intro e he hid
            exact (hZev w hwZ e he) (VarsWF_id_eq hWF hwv (hevsub e he) hid)
          rw [evUpd_not_mem hwne, ovr_mem _ _ (List.mem_map_of_mem _ hwZ),
            ovr_mem _ _ (List.mem_map_of_mem _ hwZ)]
    have hbr : bruteRaw Net QueryVar evs kk =
        sumOver Z (updState (evUpd evs fun _ => 0) QueryVar.id kk)
          (prodFactors (factors Net)) := by
      unfold bruteRaw
      rw [sumOver_perm hperm hids_vars_nd, sumOver_append]
      have houter : ∀ ρ₁ : AState,
          sumOver (QueryVar :: Z) ρ₁
            (fun ρ => if evConsistent evs ρ = true ∧ ρ QueryVar.id = kk then
              prodFactors (factors Net) ρ else 0) =
          (if evConsistent evs ρ₁ = true then
            sumOver Z (updState ρ₁ QueryVar.id kk) (prodFactors (factors Net))
          else 0) := by
        intro ρ₁
        have hφ : ∀ i : Nat,
            sumOver Z (updState ρ₁ QueryVar.id i)
              (fun ρ => if evConsistent evs ρ = true ∧ ρ QueryVar.id = kk then
                prodFactors (factors Net) ρ else 0) =
            (if i = kk ∧ evConsistent evs ρ₁ = true then
              sumOver Z (updState ρ₁ QueryVar.id i) (prodFactors (factors Net))
            else 0) := by
          intro i
          have hagree : ∀ ρ : AState,
              (∀ j, j ∉ Z.map (fun v => v.id) → ρ j = updState ρ₁ QueryVar.id i j) →
              ρ QueryVar.id = i ∧ evConsistent evs ρ = evConsistent evs ρ₁ := by
            intro ρ hρ
            constructor
            · rw [hρ QueryVar.id hQZid, updState_self]
            · apply evConsistent_congr
              intro e he
              have hidZ : e.var.id ∉ Z.map fun v => v.id :=
                id_not_mem_map hWF hZsub (hevsub e he) (fun hm => (hZev _ hm e he) rfl)
              rw [hρ e.var.id hidZ, updState_ne _ _ (hQid_ev e he)]
          by_cases hc : i = kk ∧ evConsistent evs ρ₁ = true
          · rw [if_pos hc]
            apply sumOver_congr_on hZids
            intro ρ hρ hρval
            show (if evConsistent evs ρ = true ∧ ρ QueryVar.id = kk then
              prodFactors (factors Net) ρ else 0) = prodFactors (factors Net) ρ
            obtain ⟨hρQ, hρev⟩ := hagree ρ hρ
            rw [if_pos ⟨by rw [hρev]; exact hc.2, by rw [hρQ]; exact hc.1⟩]
          · rw [if_neg hc]
            have hz : sumOver Z (updState ρ₁ QueryVar.id i)
                (fun ρ => if evConsistent evs ρ = true ∧ ρ QueryVar.id = kk then
                  prodFactors (factors Net) ρ else 0) =
                sumOver Z (updState ρ₁ QueryVar.id i) (fun _ => 0) := by
              apply sumOver_congr_on hZids
              intro ρ hρ hρval
              show (if evConsistent evs ρ = true ∧ ρ QueryVar.id = kk then
                prodFactors (factors Net) ρ else 0) = 0
              obtain ⟨hρQ, hρev⟩ := hagree ρ hρ
              rw [if_neg]
              intro hcc
              refine hc ⟨?_, ?_⟩
              · rw [← hρQ]
                exact hcc.2
              · rw [← hρev]
                exact hcc.1
            rw [hz, sumOver_zero]
        show (∑ i ∈ Finset.range (domain_size QueryVar),
            sumOver Z (updState ρ₁ QueryVar.id i)
              (fun ρ => if evConsistent evs ρ = true ∧ ρ QueryVar.id = kk then
                prodFactors (factors Net) ρ else 0)) = _
        rw [Finset.sum_congr rfl (fun i _ => hφ i)]
        by_cases hec : evConsistent evs ρ₁ = true
        · rw [if_pos hec]
          have hsimp : ∀ i ∈ Finset.range (domain_size QueryVar),
              (if i = kk ∧ evConsistent evs ρ₁ = true then
                sumOver Z (updState ρ₁ QueryVar.id i) (prodFactors (factors Net))
              else 0) =
              (if i = kk then
                sumOver Z (updState ρ₁ QueryVar.id i) (prodFactors (factors Net))
              else 0) := by
            intro i _
            by_cases hik : i = kk
            · rw [if_pos ⟨hik, hec⟩, if_pos hik]
            · rw [if_neg (fun hh => hik hh.1), if_neg hik]
          rw [Finset.sum_congr rfl hsimp,
            Finset.sum_ite_eq' (Finset.range (domain_size QueryVar)) kk,
            if_pos (Finset.mem_range.mpr hkk)]
        · rw [if_neg hec]
          have hzero : ∀ i ∈ Finset.range (domain_size QueryVar),
              (if i = kk ∧ evConsistent evs ρ₁ = true then
                sumOver Z (updState ρ₁ QueryVar.id i) (prodFactors (factors Net))
              else 0) = 0 := fun i _ => if_neg (fun hh => hec hh.2)
          rw [Finset.sum_congr rfl hzero, Finset.sum_const_zero]
      rw [funext houter]
      exact sumOver_ev_collapse hWF evs hevsub hevnd hevidx (fun _ => 0)
        (fun ρ₁ => sumOver Z (updState ρ₁ QueryVar.id kk) (prodFactors (factors Net)))
    rw [hve, hbridge, hbr]
  have hrun1 : (VErun Net QueryVar evs min_fill_ordering σ).1 =
      distPure fs2 QueryVar σ2 QueryVar.dom := by
    show (distLoop (eliminateZ (restrict (factors Net) evs σ).1
        (min_fill_ordering (restrict (factors Net) evs σ).1 QueryVar) QueryVar
        (restrict (factors Net) evs σ).2).1 QueryVar
        (eliminateZ (restrict (factors Net) evs σ).1
        (min_fill_ordering (restrict (factors Net) evs σ).1 QueryVar) QueryVar
        (restrict (factors Net) evs σ).2).2 QueryVar.dom [] 0).1 = _
    rw [hre1, hre2, hZdef, hel1, hel2,
      (distLoop_spec fs2 QueryVar QueryVar.dom σ2 [] 0).1]
    simp
  have hdist : (VErun Net QueryVar evs min_fill_ordering σ).1 =
      (List.range (domain_size QueryVar)).map (bruteRaw Net QueryVar evs) := by
    rw [hrun1, distPure_eval hWF hQ hfs2sub hQm QueryVar.dom σ2,
      ← map_value_index_range QueryVar hQdom_nd, List.map_map]
    apply List.map_congr_left
    intro val hval
    show prodFactors fs2 (updState σ2 QueryVar.id (value_index QueryVar val)) =
      bruteRaw Net QueryVar evs (value_index QueryVar val)
    exact hkey (value_index QueryVar val) (value_index_lt hval)
  have hsum1 : (VErun Net QueryVar evs min_fill_ordering σ).2.1 =
      (distPure fs2 QueryVar σ2 QueryVar.dom).sum := by
    show (distLoop (eliminateZ (restrict (factors Net) evs σ).1
        (min_fill_ordering (restrict (factors Net) evs σ).1 QueryVar) QueryVar
        (restrict (factors Net) evs σ).2).1 QueryVar
        (eliminateZ (restrict (factors Net) evs σ).1
        (min_fill_ordering (restrict (factors Net) evs σ).1 QueryVar) QueryVar
        (restrict (factors Net) evs σ).2).2 QueryVar.dom [] 0).2.1 = _
    rw [hre1, hre2, hZdef, hel1, hel2,
      (distLoop_spec fs2 QueryVar QueryVar.dom σ2 [] 0).2]
    simp
  have hsum2 : (VErun Net QueryVar evs min_fill_ordering σ).2.1 =
      ((List.range (domain_size QueryVar)).map (bruteRaw Net QueryVar evs)).sum := by
    have hdp : distPure fs2 QueryVar σ2 QueryVar.dom =
        (List.range (domain_size QueryVar)).map (bruteRaw Net QueryVar evs) := by
      rw [← hrun1]
      exact hdist
    rw [hsum1, hdp]
  unfold VE
  dsimp only
  rw [hdist, hsum2, if_neg (fun hc => hsum hc.1)]
  rfl

/-! ## C7: renaming of variables -/

/-- Rename a variable object's display name, keeping its identity and
domain. -/
def renV (ρ : String → String) (v : BVar Val) : BVar Val := ⟨v.id, ρ v.name, v.dom⟩

/-- Rename every scope variable of a factor. -/
def renF (ρ : String → String) (f : BFactor Val) : BFactor Val :=
  ⟨f.name, f.scope.map (renV ρ), f.values⟩

/-- Rename an evidence variable. -/
def renE (ρ : String → String) (e : EVar Val) : EVar Val :=
  ⟨renV ρ e.var, e.evidence_index⟩

/-- Rename every variable of a network. -/
def renNet (ρ : String → String) (net : BNet Val) : BNet Val :=
  ⟨net.name, net.Variables.map (renV ρ), net.Factors.map (renF ρ)⟩

theorem renV_inj {ρ : String → String} (hinj : Function.Injective ρ) :
    Function.Injective (renV ρ : BVar Val → BVar Val) := by
  intro a b h
  cases a
  cases b
  simp only [renV, BVar.mk.injEq] at h ⊢
  exact ⟨h.1, hinj h.2.1, h.2.2⟩

theorem renF_inj {ρ : String → String} (hinj : Function.Injective ρ) :
    Function.Injective (renF ρ : BFactor Val → BFactor Val) := by
  intro a b h
  cases a
  cases b
  simp only [renF, BFactor.mk.injEq] at h ⊢
  exact ⟨h.1, List.map_injective_iff.mpr (renV_inj hinj) h.2.1, h.2.2⟩

theorem beq_ren {ρ : String → String} (hinj : Function.Injective ρ) (a b : String) :
    (ρ a == ρ b) = (a == b) := by
  by_cases h : a = b
  · simp [h]
  · have hne : ρ a ≠ ρ b := fun hc => h (hinj hc)
    simp [h, hne]

theorem idx_at_assignment_ren (ρ : String → String) (scope : List (BVar Val))
    (σ : AState) :
    idx_at_assignment (scope.map (renV ρ)) σ = idx_at_assignment scope σ := by
  unfold idx_at_assignment
  rw [List.foldl_map]
  rfl

theorem fval_renF (ρ : String → String) (f : BFactor Val) (σ : AState) :
    get_value_at_current_assignments (renF ρ f) σ =
      get_value_at_current_assignments f σ := by
  unfold get_value_at_current_assignments
  have h1 : (renF ρ f).scope = f.scope.map (renV ρ) := rfl
  have h2 : (renF ρ f).values = f.values := rfl
  rw [h1, h2, idx_at_assignment_ren]

theorem prodFactors_ren (ρ : String → String) (F : List (BFactor Val)) (σ : AState) :
    prodFactors (F.map (renF ρ)) σ = prodFactors F σ := by
  unfold prodFactors
  rw [List.foldl_map]
  simp only [fval_renF]

theorem prodSize_ren (ρ : String → String) (scope : List (BVar Val)) :
    prodSize (scope.map (renV ρ)) = prodSize scope := by
  unfold prodSize
  rw [List.foldl_map]
  rfl

theorem mkFactor_ren (ρ : String → String) (name : String) (scope : List (BVar Val)) :
    mkFactor name (scope.map (renV ρ)) = renF ρ (mkFactor name scope) := by
  unfold mkFactor renF
  dsimp only
  rw [prodSize_ren]

theorem set_assignment_renV (ρ : String → String) (v : BVar Val) (x : Val)
    (σ : AState) : set_assignment (renV ρ v) x σ = set_assignment v x σ := rfl

theorem get_evidence_renE (ρ : String → String) (e : EVar Val) :
    get_evidence (renE ρ e) = get_evidence e := rfl

theorem add_value_ren (ρ : String → String) (f : BFactor Val) (x : ℚ) (σ : AState) :
    add_value_at_current_assignment (renF ρ f) x σ =
      renF ρ (add_value_at_current_assignment f x σ) := by
  unfold add_value_at_current_assignment renF
  dsimp only
  rw [idx_at_assignment_ren]

theorem get_var_in_scope_ren {ρ : String → String} (hinj : Function.Injective ρ)
    (f : BFactor Val) (v : BVar Val) :
    get_var_in_scope (renF ρ f) (renV ρ v) =
      (get_var_in_scope f v).map (renV ρ) := by
  unfold get_var_in_scope
  have h1 : (renF ρ f).scope = f.scope.map (renV ρ) := rfl
  rw [h1, List.find?_map]
  have hp : ((fun var : BVar Val => var.name == (renV ρ v).name) ∘ renV ρ) =
      (fun var : BVar Val => var.name == v.name) := by
    funext w
    show ((renV ρ w).name == (renV ρ v).name) = (w.name == v.name)
    exact beq_ren hinj w.name v.name
  rw [hp]

theorem assign_ren {ρ : String → String} (hinj : Function.Injective ρ)
    (var : BVar Val) (val : Val) :
    ∀ (F : List (BFactor Val)) (σ : AState),
    assign (renV ρ var) val (F.map (renF ρ)) σ =
      ((assign var val F σ).1.map (renF ρ), (assign var val F σ).2) := by
  intro F
  induction F with
  | nil => intro σ; rfl
  | cons f rest ih =>
    intro σ
    simp only [List.map_cons, assign, get_var_in_scope_ren hinj]
    cases hfind : get_var_in_scope f var with
    | none =>
      simp only [Option.map_none']
      exact ih σ
    | some w =>
      simp only [Option.map_some']
      rw [set_assignment_renV ρ w val σ, ih (set_assignment w val σ)]
      rfl

theorem compute_ren {ρ : String → String} (hinj : Function.Injective ρ) :
    ∀ (scope : List (BVar Val)) (g : BFactor Val) (F : List (BFactor Val))
    (σ : AState),
    compute (renF ρ g) (scope.map (renV ρ)) (F.map (renF ρ)) σ =
      (renF ρ (compute g scope F σ).1, (compute g scope F σ).2) := by
  intro scope
  induction scope with
  | nil =>
    intro g F σ
    show (add_value_at_current_assignment (renF ρ g)
      (get_value_at_current_assignments (renF ρ g) σ +
        prodFactors (F.map (renF ρ)) σ) σ, σ) = _
    rw [prodFactors_ren, fval_renF, add_value_ren]
    rfl
  | cons var rest ih =>
    intro g F σ
    rw [List.map_cons, compute_cons, compute_cons]
    show computeVals (renF ρ g) (renV ρ var) (rest.map (renV ρ)) (F.map (renF ρ))
      σ var.dom = _
    induction var.dom generalizing g σ with
    | nil => rfl
    | cons val more ih2 =>
      simp only [computeVals]
      have e1 : (assign (renV ρ var) val [renF ρ g] σ).2 =
          (assign var val [g] σ).2 := by
        rw [show [renF ρ g] = [g].map (renF ρ) from rfl, assign_ren hinj]
      rw [e1]
      have e2 : (assign (renV ρ var) val (F.map (renF ρ))
            ((assign var val [g] σ).2)).2 =
          (assign var val F ((assign var val [g] σ).2)).2 := by
        rw [assign_ren hinj]
      rw [e2, ih g F ((assign var val F ((assign var val [g] σ).2)).2)]
      exact ih2
        (compute g rest F ((assign var val F ((assign var val [g] σ).2)).2)).1
        (compute g rest F ((assign var val F ((assign var val [g] σ).2)).2)).2

theorem restrictFactor_ren {ρ : String → String} (hinj : Function.Injective ρ)
    (e : EVar Val) (f : BFactor Val) (σ : AState) :
    restrictFactor (renE ρ e) (renF ρ f) σ =
      (renF ρ (restrictFactor e f σ).1, (restrictFactor e f σ).2) := by
  unfold restrictFactor
  have h1 : get_var_in_scope (renF ρ f) (renE ρ e).var =
      (get_var_in_scope f e.var).map (renV ρ) := get_var_in_scope_ren hinj f e.var
  rw [h1]
  cases hfind : get_var_in_scope f e.var with
  | none => rfl
  | some w =>
    simp only [Option.map_some']
    rw [get_evidence_renE, set_assignment_renV]
    rw [show get_scope (renF ρ f) = f.scope.map (renV ρ) from rfl,
      ← List.map_erase (renV_inj hinj), mkFactor_ren,
      show get_scope f = f.scope from rfl,
      show [renF ρ f] = [f].map (renF ρ) from rfl, compute_ren hinj]

theorem restrictPass_ren {ρ : String → String} (hinj : Function.Injective ρ)
    (e : EVar Val) :
    ∀ (fs : List (BFactor Val)) (σ : AState),
    restrictPass (renE ρ e) (fs.map (renF ρ)) σ =
      ((restrictPass e fs σ).1.map (renF ρ), (restrictPass e fs σ).2) := by
  intro fs
  induction fs with
  | nil => intro σ; rfl
  | cons f rest ih =>
    intro σ
    simp only [List.map_cons, restrictPass]
    rw [restrictFactor_ren hinj]
    dsimp only
    rw [ih]

theorem restrict_ren {ρ : String → String} (hinj : Function.Injective ρ) :
    ∀ (evs : List (EVar Val)) (fs : List (BFactor Val)) (σ : AState),
    restrict (fs.map (renF ρ)) (evs.map (renE ρ)) σ =
      ((restrict fs evs σ).1.map (renF ρ), (restrict fs evs σ).2) := by
  intro evs
  induction evs with
  | nil => intro fs σ; rfl
  | cons e rest ih =>
    intro fs σ
    simp only [List.map_cons, restrict]
    rw [restrictPass_ren hinj]
    dsimp only
    exact ih _ _

theorem union_foldl_ren {ρ : String → String} (hinj : Function.Injective ρ)
    (s : List (BVar Val)) :
    ∀ acc : List (BVar Val),
    (s.map (renV ρ)).foldl (fun u v => if v ∈ u then u else u ++ [v])
        (acc.map (renV ρ)) =
      (s.foldl (fun u v => if v ∈ u then u else u ++ [v]) acc).map (renV ρ) := by
  induction s with
  | nil => intro acc; rfl
  | cons w s' ih =>
    intro acc
    simp only [List.map_cons, List.foldl]
    by_cases hw : w ∈ acc
    · rw [if_pos (List.mem_map_of_mem _ hw), if_pos hw]
      exact ih acc
    · rw [if_neg (fun hc => hw ((List.mem_map_of_injective (renV_inj hinj)).mp hc)),
        if_neg hw,
        show acc.map (renV ρ) ++ [renV ρ w] = (acc ++ [w]).map (renV ρ) from by simp]
      exact ih (acc ++ [w])

theorem compute_fill_ren {ρ : String → String} (hinj : Function.Injective ρ)
    (scopes : List (List (BVar Val))) (var : BVar Val) :
    compute_fill (scopes.map (List.map (renV ρ))) (renV ρ var) =
      ((compute_fill scopes var).1, (compute_fill scopes var).2.map (renV ρ)) := by
  unfold compute_fill
  dsimp only
  have houter : ∀ acc : List (BVar Val),
      (scopes.map (List.map (renV ρ))).foldl
        (fun u s => if renV ρ var ∈ s then
          s.foldl (fun u v => if v ∈ u then u else u ++ [v]) u else u)
        (acc.map (renV ρ)) =
      (scopes.foldl
        (fun u s => if var ∈ s then
          s.foldl (fun u v => if v ∈ u then u else u ++ [v]) u else u)
        acc).map (renV ρ) := by
    induction scopes with
    | nil => intro acc; rfl
    | cons s ss ihs =>
      intro acc
      simp only [List.map_cons, List.foldl]
      by_cases hv : var ∈ s
      · rw [if_pos ((List.mem_map_of_injective (renV_inj hinj)).mpr hv), if_pos hv,
          union_foldl_ren hinj]
        exact ihs _
      · rw [if_neg (fun hc => hv ((List.mem_map_of_injective (renV_inj hinj)).mp hc)),
          if_neg hv]
        exact ihs acc
  have h0 := houter []
  simp only [List.map_nil] at h0
  rw [h0, ← List.map_erase (renV_inj hinj)]
  simp

theorem min_fill_loop_ren {ρ : String → String} (hinj : Function.Injective ρ)
    (scopes : List (List (BVar Val))) :
    ∀ (rest : List (BVar Val)) (minv : BVar Val) (mf : Nat)
    (mns : List (BVar Val)),
    min_fill_loop (scopes.map (List.map (renV ρ))) (rest.map (renV ρ))
        (renV ρ minv) mf (mns.map (renV ρ)) =
      (renV ρ (min_fill_loop scopes rest minv mf mns).1,
       (min_fill_loop scopes rest minv mf mns).2.1,
       (min_fill_loop scopes rest minv mf mns).2.2.map (renV ρ)) := by
  intro rest
  induction rest with
  | nil => intro minv mf mns; rfl
  | cons v more ih =>
    intro minv mf mns
    simp only [List.map_cons, min_fill_loop]
    rw [compute_fill_ren hinj]
    dsimp only
    by_cases hlt : (compute_fill scopes v).1 < mf
    · rw [if_pos hlt, if_pos hlt]
      exact ih v (compute_fill scopes v).1 (compute_fill scopes v).2
    · rw [if_neg hlt, if_neg hlt]
      exact ih minv mf mns

theorem min_fill_var_ren {ρ : String → String} (hinj : Function.Injective ρ)
    (scopes : List (List (BVar Val))) (v : BVar Val) (vs : List (BVar Val)) :
    min_fill_var (scopes.map (List.map (renV ρ))) (renV ρ v :: vs.map (renV ρ)) =
      (renV ρ (min_fill_var scopes (v :: vs)).1,
       (min_fill_var scopes (v :: vs)).2.1,
       (min_fill_var scopes (v :: vs)).2.2.map (renV ρ)) := by
  simp only [min_fill_var]
  rw [compute_fill_ren hinj]
  dsimp only
  exact min_fill_loop_ren hinj scopes vs v _ _

theorem remove_var_ren {ρ : String → String} (hinj : Function.Injective ρ)
    (var : BVar Val) (new_scope : List (BVar Val))
    (scopes : List (List (BVar Val))) :
    remove_var (renV ρ var) (new_scope.map (renV ρ))
        (scopes.map (List.map (renV ρ))) =
      (remove_var var new_scope scopes).map (List.map (renV ρ)) := by
  unfold remove_var
  rw [List.filter_map]
  have hpred : ((fun s => decide ((renV ρ var) ∉ s)) ∘ (List.map (renV ρ))) =
      (fun s : List (BVar Val) => decide (var ∉ s)) := by
    funext s
    show decide ((renV ρ var) ∉ s.map (renV ρ)) = decide (var ∉ s)
    rw [decide_eq_decide]
    exact not_congr (List.mem_map_of_injective (renV_inj hinj))
  rw [hpred, List.map_append]
  rfl

theorem min_fill_aux_fuel_ren {ρ : String → String} (hinj : Function.Injective ρ) :
    ∀ (n : Nat) (scopes : List (List (BVar Val))) (Vars : List (BVar Val)),
    min_fill_aux_fuel n (scopes.map (List.map (renV ρ))) (Vars.map (renV ρ)) =
      (min_fill_aux_fuel n scopes Vars).map (renV ρ) := by
  intro n
  induction n with
  | zero => intro scopes Vars; rfl
  | succ n ih =>
    intro scopes Vars
    cases Vars with
    | nil => rfl
    | cons v vs =>
      simp only [List.map_cons, min_fill_aux_fuel]
      rw [min_fill_var_ren hinj]
      dsimp only
      rw [remove_var_ren hinj,
        show renV ρ v :: vs.map (renV ρ) = (v :: vs).map (renV ρ) from rfl,
        ← List.map_erase (renV_inj hinj), ih]

theorem collectVars_ren {ρ : String → String} (hinj : Function.Injective ρ)
    (scopes : List (List (BVar Val))) (QueryVar : BVar Val) :
    collectVars (scopes.map (List.map (renV ρ))) (renV ρ QueryVar) =
      (collectVars scopes QueryVar).map (renV ρ) := by
  unfold collectVars
  have hinner : ∀ (s : List (BVar Val)) (acc : List (BVar Val)),
      (s.map (renV ρ)).foldl
        (fun Vars v => if v ∉ Vars ∧ v ≠ renV ρ QueryVar then Vars ++ [v] else Vars)
        (acc.map (renV ρ)) =
      (s.foldl
        (fun Vars v => if v ∉ Vars ∧ v ≠ QueryVar then Vars ++ [v] else Vars)
        acc).map (renV ρ) := by
    intro s
    induction s with
    | nil => intro acc; rfl
    | cons w s' ihw =>
      intro acc
      simp only [List.map_cons, List.foldl]
      by_cases hc : w ∉ acc ∧ w ≠ QueryVar
      · rw [if_pos ⟨fun hm => hc.1 ((List.mem_map_of_injective (renV_inj hinj)).mp hm),
            fun he => hc.2 (renV_inj hinj he)⟩, if_pos hc,
          show acc.map (renV ρ) ++ [renV ρ w] = (acc ++ [w]).map (renV ρ) from by simp]
        exact ihw (acc ++ [w])
      · rw [if_neg (fun hcc => hc ⟨fun hm => hcc.1 (List.mem_map_of_mem _ hm),
            fun he => hcc.2 (by rw [he])⟩), if_neg hc]
        exact ihw acc
  have hgen : ∀ (ss : List (List (BVar Val))) (acc : List (BVar Val)),
      (ss.map (List.map (renV ρ))).foldl
        (fun Vars s => s.foldl
          (fun Vars v => if v ∉ Vars ∧ v ≠ renV ρ QueryVar then Vars ++ [v] else Vars)
          Vars)
        (acc.map (renV ρ)) =
      (ss.foldl
        (fun Vars s => s.foldl
          (fun Vars v => if v ∉ Vars ∧ v ≠ QueryVar then Vars ++ [v] else Vars)
          Vars)
        acc).map (renV ρ) := by
    intro ss
    induction ss with
    | nil => intro acc; rfl
    | cons s ss' ihs =>
      intro acc
      simp only [List.map_cons, List.foldl]
      rw [hinner s acc]
      exact ihs _
  have h0 := hgen scopes []
  simp only [List.map_nil] at h0
  exact h0

theorem min_fill_ordering_ren {ρ : String → String} (hinj : Function.Injective ρ)
    (Factors : List (BFactor Val)) (QueryVar : BVar Val) :
    min_fill_ordering (Factors.map (renF ρ)) (renV ρ QueryVar) =
      (min_fill_ordering Factors QueryVar).map (renV ρ) := by
  unfold min_fill_ordering min_fill_aux
  dsimp only
  have hsc : (Factors.map (renF ρ)).map get_scope =
      (Factors.map get_scope).map (List.map (renV ρ)) := by
    rw [List.map_map, List.map_map]
    rfl
  rw [hsc, collectVars_ren hinj, List.length_map]
  exact min_fill_aux_fuel_ren hinj _ _ _

theorem eliminateLoop_ren {ρ : String → String} (hinj : Function.Injective ρ)
    (factorList : List (BFactor Val)) (z : BVar Val) (g_scope : List (BVar Val)) :
    ∀ (vals : List Val) (g : BFactor Val) (F : List (BFactor Val)) (σ : AState),
    eliminateLoop (factorList.map (renF ρ)) (renV ρ z) (g_scope.map (renV ρ))
        (renF ρ g) (F.map (renF ρ)) σ vals =
      (renF ρ (eliminateLoop factorList z g_scope g F σ vals).1,
       (eliminateLoop factorList z g_scope g F σ vals).2.1.map (renF ρ),
       (eliminateLoop factorList z g_scope g F σ vals).2.2) := by
  intro vals
  induction vals with
  | nil => intro g F σ; rfl
  | cons val more ih =>
    intro g F σ
    simp only [eliminateLoop]
    rw [assign_ren hinj]
    dsimp only
    rw [compute_ren hinj]
    dsimp only
    exact ih _ _ _

theorem eliminateStep_ren {ρ : String → String} (hinj : Function.Injective ρ)
    (factorList : List (BFactor Val)) (z : BVar Val) (rest : List (BVar Val))
    (QueryVar : BVar Val) (σ : AState) :
    eliminateStep (factorList.map (renF ρ)) (renV ρ z) (rest.map (renV ρ))
        (renV ρ QueryVar) σ =
      ((eliminateStep factorList z rest QueryVar σ).1.map (renF ρ),
       (eliminateStep factorList z rest QueryVar σ).2) := by
  unfold eliminateStep
  dsimp only
  rw [show rest.map (renV ρ) ++ [renV ρ QueryVar] = (rest ++ [QueryVar]).map (renV ρ)
      from by simp,
    mkFactor_ren,
    show ([] : List (BFactor Val)) = ([] : List (BFactor Val)).map (renF ρ) from rfl,
    show (renV ρ z).dom = z.dom from rfl, eliminateLoop_ren hinj]
  dsimp only
  simp only [List.foldl_map]
  rw [← List.map_foldl_erase (renF_inj hinj)]
  simp

theorem eliminateZ_ren {ρ : String → String} (hinj : Function.Injective ρ) :
    ∀ (orderedList : List (BVar Val)) (factorList : List (BFactor Val))
    (QueryVar : BVar Val) (σ : AState),
    eliminateZ (factorList.map (renF ρ)) (orderedList.map (renV ρ))
        (renV ρ QueryVar) σ =
      ((eliminateZ factorList orderedList QueryVar σ).1.map (renF ρ),
       (eliminateZ factorList orderedList QueryVar σ).2) := by
  intro L
  induction L with
  | nil => intro fs Q σ; rfl
  | cons z rest ih =>
    intro fs Q σ
    simp only [List.map_cons, eliminateZ]
    rw [eliminateStep_ren hinj]
    dsimp only
    exact ih _ _ _

theorem distLoop_ren {ρ : String → String} (hinj : Function.Injective ρ)
    (QueryVar : BVar Val) :
    ∀ (vals : List Val) (fs : List (BFactor Val)) (σ : AState) (dist : List ℚ)
    (s : ℚ),
    distLoop (fs.map (renF ρ)) (renV ρ QueryVar) σ vals dist s =
      distLoop fs QueryVar σ vals dist s := by
  intro vals
  induction vals with
  | nil => intro fs σ dist s; rfl
  | cons val more ih =>
    intro fs σ dist s
    simp only [distLoop]
    rw [assign_ren hinj]
    dsimp only
    rw [prodFactors_ren]
    exact ih _ _ _ _

theorem VErun_ren {ρ : String → String} (hinj : Function.Injective ρ)
    (Net : BNet Val) (QueryVar : BVar Val) (evs : List (EVar Val)) (σ : AState) :
    VErun (renNet ρ Net) (renV ρ QueryVar) (evs.map (renE ρ)) min_fill_ordering σ =
      VErun Net QueryVar evs min_fill_ordering σ := by
  unfold VErun
  dsimp only
  rw [show factors (renNet ρ Net) = (factors Net).map (renF ρ) from rfl,
    restrict_ren hinj]
  dsimp only
  rw [min_fill_ordering_ren hinj, eliminateZ_ren hinj]
  dsimp only
  rw [show (renV ρ QueryVar).dom = QueryVar.dom from rfl, distLoop_ren hinj]

/-- **C7 (amended).**  Variable names do influence inference —
`get_var_in_scope` and `assign` match scope variables BY NAME — but under
any INJECTIVE renaming of names (one that keeps distinct names distinct),
`VE` with the min-fill ordering is invariant: renaming every variable of
the net, the query variable, and the evidence variables leaves the output
unchanged.  The claim's unrestricted version, allowing two distinct
variable objects to receive the same name, is refuted by
`claim_C7_counterexample`. -/
theorem claim_C7_amended (ρ : String → String) (hinj : Function.Injective ρ)
    (Net : BNet Val) (QueryVar : BVar Val) (evs : List (EVar Val)) (σ : AState) :
    VE (renNet ρ Net) (renV ρ QueryVar) (evs.map (renE ρ)) min_fill_ordering σ =
      VE Net QueryVar evs min_fill_ordering σ := by
  unfold VE
  dsimp only
  rw [VErun_ren hinj]

/-- The renaming that maps `"B"` to `"A"` and fixes every other name. -/
def ρBA : String → String := fun s => if s = "B" then "A" else s

def nA1 : BVar Nat := ⟨20, "A", [0, 1]⟩

def nB1 : BVar Nat := ⟨21, "B", [0, 1]⟩

def gA1 : BFactor Nat := add_values (mkFactor "PA" [nA1]) [([0], 3/10), ([1], 7/10)]

def gB1 : BFactor Nat := add_values (mkFactor "PB" [nB1]) [([0], 9/10), ([1], 1/10)]

def netN1 : BNet Nat := ⟨"n", [nA1, nB1], [gA1, gB1]⟩

/-- **Counterexample to C7 as stated.**  Renaming the variable object `B`
(id 21) to `"A"` — a renaming that gives two distinct Variable objects the
same name, changing nothing else — changes the output of `VE`:
`get_var_in_scope` and `assign` match scope variables by NAME, so after
the renaming the enumeration of one variable overwrites the other's slot
and the answer moves from the correct marginal `[9/10, 1/10]` to
`[27/34, 7/34]`.  Names are therefore not "used only for display". -/
theorem claim_C7_counterexample :
    renNet ρBA netN1 = ⟨"n", [nA1, ⟨21, "A", [0, 1]⟩],
      [gA1, ⟨"PB", [⟨21, "A", [0, 1]⟩], gB1.values⟩]⟩ ∧
    VE netN1 nB1 [] min_fill_ordering σZero = .ok [9/10, 1/10] ∧
    VE (renNet ρBA netN1) (renV ρBA nB1) [] min_fill_ordering σZero =
      .ok [27/34, 7/34] := by
  refine ⟨by with_unfolding_all rfl, ?_, ?_⟩
  · with_unfolding_all rfl
  · with_unfolding_all rfl


/-- Concrete chain variables for witnesses. -/
def vA : BVar Nat := ⟨10, "VA", [0, 1]⟩

def vB : BVar Nat := ⟨11, "VB", [0, 1]⟩

def vC : BVar Nat := ⟨12, "VC", [0, 1]⟩

def fA : BFactor Nat := add_values (mkFactor "PA" [vA]) [([0], 6/10), ([1], 4/10)]

def fB : BFactor Nat := add_values (mkFactor "PBgA" [vB, vA])
  [([0, 0], 9/10), ([0, 1], 3/10), ([1, 0], 1/10), ([1, 1], 7/10)]

def fC : BFactor Nat := add_values (mkFactor "PCgB" [vC, vB])
  [([0, 0], 8/10), ([0, 1], 2/10), ([1, 0], 2/10), ([1, 1], 8/10)]

def chainNet : BNet Nat := ⟨"chain", [vA, vB, vC], [fA, fB, fC]⟩

/-- Witness for C3 on the concrete chain net with evidence `A = 1`. -/
theorem claim_C3_probability_vector_witness :
    ∃ dist, VE chainNet vC [⟨vA, 1⟩] min_fill_ordering σZero = .ok dist ∧
      dist.length = vC.dom.length ∧ (∀ x ∈ dist, 0 ≤ x) ∧ dist.sum = 1 :=
  claim_C3_probability_vector chainNet vC [⟨vA, 1⟩] min_fill_ordering σZero
    (by simp only [nnF]; with_unfolding_all decide) (by with_unfolding_all decide)

/-- Witness for amended C5 on a two-factor list with evidence on `A`. -/
theorem claim_C5_amended_witness :
    (∀ f' ∈ (restrict [xf1, xf2] [⟨cA, 0⟩] σZero).1, ∀ e ∈ [(⟨cA, 0⟩ : EVar Nat)],
        e.var ∉ f'.scope) ∧
      (∀ f' ∈ (restrict [xf1, xf2] [⟨cA, 0⟩] σZero).1, ∀ e ∈ [(⟨cA, 0⟩ : EVar Nat)],
        get_var_in_scope f' e.var = none) ∧
      (restrict [xf1, xf2] [⟨cA, 0⟩] σZero).1.length = [xf1, xf2].length ∧
      (∀ i, (∀ e ∈ [(⟨cA, 0⟩ : EVar Nat)],
          get_var_in_scope ([xf1, xf2].getD i default) e.var = none) →
        (restrict [xf1, xf2] [⟨cA, 0⟩] σZero).1.getD i default =
          [xf1, xf2].getD i default) ∧
      (∀ σ' : AState, (restrict (restrict [xf1, xf2] [⟨cA, 0⟩] σZero).1 [⟨cA, 0⟩]
          σ').1 = (restrict [xf1, xf2] [⟨cA, 0⟩] σZero).1) :=
  claim_C5_amended [xf1, xf2] [⟨cA, 0⟩] σZero (by decide)

/-- Concrete single-variable net for the C1 counterexample: `P(W) = [3/5, 2/5]`. -/
def wV : BVar Nat := ⟨14, "W", [0, 1]⟩

def wf : BFactor Nat := add_values (mkFactor "PW" [wV]) [([0], 3/5), ([1], 2/5)]

def wnet : BNet Nat := ⟨"single", [wV], [wf]⟩

/-- **Counterexample to C1 as stated.**  On the one-variable net
`P(W) = [3/5, 2/5]` with the query variable itself given as evidence
`W = 0` (a well-formed net of at most 5 binary variables, evidence of
nonzero prior probability), `VE` returns the uniform distribution
`[1/2, 1/2]` while brute-force marginalization returns the point mass
`[1, 0]`: restriction removes the query variable from every factor scope,
so the per-query-value products coincide.  The claim fails when the query
variable itself appears among the evidence variables. -/
theorem claim_C1_counterexample :
    VarsWF wnet.Variables ∧
    (∀ v ∈ wnet.Variables, domain_size v = 2) ∧
    wnet.Variables.length ≤ 5 ∧
    ((List.range (domain_size wV)).map (bruteRaw wnet wV [⟨wV, 0⟩])).sum ≠ 0 ∧
    VE wnet wV [⟨wV, 0⟩] min_fill_ordering σZero = .ok [1/2, 1/2] ∧
    bruteDist wnet wV [⟨wV, 0⟩] = [1, 0] := by
  refine ⟨⟨by decide, by decide⟩, by decide, by decide, ?_, ?_, ?_⟩
  · with_unfolding_all decide
  · with_unfolding_all rfl
  · with_unfolding_all decide

/-- Witness for amended C1 on the concrete chain net with evidence `A = 1`. -/
theorem claim_C1_amended_witness :
    VE chainNet vC [⟨vA, 1⟩] min_fill_ordering σZero =
      Except.ok (bruteDist chainNet vC [⟨vA, 1⟩]) :=
  claim_C1_amended chainNet vC [⟨vA, 1⟩] σZero
    ⟨by decide, by decide⟩
    (by decide) (by decide) (by decide)
    (by with_unfolding_all decide)
    (by decide) (by decide) (by decide) (by decide) (by decide)
    (by with_unfolding_all decide)

/-- Witness for amended C7: prefixing every variable name with `"N"` (an
injective renaming) leaves the chain-net query unchanged. -/
theorem claim_C7_amended_witness :
    VE (renNet (fun s => "N" ++ s) chainNet) (renV (fun s => "N" ++ s) vC)
        ([⟨vA, 1⟩].map (renE (fun s => "N" ++ s))) min_fill_ordering σZero =
      VE chainNet vC [⟨vA, 1⟩] min_fill_ordering σZero :=
  claim_C7_amended (fun s => "N" ++ s)
    (fun a b h => by
      have h2 := congrArg String.data h
      simp only [String.data_append] at h2
      exact String.ext (List.append_cancel_left h2))
    chainNet vC [⟨vA, 1⟩] σZero

/-! ## C9: heap model of factor tables and the VE frame property

The pure embedding above treats each factor's `values` list as a value,
which cannot express Python's aliasing: a `Factor` object's table is a
heap-allocated list that `add_value_at_current_assignment` mutates in
place.  To settle the frame claim we re-run the same pipeline over an
explicit heap: an `HFactor` holds a reference (`ref`, the allocation
index) into a heap of tables; `Factor.__init__` allocates a fresh cell at
the end of the heap, and the single mutating primitive writes through the
reference.  Every definition below is the heap-threaded transliteration
of the corresponding function of `bnetbase.py`. -/

/-- A Python `Factor` object: its mutable `values` table lives in the heap
cell `ref`. -/
structure HFactor (Val : Type) where
  name : String
  scope : List (BVar Val)
  ref : Nat
deriving DecidableEq

/-- The heap of allocated `values` tables, addressed by allocation order. -/
abbrev Heap := List (List ℚ)

/-- `Factor.__init__`: allocate a fresh all-zero table at the end of the
heap. -/
def hMkFactor (name : String) (scope : List (BVar Val)) (h : Heap) :
    HFactor Val × Heap :=
  (⟨name, scope, h.length⟩, h ++ [List.replicate (prodSize scope) 0])

/-- `Factor.get_value_at_current_assignments`, reading through the heap. -/
def hGetValue (f : HFactor Val) (h : Heap) (σ : AState) : ℚ :=
  (h.getD f.ref []).getD (idx_at_assignment f.scope σ) 0

/-- `Factor.add_value_at_current_assignment`, writing through the heap:
the only mutation of a factor table in the whole pipeline. -/
def hAddValue (f : HFactor Val) (x : ℚ) (h : Heap) (σ : AState) : Heap :=
  h.set f.ref ((h.getD f.ref []).set (idx_at_assignment f.scope σ) x)

/-- `get_var_in_scope` on a heap factor. -/
def hGetVarInScope (f : HFactor Val) (var2 : BVar Val) : Option (BVar Val) :=
  f.scope.find? (fun var => var.name == var2.name)

/-- `assign(var, val, F)` on heap factors (no heap access: only variable
state is written). -/
def hAssign (var : BVar Val) (val : Val) (F : List (HFactor Val)) (σ : AState) :
    List (HFactor Val) × AState :=
  match F with
  | [] => ([], σ)
  | f :: rest =>
    match hGetVarInScope f var with
    | some fvar =>
      let σ1 := set_assignment fvar val σ
      let r := hAssign var val rest σ1
      (f :: r.1, r.2)
    | none => hAssign var val rest σ

/-- The running product of `compute`, read through the heap. -/
def hProdFactors (F : List (HFactor Val)) (h : Heap) (σ : AState) : ℚ :=
  F.foldl (fun p f => p * hGetValue f h σ) 1

/-- `compute(g, scope, F)` on the heap: the only writes go through `g`'s
reference. -/
def hCompute (g : HFactor Val) (scope : List (BVar Val)) (F : List (HFactor Val))
    (h : Heap) (σ : AState) : Heap × AState :=
  match scope with
  | [] =>
    let product := hProdFactors F h σ
    let old_val := hGetValue g h σ
    (hAddValue g (old_val + product) h σ, σ)
  | var :: rest =>
    var.dom.foldl
      (fun acc val =>
        let σ1 := (hAssign var val [g] acc.2).2
        let σ2 := (hAssign var val F σ1).2
        hCompute g rest F acc.1 σ2)
      (h, σ)

/-- The `for val in var.domain()` loop inside `hCompute`, unfolded. -/
def hComputeVals (g : HFactor Val) (var : BVar Val) (rest : List (BVar Val))
    (F : List (HFactor Val)) (h : Heap) (σ : AState) (vals : List Val) :
    Heap × AState :=
  match vals with
  | [] => (h, σ)
  | val :: more =>
    let σ1 := (hAssign var val [g] σ).2
    let σ2 := (hAssign var val F σ1).2
    let r := hCompute g rest F h σ2
    hComputeVals g var rest F r.1 r.2 more

theorem hComputeVals_foldl (var : BVar Val) (rest : List (BVar Val))
    (F : List (HFactor Val)) (vals : List Val) :
    ∀ (g : HFactor Val) (h : Heap) (σ : AState),
    vals.foldl
      (fun acc val =>
        let σ1 := (hAssign var val [g] acc.2).2
        let σ2 := (hAssign var val F σ1).2
        hCompute g rest F acc.1 σ2)
      (h, σ) = hComputeVals g var rest F h σ vals := by
  induction vals with
  | nil => intro g h σ; rfl
  | cons val more ih =>
    intro g h σ
    simp only [List.foldl, hComputeVals]
    exact ih _ _ _

theorem hCompute_cons (g : HFactor Val) (var : BVar Val) (rest : List (BVar Val))
    (F : List (HFactor Val)) (h : Heap) (σ : AState) :
    hCompute g (var :: rest) F h σ = hComputeVals g var rest F h σ var.dom :=
  hComputeVals_foldl var rest F var.dom g h σ

/-- `restrict`'s per-factor body on the heap: the replacement factor is a
fresh allocation. -/
def hRestrictFactor (e : EVar Val) (factor : HFactor Val) (h : Heap) (σ : AState) :
    HFactor Val × Heap × AState :=
  match hGetVarInScope factor e.var with
  | some var =>
    let σ1 := set_assignment var (get_evidence e) σ
    let g_scope := factor.scope.erase var
    let r := hMkFactor "" g_scope h
    let r2 := hCompute r.1 g_scope [factor] r.2 σ1
    (r.1, r2.1, r2.2)
  | none => (factor, h, σ)

/-- `restrict`'s inner loop on the heap. -/
def hRestrictPass (e : EVar Val) (factorList : List (HFactor Val)) (h : Heap)
    (σ : AState) : List (HFactor Val) × Heap × AState :=
  match factorList with
  | [] => ([], h, σ)
  | f :: rest =>
    let r1 := hRestrictFactor e f h σ
    let r2 := hRestrictPass e rest r1.2.1 r1.2.2
    (r1.1 :: r2.1, r2.2.1, r2.2.2)

/-- `restrict(factors, EvidenceVars)` on the heap. -/
def hRestrict (factorList : List (HFactor Val)) (EvidenceVars : List (EVar Val))
    (h : Heap) (σ : AState) : List (HFactor Val) × Heap × AState :=
  match EvidenceVars with
  | [] => (factorList, h, σ)
  | e :: rest =>
    let r := hRestrictPass e factorList h σ
    hRestrict r.1 rest r.2.1 r.2.2

/-- The `for z_val in z.domain()` loop of `eliminateZ` on the heap. -/
def hEliminateLoop (factorList : List (HFactor Val)) (z : BVar Val)
    (g_scope : List (BVar Val)) (g : HFactor Val) (F : List (HFactor Val))
    (h : Heap) (σ : AState) (vals : List Val) :
    List (HFactor Val) × Heap × AState :=
  match vals with
  | [] => (F, h, σ)
  | val :: more =>
    let rA := hAssign z val factorList σ
    let rC := hCompute g g_scope rA.1 h rA.2
    hEliminateLoop factorList z g_scope g rA.1 rC.1 rC.2 more

/-- One iteration of the `while orderedList` loop of `eliminateZ` on the
heap: the replacement factor `g` is a fresh allocation. -/
def hEliminateStep (factorList : List (HFactor Val)) (z : BVar Val)
    (rest : List (BVar Val)) (QueryVar : BVar Val) (h : Heap) (σ : AState) :
    List (HFactor Val) × Heap × AState :=
  let g_scope := rest ++ [QueryVar]
  let r := hMkFactor "" g_scope h
  let L := hEliminateLoop factorList z g_scope r.1 [] r.2 σ z.dom
  ((L.1.foldl (fun l f => l.erase f) factorList) ++ [r.1], L.2.1, L.2.2)

/-- `eliminateZ` on the heap. -/
def hEliminateZ (factorList : List (HFactor Val)) (orderedList : List (BVar Val))
    (QueryVar : BVar Val) (h : Heap) (σ : AState) :
    List (HFactor Val) × Heap × AState :=
  match orderedList with
  | [] => (factorList, h, σ)
  | z :: rest =>
    let r := hEliminateStep factorList z rest QueryVar h σ
    hEliminateZ r.1 rest QueryVar r.2.1 r.2.2

/-- The per-query-value loop of `VE` on the heap (reads only). -/
def hDistLoop (fs : List (HFactor Val)) (QueryVar : BVar Val) (h : Heap)
    (σ : AState) (vals : List Val) (dist : List ℚ) (s : ℚ) :
    List ℚ × ℚ × AState :=
  match vals with
  | [] => (dist, s, σ)
  | val :: more =>
    let σ1 := (hAssign QueryVar val fs σ).2
    let product := hProdFactors fs h σ1
    hDistLoop fs QueryVar h σ1 more (dist ++ [product]) (s + product)

/-- A Python `BN` object over heap factors. -/
structure HNet (Val : Type) where
  name : String
  Variables : List (BVar Val)
  Factors : List (HFactor Val)

/-- `BN.factors` (returns a copy of the factor list). -/
def hFactors (net : HNet Val) : List (HFactor Val) := net.Factors

/-- The type of `orderingFn` arguments of the heap `VE` (orderings read
only scopes, never tables). -/
abbrev HOrderingFn (Val : Type) := List (HFactor Val) → BVar Val → List (BVar Val)

/-- `VE` on the heap, returning the result together with the final heap. -/
def hVE (Net : HNet Val) (QueryVar : BVar Val) (EvidenceVars : List (EVar Val))
    (orderingFn : HOrderingFn Val) (h : Heap) (σ : AState) :
    Except String (List ℚ) × Heap :=
  let newFactors := hFactors Net
  let r1 := hRestrict newFactors EvidenceVars h σ
  let Z := orderingFn r1.1 QueryVar
  let r2 := hEliminateZ r1.1 Z QueryVar r1.2.1 r1.2.2
  let r := hDistLoop r2.1 QueryVar r2.2.1 r2.2.2 QueryVar.dom [] 0
  if r.2.1 = 0 ∧ r.1 ≠ [] then (.error "ZeroDivisionError", r2.2.1)
  else (.ok (r.1.map fun x => x / r.2.1), r2.2.1)

/-! ### Frame lemmas: all writes go to fresh cells -/

theorem heap_getD_set_ne (h : Heap) {i j : Nat} (a : List ℚ) (hij : i ≠ j) :
    (h.set i a).getD j [] = h.getD j [] := by
  simp [List.getD, List.getElem?_set_ne hij]

theorem heap_getD_append (h : Heap) (t : List (List ℚ)) {r : Nat}
    (hr : r < h.length) : (h ++ t).getD r [] = h.getD r [] := by
  simp [List.getD, List.getElem?_append_left hr]

theorem hAddValue_length (f : HFactor Val) (x : ℚ) (h : Heap) (σ : AState) :
    (hAddValue f x h σ).length = h.length := by
  simp [hAddValue]

theorem hAddValue_frame (f : HFactor Val) (x : ℚ) (h : Heap) (σ : AState) :
    ∀ r, r ≠ f.ref → (hAddValue f x h σ).getD r [] = h.getD r [] := by
  intro r hr
  exact heap_getD_set_ne h _ (fun hc => hr (hc.symm ▸ rfl))

theorem hCompute_frame :
    ∀ (scope : List (BVar Val)) (g : HFactor Val) (F : List (HFactor Val))
    (h : Heap) (σ : AState),
    (hCompute g scope F h σ).1.length = h.length ∧
      ∀ r, r ≠ g.ref → (hCompute g scope F h σ).1.getD r [] = h.getD r [] := by
  intro scope
  induction scope with
  | nil =>
    intro g F h σ
    exact ⟨hAddValue_length g _ h σ, hAddValue_frame g _ h σ⟩
  | cons var rest ih =>
    intro g F h σ
    rw [hCompute_cons]
    induction var.dom generalizing h σ with
    | nil => exact ⟨rfl, fun r _ => rfl⟩
    | cons val more ih2 =>
      simp only [hComputeVals]
      obtain ⟨hl1, hf1⟩ := ih g F h
        ((hAssign var val F ((hAssign var val [g] σ).2)).2)
      obtain ⟨hl2, hf2⟩ := ih2
        (hCompute g rest F h ((hAssign var val F ((hAssign var val [g] σ).2)).2)).1
        (hCompute g rest F h ((hAssign var val F ((hAssign var val [g] σ).2)).2)).2
      exact ⟨hl2.trans hl1,
        fun r hr => (hf2 r hr).trans (hf1 r hr)⟩

theorem hRestrictFactor_frame (e : EVar Val) (f : HFactor Val) (h : Heap)
    (σ : AState) :
    h.length ≤ (hRestrictFactor e f h σ).2.1.length ∧
      ∀ r < h.length, (hRestrictFactor e f h σ).2.1.getD r [] = h.getD r [] := by
  unfold hRestrictFactor
  cases hfind : hGetVarInScope f e.var with
  | none => exact ⟨Nat.le_refl _, fun r _ => rfl⟩
  | some var =>
    dsimp only
    obtain ⟨hl, hf⟩ := hCompute_frame (f.scope.erase var)
      (hMkFactor "" (f.scope.erase var) h).1 [f]
      (hMkFactor "" (f.scope.erase var) h).2
      (set_assignment var (get_evidence e) σ)
    constructor
    · rw [hl]
      show h.length ≤ (h ++ [_]).length
      simp
    · intro r hr
      have hne : r ≠ (hMkFactor "" (f.scope.erase var) h).1.ref := by
        show r ≠ h.length
        exact Nat.ne_of_lt hr
      rw [hf r hne]
      exact heap_getD_append h _ hr

theorem hRestrictPass_frame (e : EVar Val) :
    ∀ (fs : List (HFactor Val)) (h : Heap) (σ : AState),
    h.length ≤ (hRestrictPass e fs h σ).2.1.length ∧
      ∀ r < h.length, (hRestrictPass e fs h σ).2.1.getD r [] = h.getD r [] := by
  intro fs
  induction fs with
  | nil => intro h σ; exact ⟨Nat.le_refl _, fun r _ => rfl⟩
  | cons f rest ih =>
    intro h σ
    simp only [hRestrictPass]
    obtain ⟨ha1, hf1⟩ := hRestrictFactor_frame e f h σ
    obtain ⟨ha2, hf2⟩ := ih (hRestrictFactor e f h σ).2.1 (hRestrictFactor e f h σ).2.2
    exact ⟨ha1.trans ha2,
      fun r hr => (hf2 r (lt_of_lt_of_le hr ha1)).trans (hf1 r hr)⟩

theorem hRestrict_frame :
    ∀ (evs : List (EVar Val)) (fs : List (HFactor Val)) (h : Heap) (σ : AState),
    h.length ≤ (hRestrict fs evs h σ).2.1.length ∧
      ∀ r < h.length, (hRestrict fs evs h σ).2.1.getD r [] = h.getD r [] := by
  intro evs
  induction evs with
  | nil => intro fs h σ; exact ⟨Nat.le_refl _, fun r _ => rfl⟩
  | cons e rest ih =>
    intro fs h σ
    simp only [hRestrict]
    obtain ⟨ha1, hf1⟩ := hRestrictPass_frame e fs h σ
    obtain ⟨ha2, hf2⟩ := ih (hRestrictPass e fs h σ).1
      (hRestrictPass e fs h σ).2.1 (hRestrictPass e fs h σ).2.2
    exact ⟨ha1.trans ha2,
      fun r hr => (hf2 r (lt_of_lt_of_le hr ha1)).trans (hf1 r hr)⟩

theorem hEliminateLoop_frame (factorList : List (HFactor Val)) (z : BVar Val)
    (g_scope : List (BVar Val)) (g : HFactor Val) :
    ∀ (vals : List Val) (F : List (HFactor Val)) (h : Heap) (σ : AState),
    (hEliminateLoop factorList z g_scope g F h σ vals).2.1.length = h.length ∧
      ∀ r, r ≠ g.ref →
        (hEliminateLoop factorList z g_scope g F h σ vals).2.1.getD r [] =
          h.getD r [] := by
  intro vals
  induction vals with
  | nil => intro F h σ; exact ⟨rfl, fun r _ => rfl⟩
  | cons val more ih =>
    intro F h σ
    simp only [hEliminateLoop]
    obtain ⟨hl1, hf1⟩ := hCompute_frame g_scope g
      (hAssign z val factorList σ).1 h (hAssign z val factorList σ).2
    obtain ⟨hl2, hf2⟩ := ih (hAssign z val factorList σ).1
      (hCompute g g_scope (hAssign z val factorList σ).1 h
        (hAssign z val factorList σ).2).1
      (hCompute g g_scope (hAssign z val factorList σ).1 h
        (hAssign z val factorList σ).2).2
    exact ⟨hl2.trans hl1, fun r hr => (hf2 r hr).trans (hf1 r hr)⟩

theorem hEliminateStep_frame (factorList : List (HFactor Val)) (z : BVar Val)
    (rest : List (BVar Val)) (QueryVar : BVar Val) (h : Heap) (σ : AState) :
    h.length ≤ (hEliminateStep factorList z rest QueryVar h σ).2.1.length ∧
      ∀ r < h.length,
        (hEliminateStep factorList z rest QueryVar h σ).2.1.getD r [] =
          h.getD r [] := by
  unfold hEliminateStep
  dsimp only
  obtain ⟨hl, hf⟩ := hEliminateLoop_frame factorList z (rest ++ [QueryVar])
    (hMkFactor "" (rest ++ [QueryVar]) h).1 z.dom []
    (hMkFactor "" (rest ++ [QueryVar]) h).2 σ
  constructor
  · rw [hl]
    show h.length ≤ (h ++ [_]).length
    simp
  · intro r hr
    have hne : r ≠ (hMkFactor "" (rest ++ [QueryVar]) h).1.ref := by
      show r ≠ h.length
      exact Nat.ne_of_lt hr
    rw [hf r hne]
    exact heap_getD_append h _ hr

theorem hEliminateZ_frame (QueryVar : BVar Val) :
    ∀ (orderedList : List (BVar Val)) (fs : List (HFactor Val)) (h : Heap)
    (σ : AState),
    h.length ≤ (hEliminateZ fs orderedList QueryVar h σ).2.1.length ∧
      ∀ r < h.length,
        (hEliminateZ fs orderedList QueryVar h σ).2.1.getD r [] = h.getD r [] := by
  intro L
  induction L with
  | nil => intro fs h σ; exact ⟨Nat.le_refl _, fun r _ => rfl⟩
  | cons z rest ih =>
    intro fs h σ
    simp only [hEliminateZ]
    obtain ⟨ha1, hf1⟩ := hEliminateStep_frame fs z rest QueryVar h σ
    obtain ⟨ha2, hf2⟩ := ih (hEliminateStep fs z rest QueryVar h σ).1
      (hEliminateStep fs z rest QueryVar h σ).2.1
      (hEliminateStep fs z rest QueryVar h σ).2.2
    exact ⟨ha1.trans ha2,
      fun r hr => (hf2 r (lt_of_lt_of_le hr ha1)).trans (hf1 r hr)⟩

/-- **C9.**  `VE` never mutates the BN: `BN.factors` hands `VE` a copy of
the factor list, and every table write of the whole pipeline goes to a
factor freshly allocated during the run, so every heap cell that existed
before the call — in particular the table of every factor of the BN — is
unchanged when `VE` returns (and the heap only grows). -/
theorem claim_C9_no_mutation (Net : HNet Val) (QueryVar : BVar Val)
    (evs : List (EVar Val)) (orderingFn : HOrderingFn Val) (h : Heap)
    (σ : AState) :
    hFactors Net = Net.Factors ∧
    h.length ≤ (hVE Net QueryVar evs orderingFn h σ).2.length ∧
    (∀ r < h.length,
      (hVE Net QueryVar evs orderingFn h σ).2.getD r [] = h.getD r []) ∧
    (∀ f ∈ Net.Factors, f.ref < h.length →
      (hVE Net QueryVar evs orderingFn h σ).2.getD f.ref [] = h.getD f.ref []) := by
  obtain ⟨ha1, hf1⟩ := hRestrict_frame evs (hFactors Net) h σ
  obtain ⟨ha2, hf2⟩ := hEliminateZ_frame QueryVar
    (orderingFn (hRestrict (hFactors Net) evs h σ).1 QueryVar)
    (hRestrict (hFactors Net) evs h σ).1
    (hRestrict (hFactors Net) evs h σ).2.1
    (hRestrict (hFactors Net) evs h σ).2.2
  have hheap : (hVE Net QueryVar evs orderingFn h σ).2 =
      (hEliminateZ (hRestrict (hFactors Net) evs h σ).1
        (orderingFn (hRestrict (hFactors Net) evs h σ).1 QueryVar) QueryVar
        (hRestrict (hFactors Net) evs h σ).2.1
        (hRestrict (hFactors Net) evs h σ).2.2).2.1 := by
    unfold hVE
    dsimp only
    split
    · rfl
    · rfl
  have hmono : h.length ≤ (hVE Net QueryVar evs orderingFn h σ).2.length := by
    rw [hheap]
    exact ha1.trans ha2
  have hframe : ∀ r < h.length,
      (hVE Net QueryVar evs orderingFn h σ).2.getD r [] = h.getD r [] := by
    intro r hr
    rw [hheap, hf2 r (lt_of_lt_of_le hr ha1), hf1 r hr]
  exact ⟨rfl, hmono, hframe, fun f hf hr => hframe f.ref hr⟩

/-- Heap-factor version of the one-variable witness net. -/
def hwf : HFactor Nat := ⟨"PW", [wV], 0⟩

def hwnet : HNet Nat := ⟨"single", [wV], [hwf]⟩

/-- Witness for C9 on a one-factor net whose table lives in heap cell 0:
after a full `VE` run the cell still holds `[3/5, 2/5]`. -/
theorem claim_C9_no_mutation_witness :
    (hVE hwnet wV [] (fun _ _ => []) [[3/5, 2/5]] σZero).2.getD 0 [] =
      ([[3/5, 2/5]] : Heap).getD 0 [] :=
  (claim_C9_no_mutation hwnet wV [] (fun _ _ => []) [[3/5, 2/5]] σZero).2.2.2
    hwf (by decide) (by decide)

end BnetBase
